import Mathlib

/-! # process_image.c: pixel addressing, traversal and colour transforms

A shallow embedding of `src/process_image.c`.

* An `image` is the C struct: three `int` fields `w`, `h`, `c` and the sample
  store behind `data`, here a list of samples.
* Samples are rationals, and the transforms are modelled in exact arithmetic. The two
  colour conversions are given a second time with the rounding of the C types
  (`frgb_to_hsv_float`, `fhsv_to_rgb_float`): what is proved of the hue range and of the
  way from HSV to RGB and back depends on it.
* A run that would leave defined behaviour stops with a `Fault`: a failed
  `assert`, or a load or store outside the sample store (also through a NULL
  image pointer).
* `idx` is computed in 32-bit `int` arithmetic, modelled by `wrap_int`.
* `copy_image`, whose contract is about which store an image owns, is modelled on a
  `Memory` of stores by address; an `image_ptr` is the struct with the address in `data`.
* A callback of a traversal receives its images and hands back the sample
  stores as it leaves them together with the memory behind `fmap_args`; the
  header fields `w`, `h`, `c` are out of its reach, as in the program, where
  every callback passes `*im1` and `*im2` on by value. The loop tests
  `y < im1->h`, `x < im1->w`, `c < im1->c` therefore compare with the same
  extent every time, and each loop is modelled by its number of iterations.
-/

namespace ProcessImage

/-! ## Data model -/

/-- Ways a run stops short of returning. -/
inductive Fault where
  | assertion
  | memory
  deriving DecidableEq, Repr

/-- The C struct `image` (declared in `image.h`): `int w, h, c; float *data`. -/
structure image where
  w : Int
  h : Int
  c : Int
  data : List ℚ
  deriving DecidableEq

/-- Largest value of a C `int`. -/
def INT_MAX : Int := 2147483647

/-- Reduction of an integer into the range of a 32-bit two-complement `int`. -/
def wrap_int (n : Int) : Int := (n + 2147483648) % 4294967296 - 2147483648

/-- Load `d[i]`; outside the store the run faults. -/
def load (d : List ℚ) (i : Int) : Except Fault ℚ :=
  if 0 ≤ i then
    match d[i.toNat]? with
    | some v => .ok v
    | none => .error .memory
  else .error .memory

/-- Store `d[i] = v`; outside the store the run faults. -/
def poke (d : List ℚ) (i : Int) (v : ℚ) : Except Fault (List ℚ) :=
  if 0 ≤ i ∧ i.toNat < d.length then .ok (d.set i.toNat v) else .error .memory

/-! ## Indexing (lines 10-44) -/

/-- Lines 10-24. The result is `(flag, xclamp, yclamp, cclamp)`. -/
def clamp_padding (im : image) (x y c : Int) : Bool × Int × Int × Int :=
  let xclamp := x
  let yclamp := y
  let cclamp := c
  let xclamp := if x < 0 then 0 else xclamp
  let yclamp := if y < 0 then 0 else yclamp
  let cclamp := if c < 0 then 0 else cclamp
  let xclamp := if x ≥ im.w then im.w - 1 else xclamp
  let yclamp := if y ≥ im.h then im.h - 1 else yclamp
  let cclamp := if c ≥ im.c then im.c - 1 else cclamp
  (decide (xclamp = x) && decide (yclamp = y) && decide (cclamp = c), xclamp, yclamp, cclamp)

/-- Lines 26-29, in `int` arithmetic. -/
def idx (im : image) (x y c : Int) : Int :=
  wrap_int (c * im.w * im.h + y * im.w + x)

/-- Lines 31-36. -/
def get_pixel (im : image) (x y c : Int) : Except Fault ℚ :=
  let r := clamp_padding im x y c
  load im.data (idx im r.2.1 r.2.2.1 r.2.2.2)

/-- Lines 38-44. The image handed back has the header of `im` and the store after the write. -/
def set_pixel (im : image) (x y c : Int) (v : ℚ) : Except Fault image :=
  let r := clamp_padding im x y c
  if r.1 then do
    let d ← poke im.data (idx im x y c) v
    pure { im with data := d }
  else
    pure im

/-! ## Map (lines 49-71) -/

/-- What a callback leaves behind: the store of `im1`, the store of `im2` when it wrote
one, and the memory behind `fmap_args`. -/
abbrev Effect (α : Type) : Type := List ℚ × Option (List ℚ) × α

/-- Line 49. -/
abbrev fmap_yx (α : Type) : Type := image → Option image → Int → Int → α → Except Fault (Effect α)

/-- Line 51. -/
abbrev fmap_cyx (α : Type) : Type :=
  image → Option image → Int → Int → Int → α → Except Fault (Effect α)

/-- The images of a traversal after a callback: headers as before, stores as the callback left them. -/
def settle {α : Type} (im1 : image) (im2 : Option image) (r : Effect α) : image × Option image × α :=
  ({ im1 with data := r.1 },
   (match im2, r.2.1 with
    | some i, some d => some { i with data := d }
    | i, _ => i),
   r.2.2)

/-- The loop `for(...; x < im1->w; x++)` of lines 56-58 with `n` iterations left. -/
def map_yx_row {α : Type} (f : fmap_yx α) (y : Int) :
    Nat → Int → image → Option image → α → Except Fault (image × Option image × α)
  | 0, _, im1, im2, a => .ok (im1, im2, a)
  | n + 1, x, im1, im2, a => do
    let r ← f im1 im2 x y a
    let s := settle im1 im2 r
    map_yx_row f y n (x + 1) s.1 s.2.1 s.2.2

/-- The loop `for(...; y < im1->h; y++)` of lines 55-59 with `n` iterations left. -/
def map_yx_rows {α : Type} (f : fmap_yx α) :
    Nat → Int → image → Option image → α → Except Fault (image × Option image × α)
  | 0, _, im1, im2, a => .ok (im1, im2, a)
  | n + 1, y, im1, im2, a => do
    let s ← map_yx_row f y im1.w.toNat 0 im1 im2 a
    map_yx_rows f n (y + 1) s.1 s.2.1 s.2.2

/-- Lines 53-60. -/
def map_yx {α : Type} (im1 : image) (im2 : Option image) (f : fmap_yx α) (fmap_args : α) :
    Except Fault (image × Option image × α) :=
  map_yx_rows f im1.h.toNat 0 im1 im2 fmap_args

/-- The loop over `x` of lines 66-68 with `n` iterations left. -/
def map_cyx_row {α : Type} (f : fmap_cyx α) (c y : Int) :
    Nat → Int → image → Option image → α → Except Fault (image × Option image × α)
  | 0, _, im1, im2, a => .ok (im1, im2, a)
  | n + 1, x, im1, im2, a => do
    let r ← f im1 im2 x y c a
    let s := settle im1 im2 r
    map_cyx_row f c y n (x + 1) s.1 s.2.1 s.2.2

/-- The loop over `y` of lines 65-69 with `n` iterations left. -/
def map_cyx_rows {α : Type} (f : fmap_cyx α) (c : Int) :
    Nat → Int → image → Option image → α → Except Fault (image × Option image × α)
  | 0, _, im1, im2, a => .ok (im1, im2, a)
  | n + 1, y, im1, im2, a => do
    let s ← map_cyx_row f c y im1.w.toNat 0 im1 im2 a
    map_cyx_rows f c n (y + 1) s.1 s.2.1 s.2.2

/-- The loop over `c` of lines 64-70 with `n` iterations left. -/
def map_cyx_planes {α : Type} (f : fmap_cyx α) :
    Nat → Int → image → Option image → α → Except Fault (image × Option image × α)
  | 0, _, im1, im2, a => .ok (im1, im2, a)
  | n + 1, c, im1, im2, a => do
    let s ← map_cyx_rows f c im1.h.toNat 0 im1 im2 a
    map_cyx_planes f n (c + 1) s.1 s.2.1 s.2.2

/-- Lines 62-71. -/
def map_cyx {α : Type} (im1 : image) (im2 : Option image) (f : fmap_cyx α) (fmap_args : α) :
    Except Fault (image × Option image × α) :=
  map_cyx_planes f im1.c.toNat 0 im1 im2 fmap_args

/-! ## Copy (lines 76-87) -/

/-- Lines 76-80. -/
def fcopy_image : fmap_cyx Unit := fun im1 im2 x y c args => do
  let v ← get_pixel im1 x y c
  match im2 with
  | none => .error .memory
  | some out => do
    let out ← set_pixel out x y c v
    pure (im1.data, some out.data, args)

/-- The sample stores in memory, by address: the address is the value a `float *data`
holds. -/
abbrev Memory : Type := List (List ℚ)

/-- The C struct `image` as it is passed and returned by value: the header fields and the
address held in `data`. -/
structure image_ptr where
  w : Int
  h : Int
  c : Int
  data : Nat
  deriving DecidableEq

/-- The image behind a struct: its header with the store its `data` points to. A `data`
that points to no store faults. -/
def fetch (m : Memory) (p : image_ptr) : Except Fault image :=
  match m[p.data]? with
  | some d => .ok { w := p.w, h := p.h, c := p.c, data := d }
  | none => .error .memory

/-- Lines 31-36 on memory: `get_pixel(p, x, y, c)`. -/
def get_pixel_at (m : Memory) (p : image_ptr) (x y c : Int) : Except Fault ℚ := do
  let im ← fetch m p
  get_pixel im x y c

/-- Lines 38-44 on memory: `set_pixel(p, x, y, c, v)`; the result is the memory after the
call, in which only the store `p.data` points to can differ. -/
def set_pixel_at (m : Memory) (p : image_ptr) (x y c : Int) (v : ℚ) : Except Fault Memory := do
  let im ← fetch m p
  let im ← set_pixel im x y c v
  pure (m.set p.data im.data)

/-- Lines 82-87, on memory. `make_image` (declared in `image.h`, not part of this file) is a
parameter: from the memory and the extents it gives the memory after the allocation and the
struct of the new image. The traversal runs on the two images as fetched and both stores are
written back; `fcopy_image` writes what it has read at the same coordinate, so this is also
what happens should the two structs hold the same address. The result is the memory after
the call and the struct returned. -/
def copy_image (make_image : Memory → Int → Int → Int → Memory × image_ptr) (m : Memory)
    (im : image_ptr) : Except Fault (Memory × image_ptr) := do
  let a := make_image m im.w im.h im.c
  let m := a.1
  let copy := a.2
  let src ← fetch m im
  let dst ← fetch m copy
  let s ← map_cyx src (some dst) fcopy_image ()
  match s.2.1 with
  | some dst => pure ((m.set im.data s.1.data).set copy.data dst.data, copy)
  | none => .error .memory

/-! ## RGB to grayscale (lines 92-111) -/

/-- Line 92. -/
def R_WEIGHT : ℚ := 299 / 1000

/-- Line 93. -/
def G_WEIGHT : ℚ := 587 / 1000

/-- Line 94. -/
def B_WEIGHT : ℚ := 114 / 1000

/-- Lines 96-103. -/
def frgb_to_grayscale : fmap_yx Unit := fun im1 im2 x y args => do
  let r ← get_pixel im1 x y 0
  let g ← get_pixel im1 x y 1
  let b ← get_pixel im1 x y 2
  let v := r * R_WEIGHT + g * G_WEIGHT + b * B_WEIGHT
  match im2 with
  | none => .error .memory
  | some out => do
    let out ← set_pixel out x y 0 v
    pure (im1.data, some out.data, args)

/-- Lines 105-111. The result is the argument image as the call leaves it, and the
returned grayscale image. -/
def rgb_to_grayscale (make_image : Int → Int → Int → image) (im : image) :
    Except Fault (image × image) :=
  if im.c = 3 then do
    let gray := make_image im.w im.h 1
    let s ← map_yx im (some gray) frgb_to_grayscale ()
    match s.2.1 with
    | some gray => pure (s.1, gray)
    | none => .error .memory
  else .error .assertion

/-! ## Shift (lines 116-133) -/

/-- Lines 116-119. -/
structure cv_args where
  c : Int
  v : ℚ
  deriving DecidableEq

/-- Lines 121-127. -/
def fshift_image : fmap_yx cv_args := fun im1 _im2 x y args => do
  let c := args.c
  let v := args.v
  let value ← get_pixel im1 x y c
  let im1 ← set_pixel im1 x y c (value + v)
  pure (im1.data, none, args)

/-- Lines 129-133. The result is the image as the call leaves it. -/
def shift_image (im : image) (c : Int) (v : ℚ) : Except Fault image := do
  let args : cv_args := { c := c, v := v }
  let s ← map_yx im none fshift_image args
  pure s.1

/-! ## Clamp (lines 138-149) -/

/-- Lines 138-144. -/
def fclamp_image : fmap_cyx Unit := fun im1 _im2 x y c args => do
  let v ← get_pixel im1 x y c
  let v := if v > 1 then 1 else v
  let v := if v < 0 then 0 else v
  let im1 ← set_pixel im1 x y c v
  pure (im1.data, none, args)

/-- Lines 146-149. The result is the image as the call leaves it. -/
def clamp_image (im : image) : Except Fault image := do
  let s ← map_cyx im none fclamp_image ()
  pure s.1

/-! ## Helpers (lines 154-162) and the C library functions used -/

/-- Lines 154-157. -/
def three_way_max (a b c : ℚ) : ℚ :=
  if a > b then (if a > c then a else c) else (if b > c then b else c)

/-- Lines 159-162. -/
def three_way_min (a b c : ℚ) : ℚ :=
  if a < b then (if a < c then a else c) else (if b < c then b else c)

/-- The C library `fabs`. -/
def fabs (x : ℚ) : ℚ := if x < 0 then -x else x

/-- Rounding toward zero. -/
def trunc (q : ℚ) : Int := if 0 ≤ q then Int.floor q else Int.ceil q

/-- The C library `fmod`: `x - n * y` with `n` the quotient `x / y` rounded toward zero. -/
def fmod (x y : ℚ) : ℚ := x - (trunc (x / y) : ℚ) * y

/-! ## RGB to HSV (lines 167-207) -/

/-- Lines 173-193 of `frgb_to_hsv`: the arithmetic between the three reads and the three
writes. The result is `(H, S, V)`. -/
def frgb_to_hsv_calc (R G B : ℚ) : ℚ × ℚ × ℚ :=
  let V := three_way_max R G B
  let C := V - three_way_min R G B
  let S := if V = 0 then 0 else C / V
  let h :=
    if C = 0 then 0
    else if V = R then (G - B) / C
    else if V = G then (B - R) / C + 2
    else (R - G) / C + 4
  let H := if h < 0 then h / 6 + 1 else h / 6
  (H, S, V)

/-- Lines 167-198. -/
def frgb_to_hsv : fmap_yx Unit := fun im1 _im2 x y args => do
  let R ← get_pixel im1 x y 0
  let G ← get_pixel im1 x y 1
  let B ← get_pixel im1 x y 2
  let r := frgb_to_hsv_calc R G B
  let im1 ← set_pixel im1 x y 0 r.1
  let im1 ← set_pixel im1 x y 1 r.2.1
  let im1 ← set_pixel im1 x y 2 r.2.2
  pure (im1.data, none, args)

/-- Lines 203-207. The result is the image as the call leaves it. -/
def rgb_to_hsv (im : image) : Except Fault image :=
  if im.c = 3 then do
    let s ← map_yx im none frgb_to_hsv ()
    pure s.1
  else .error .assertion

/-! ## HSV to RGB (lines 209-256) -/

/-- Lines 211-246 of `fhsv_to_rgb`: the arithmetic between the three reads and the three
writes, from the samples `(p0, p1, p2)` read in channels 0, 1, 2. The result is the three
samples written, `(R + m, G + m, B + m)`. -/
def fhsv_to_rgb_calc (p0 p1 p2 : ℚ) : ℚ × ℚ × ℚ :=
  let H := 360 * p0
  let S := p1
  let V := p2
  let C := V * S
  let h := H / 60
  let X := C * (1 - fabs (fmod h 2 - 1))
  let RGB : ℚ × ℚ × ℚ :=
    if 0 ≤ h ∧ h < 1 then (C, X, 0)
    else if 1 ≤ h ∧ h < 2 then (X, C, 0)
    else if 2 ≤ h ∧ h < 3 then (0, C, X)
    else if 3 ≤ h ∧ h < 4 then (0, X, C)
    else if 4 ≤ h ∧ h < 5 then (X, 0, C)
    else (C, 0, X)
  let m := V - C
  (RGB.1 + m, RGB.2.1 + m, RGB.2.2 + m)

/-- Lines 209-250. -/
def fhsv_to_rgb : fmap_yx Unit := fun im1 _im2 x y args => do
  let p0 ← get_pixel im1 x y 0
  let p1 ← get_pixel im1 x y 1
  let p2 ← get_pixel im1 x y 2
  let r := fhsv_to_rgb_calc p0 p1 p2
  let im1 ← set_pixel im1 x y 0 r.1
  let im1 ← set_pixel im1 x y 1 r.2.1
  let im1 ← set_pixel im1 x y 2 r.2.2
  pure (im1.data, none, args)

/-- Lines 252-256. The result is the image as the call leaves it. -/
def hsv_to_rgb (im : image) : Except Fault image :=
  if im.c = 3 then do
    let s ← map_yx im none fhsv_to_rgb ()
    pure s.1
  else .error .assertion

/-! ## Scale (lines 261-273) -/

/-- Lines 261-267. -/
def fscale_image : fmap_yx cv_args := fun im1 _im2 x y args => do
  let c := args.c
  let v := args.v
  let value ← get_pixel im1 x y c
  let im1 ← set_pixel im1 x y c (value * v)
  pure (im1.data, none, args)

/-- Lines 269-273. The result is the image as the call leaves it. -/
def scale_image (im : image) (c : Int) (v : ℚ) : Except Fault image := do
  let args : cv_args := { c := c, v := v }
  let s ← map_yx im none fscale_image args
  pure s.1

/-! ## Binary32 arithmetic

The colour conversions once more, with every arithmetic operation rounded as the C types
prescribe: `float` operations to binary32, the operations on the `double` results of
`fmod` and `fabs` to binary64, round to nearest, ties to even. The exponent range is not
bounded above, so overflow to infinity is outside these definitions. -/

/-- Rounding to the nearest integer, ties to the even one. -/
def round_even (q : ℚ) : Int :=
  if q - Int.floor q < 1 / 2 then Int.floor q
  else if 1 / 2 < q - Int.floor q then Int.floor q + 1
  else if Int.floor q % 2 = 0 then Int.floor q
  else Int.floor q + 1

/-- The exponent `e` of the binade `[2^e, 2^(e+1))` of `|q|`, no less than the least
exponent `emin` of the format (the subnormal numbers have the exponent `emin`). -/
def binade (emin : Int) (q : ℚ) : Int := max (Int.log 2 |q|) emin

/-- Rounding to the nearest number of the binary format with `p` significant bits and least
exponent `emin`, ties to even: the nearest multiple of `2^(e - (p - 1))` in the binade `e`
of the argument. -/
def fl (p : Nat) (emin : Int) (q : ℚ) : ℚ :=
  (round_even (q / 2 ^ (binade emin q - ((p : Int) - 1))) : ℚ) *
    2 ^ (binade emin q - ((p : Int) - 1))

/-- Rounding to `float` (binary32). -/
def fl32 (q : ℚ) : ℚ := fl 24 (-126) q

/-- Rounding to `double` (binary64). -/
def fl64 (q : ℚ) : ℚ := fl 53 (-1022) q

/-- Lines 173-193 of `frgb_to_hsv` in `float` arithmetic, on `float` samples. The result is
`(H, S, V)`. -/
def frgb_to_hsv_float (R G B : ℚ) : ℚ × ℚ × ℚ :=
  let V := three_way_max R G B
  let C := fl32 (V - three_way_min R G B)
  let S := if V = 0 then 0 else fl32 (C / V)
  let h :=
    if C = 0 then 0
    else if V = R then fl32 (fl32 (G - B) / C)
    else if V = G then fl32 (fl32 (fl32 (B - R) / C) + 2)
    else fl32 (fl32 (fl32 (R - G) / C) + 4)
  let H := if h < 0 then fl32 (fl32 (h / 6) + 1) else fl32 (h / 6)
  (H, S, V)

/-- Lines 211-249 of `fhsv_to_rgb` in `float` arithmetic, on the `float` samples
`(p0, p1, p2)` read in channels 0, 1, 2; `fmod` (which is exact) and `fabs` give `double`s,
so line 217 is evaluated in `double` and rounded to `float` on assignment. The result is
the three samples written. -/
def fhsv_to_rgb_float (p0 p1 p2 : ℚ) : ℚ × ℚ × ℚ :=
  let H := fl32 (360 * p0)
  let S := p1
  let V := p2
  let C := fl32 (V * S)
  let h := fl32 (H / 60)
  let X := fl32 (fl64 (C * fl64 (1 - fabs (fl64 (fmod h 2 - 1)))))
  let RGB : ℚ × ℚ × ℚ :=
    if 0 ≤ h ∧ h < 1 then (C, X, 0)
    else if 1 ≤ h ∧ h < 2 then (X, C, 0)
    else if 2 ≤ h ∧ h < 3 then (0, C, X)
    else if 3 ≤ h ∧ h < 4 then (0, X, C)
    else if 4 ≤ h ∧ h < 5 then (X, 0, C)
    else (C, 0, X)
  let m := fl32 (V - C)
  (fl32 (RGB.1 + m), fl32 (RGB.2.1 + m), fl32 (RGB.2.2 + m))

/-! ## Well-formed images -/

/-- An image as the allocator hands it out: positive extents, a store of `w*h*c` samples,
and `w*h*c` a value of the C type `int` (the fields and every offset are `int`s). -/
def WellFormed (im : image) : Prop :=
  0 < im.w ∧ 0 < im.h ∧ 0 < im.c ∧ (im.data.length : Int) = im.w * im.h * im.c ∧
    im.w * im.h * im.c ≤ INT_MAX

instance (im : image) : Decidable (WellFormed im) := by
  unfold WellFormed; infer_instance

/-- The coordinate `(x, y, c)` is within the extents of `im`. -/
def InBounds (im : image) (x y c : Int) : Prop :=
  0 ≤ x ∧ x < im.w ∧ 0 ≤ y ∧ y < im.h ∧ 0 ≤ c ∧ c < im.c

instance (im : image) (x y c : Int) : Decidable (InBounds im x y c) := by
  unfold InBounds; infer_instance

/-! ## Specification-side definitions -/

/-- The offset of line 28 as an integer, before reduction to `int`: the planar layout
`c*w*h + y*w + x` of the specification. -/
def offset (im : image) (x y c : Int) : Int := c * im.w * im.h + y * im.w + x

/-- The position of sample `(x, y, c)` in the store. -/
def lin (im : image) (x y c : Int) : Nat := (offset im x y c).toNat

/-- Clamping as the specification words it: 0 below the range, `n - 1` at or above the
extent `n`, the input itself inside the range. -/
def clampTo (n v : Int) : Int := if v < 0 then 0 else if v ≥ n then n - 1 else v

/-- The pairs `[(x, y) | y <- 0..h-1, x <- 0..w-1]`: `y` outer, `x` inner. -/
def coords_yx (w h : Int) : List (Int × Int) :=
  (List.range h.toNat).flatMap fun y : Nat =>
    (List.range w.toNat).map fun x : Nat => ((x : Int), (y : Int))

/-- The triples `[(x, y, ch) | ch <- 0..c-1, y <- 0..h-1, x <- 0..w-1]`: channel outermost,
then `y`, then `x`. -/
def coords_cyx (w h c : Int) : List (Int × Int × Int) :=
  (List.range c.toNat).flatMap fun ch : Nat => (List.range h.toNat).flatMap fun y : Nat =>
    (List.range w.toNat).map fun x : Nat => ((x : Int), (y : Int), (ch : Int))

/-- One call of a `map_yx` callback at the pair `p`, on the state of the traversal. -/
def step_yx {α : Type} (f : fmap_yx α) (s : image × Option image × α) (p : Int × Int) :
    Except Fault (image × Option image × α) := do
  let r ← f s.1 s.2.1 p.1 p.2 s.2.2
  pure (settle s.1 s.2.1 r)

/-- One call of a `map_cyx` callback at the triple `p`, on the state of the traversal. -/
def step_cyx {α : Type} (f : fmap_cyx α) (s : image × Option image × α) (p : Int × Int × Int) :
    Except Fault (image × Option image × α) := do
  let r ← f s.1 s.2.1 p.1 p.2.1 p.2.2 s.2.2
  pure (settle s.1 s.2.1 r)

/-- A callback that does what `f` does and also appends the pair it was called with to a
log kept behind `fmap_args`. -/
def trace_yx {α : Type} (f : fmap_yx α) : fmap_yx (α × List (Int × Int)) :=
  fun im1 im2 x y a => do
    let r ← f im1 im2 x y a.1
    pure (r.1, r.2.1, (r.2.2, a.2 ++ [(x, y)]))

/-- A callback that does what `f` does and also appends the triple it was called with to a
log kept behind `fmap_args`. -/
def trace_cyx {α : Type} (f : fmap_cyx α) : fmap_cyx (α × List (Int × Int × Int)) :=
  fun im1 im2 x y c a => do
    let r ← f im1 im2 x y c a.1
    pure (r.1, r.2.1, (r.2.2, a.2 ++ [(x, y, c)]))

/-- The hue numerator of lines 177-186, from the maximum `V` and the minimum `m`. -/
def hue_of (R G B V m : ℚ) : ℚ :=
  if V - m = 0 then 0
  else if V = R then (G - B) / (V - m)
  else if V = G then (B - R) / (V - m) + 2
  else (R - G) / (V - m) + 4

/-- The common shape of `frgb_to_hsv` and `fhsv_to_rgb`: read channels 0, 1, 2 of the pixel,
compute three samples from them, write these back to channels 0, 1, 2. -/
def fpixel3 (g : ℚ → ℚ → ℚ → ℚ × ℚ × ℚ) : fmap_yx Unit := fun im1 _im2 x y args => do
  let p0 ← get_pixel im1 x y 0
  let p1 ← get_pixel im1 x y 1
  let p2 ← get_pixel im1 x y 2
  let r := g p0 p1 p2
  let im1 ← set_pixel im1 x y 0 r.1
  let im1 ← set_pixel im1 x y 1 r.2.1
  let im1 ← set_pixel im1 x y 2 r.2.2
  pure (im1.data, none, args)

/-- The common shape of `fshift_image` and `fscale_image`: read the sample of channel
`args.c`, combine it with `args.v`, write it back to the same place. -/
def fpoint (op : ℚ → ℚ → ℚ) : fmap_yx cv_args := fun im1 _im2 x y args => do
  let c := args.c
  let v := args.v
  let value ← get_pixel im1 x y c
  let im1 ← set_pixel im1 x y c (op value v)
  pure (im1.data, none, args)

/-- The sample of `im` stored for `(x, y, c)`. -/
def sample (im : image) (x y c : Int) : ℚ := im.data.getD (lin im x y c) 0

/-- The shape of `fclamp_image`: read the sample at `(x, y, c)`, change it by `op`, write it
back to the same place. -/
def fcell (op : ℚ → ℚ) : fmap_cyx Unit := fun im1 _im2 x y c args => do
  let v ← get_pixel im1 x y c
  let im1 ← set_pixel im1 x y c (op v)
  pure (im1.data, none, args)

/-- Lines 141-142 of `fclamp_image`: the two tests applied to the sample read. -/
def fclamp_image_calc (v : ℚ) : ℚ :=
  let v := if v > 1 then 1 else v
  let v := if v < 0 then 0 else v
  v

/-- A division that stops the evaluation when the divisor is zero. -/
def checked_div (a b : ℚ) : Option ℚ := if b = 0 then none else some (a / b)

/-- Lines 173-193 of `frgb_to_hsv` with every division checked: the evaluation stops, with no
result, where a division by zero would be evaluated. -/
def frgb_to_hsv_checked (R G B : ℚ) : Option (ℚ × ℚ × ℚ) := do
  let V := three_way_max R G B
  let C := V - three_way_min R G B
  let S ← (if V = 0 then some 0 else checked_div C V)
  let h ←
    (if C = 0 then some 0
    else if V = R then checked_div (G - B) C
    else if V = G then (checked_div (B - R) C).map (· + 2)
    else (checked_div (R - G) C).map (· + 4))
  let H ← (if h < 0 then (checked_div h 6).map (· + 1) else checked_div h 6)
  pure (H, S, V)

/-- The RGB to HSV algorithm as the specification words it: `V = max(R,G,B)`,
`chroma = V - min(R,G,B)`, `S = 0` if `V = 0` else `chroma / V`, the hue numerator `h` with
`V = R` tested before `V = G` before `V = B`, and `H = h/6 + 1` if `h < 0` else `h/6`. -/
def spec_rgb_to_hsv (R G B : ℚ) : ℚ × ℚ × ℚ :=
  let V := max R (max G B)
  let chroma := V - min R (min G B)
  let S := if V = 0 then 0 else chroma / V
  let h :=
    if chroma = 0 then 0
    else if V = R then (G - B) / chroma
    else if V = G then (B - R) / chroma + 2
    else (R - G) / chroma + 4
  let H := if h < 0 then h / 6 + 1 else h / 6
  (H, S, V)

/-- The HSV to RGB sector table as the specification words it, for `h = 6 * H`:
`C = V * S`, `X = C * (1 - |(h mod 2) - 1|)`, `m = V - C`, and the sector values plus `m`. -/
def spec_hsv_to_rgb (H S V : ℚ) : ℚ × ℚ × ℚ :=
  let h := 6 * H
  let C := V * S
  let X := C * (1 - |(h - 2 * (Int.floor (h / 2) : ℚ)) - 1|)
  let m := V - C
  if h < 1 then (C + m, X + m, 0 + m)
  else if h < 2 then (X + m, C + m, 0 + m)
  else if h < 3 then (0 + m, C + m, X + m)
  else if h < 4 then (0 + m, X + m, C + m)
  else if h < 5 then (X + m, 0 + m, C + m)
  else (C + m, 0 + m, X + m)

/-! ## Addressing lemmas -/

theorem wrap_int_eq {n : Int} (h0 : -2147483648 ≤ n) (h1 : n ≤ 2147483647) : wrap_int n = n := by
  unfold wrap_int; omega

theorem clamp_padding_fst (im : image) (x y c : Int) :
    (clamp_padding im x y c).1 = true ↔ InBounds im x y c := by
  simp only [clamp_padding, InBounds, Bool.and_eq_true, decide_eq_true_eq]
  constructor
  · rintro ⟨⟨h1, h2⟩, h3⟩
    split_ifs at h1 h2 h3 <;> omega
  · intro h
    split_ifs <;> omega

theorem clamp_padding_snd (im : image) (x y c : Int) :
    (clamp_padding im x y c).2 =
      (if x ≥ im.w then im.w - 1 else if x < 0 then 0 else x,
       if y ≥ im.h then im.h - 1 else if y < 0 then 0 else y,
       if c ≥ im.c then im.c - 1 else if c < 0 then 0 else c) := by
  simp only [clamp_padding]

theorem clamp_padding_of_inBounds {im : image} {x y c : Int} (h : InBounds im x y c) :
    clamp_padding im x y c = (true, x, y, c) := by
  have h1 := (clamp_padding_fst im x y c).2 h
  have h2 := clamp_padding_snd im x y c
  obtain ⟨hx0, hx1, hy0, hy1, hc0, hc1⟩ := h
  rw [if_neg (by omega), if_neg (by omega), if_neg (by omega), if_neg (by omega),
    if_neg (by omega), if_neg (by omega)] at h2
  exact Prod.ext h1 h2

theorem offset_bounds {im : image} {x y c : Int} (hw : WellFormed im) (hb : InBounds im x y c) :
    0 ≤ offset im x y c ∧ offset im x y c < im.w * im.h * im.c := by
  obtain ⟨hw0, hh0, hc0, -, -⟩ := hw
  obtain ⟨hx0, hx1, hy0, hy1, hc0, hc1⟩ := hb
  have h1 : y * im.w ≤ (im.h - 1) * im.w := mul_le_mul_of_nonneg_right (by omega) (by omega)
  have h2 : c * (im.w * im.h) ≤ (im.c - 1) * (im.w * im.h) :=
    mul_le_mul_of_nonneg_right (by omega) (by positivity)
  have h3 : 0 ≤ y * im.w := by positivity
  have h4 : 0 ≤ c * (im.w * im.h) := by positivity
  unfold offset
  constructor
  · nlinarith
  · nlinarith

theorem idx_eq_offset {im : image} {x y c : Int} (hw : WellFormed im) (hb : InBounds im x y c) :
    idx im x y c = offset im x y c := by
  have h := offset_bounds hw hb
  have h5 := hw.2.2.2.2
  unfold INT_MAX at h5
  unfold idx
  unfold offset at h
  exact wrap_int_eq (by omega) (by omega)

theorem lin_lt {im : image} {x y c : Int} (hw : WellFormed im) (hb : InBounds im x y c) :
    lin im x y c < im.data.length := by
  have h := offset_bounds hw hb
  have h4 := hw.2.2.2.1
  unfold lin
  omega

theorem load_eq {d : List ℚ} {i : Int} (h0 : 0 ≤ i) (h1 : i.toNat < d.length) :
    load d i = .ok (d.getD i.toNat 0) := by
  unfold load
  rw [if_pos h0]
  simp [List.getElem?_eq_getElem h1]

theorem poke_eq {d : List ℚ} {i : Int} (v : ℚ) (h0 : 0 ≤ i) (h1 : i.toNat < d.length) :
    poke d i v = .ok (d.set i.toNat v) := by
  unfold poke
  rw [if_pos ⟨h0, h1⟩]

theorem get_pixel_eq {im : image} {x y c : Int} (hw : WellFormed im) (hb : InBounds im x y c) :
    get_pixel im x y c = .ok (im.data.getD (lin im x y c) 0) := by
  unfold get_pixel
  simp only [clamp_padding_of_inBounds hb, idx_eq_offset hw hb]
  exact load_eq (offset_bounds hw hb).1 (lin_lt hw hb)

theorem set_pixel_eq {im : image} {x y c : Int} (v : ℚ) (hw : WellFormed im)
    (hb : InBounds im x y c) :
    set_pixel im x y c v = .ok { im with data := im.data.set (lin im x y c) v } := by
  unfold set_pixel
  simp only [clamp_padding_of_inBounds hb, idx_eq_offset hw hb, if_true]
  rw [poke_eq v (offset_bounds hw hb).1 (lin_lt hw hb)]
  rfl

theorem set_pixel_outside {im : image} {x y c : Int} (v : ℚ) (hb : ¬ InBounds im x y c) :
    set_pixel im x y c v = .ok im := by
  unfold set_pixel
  have h : (clamp_padding im x y c).1 = false := by
    rw [← Bool.not_eq_true, clamp_padding_fst]; exact hb
  simp only [h]
  rfl

theorem wellFormed_set {im : image} (hw : WellFormed im) (i : Nat) (v : ℚ) :
    WellFormed { im with data := im.data.set i v } := by
  unfold WellFormed at *
  simpa using hw

theorem wellFormed_of_header {im im' : image} (hw : WellFormed im) (h1 : im'.w = im.w)
    (h2 : im'.h = im.h) (h3 : im'.c = im.c) (h4 : im'.data.length = im.data.length) :
    WellFormed im' := by
  unfold WellFormed at *
  rw [h1, h2, h3, h4]; exact hw

theorem getD_set (d : List ℚ) (i j : Nat) (v : ℚ) :
    (d.set i v).getD j 0 = if i = j ∧ i < d.length then v else d.getD j 0 := by
  simp only [List.getD_eq_getElem?_getD, List.getElem?_set]
  by_cases h : i = j
  · subst h
    by_cases h2 : i < d.length
    · simp [h2]
    · simp [h2, List.getElem?_eq_none (Nat.le_of_not_lt h2)]
  · simp [h]

theorem clamp_padding_eq_clampTo {im : image} (hw : 0 < im.w) (hh : 0 < im.h) (hc : 0 < im.c)
    (x y c : Int) :
    (clamp_padding im x y c).2 = (clampTo im.w x, clampTo im.h y, clampTo im.c c) := by
  rw [clamp_padding_snd]
  unfold clampTo
  refine Prod.ext ?_ (Prod.ext ?_ ?_) <;> simp only <;> split_ifs <;> omega

theorem clampTo_range {n : Int} (hn : 0 < n) (v : Int) : 0 ≤ clampTo n v ∧ clampTo n v < n := by
  unfold clampTo; split_ifs <;> omega

theorem clampTo_inBounds {im : image} (hw : 0 < im.w) (hh : 0 < im.h) (hc : 0 < im.c)
    (x y c : Int) : InBounds im (clampTo im.w x) (clampTo im.h y) (clampTo im.c c) := by
  have h1 := clampTo_range hw x
  have h2 := clampTo_range hh y
  have h3 := clampTo_range hc c
  exact ⟨h1.1, h1.2, h2.1, h2.2, h3.1, h3.2⟩

theorem get_pixel_clamped {im : image} (hw : WellFormed im) (x y c : Int) :
    get_pixel im x y c =
      .ok (im.data.getD (lin im (clampTo im.w x) (clampTo im.h y) (clampTo im.c c)) 0) := by
  have hb := clampTo_inBounds hw.1 hw.2.1 hw.2.2.1 x y c
  have h := clamp_padding_eq_clampTo hw.1 hw.2.1 hw.2.2.1 x y c
  unfold get_pixel
  simp only [h, idx_eq_offset hw hb]
  exact load_eq (offset_bounds hw hb).1 (lin_lt hw hb)
/-! ## Traversal lemmas -/

theorem map_yx_row_eq {α : Type} (f : fmap_yx α) (y : Int) (n : Nat) :
    ∀ (x : Int) (im1 : image) (im2 : Option image) (a : α),
      map_yx_row f y n x im1 im2 a =
        ((List.range n).map fun i : Nat => (x + (i : Int), y)).foldlM (step_yx f) (im1, im2, a) := by
  induction n with
  | zero => intro x im1 im2 a; rfl
  | succ n ih =>
    intro x im1 im2 a
    rw [List.range_succ_eq_map, List.map_cons, List.foldlM_cons, List.map_map]
    simp only [map_yx_row, step_yx, bind, Except.bind, pure, Except.pure, Nat.cast_zero, add_zero]
    cases f im1 im2 x y a with
    | error e => rfl
    | ok r =>
      simp only [ih]
      congr 2
      funext i
      simp only [Function.comp, Nat.succ_eq_add_one, Nat.cast_add, Nat.cast_one]
      congr 1
      ring

theorem settle_header {α : Type} (im1 : image) (im2 : Option image) (r : Effect α) :
    (settle im1 im2 r).1.w = im1.w ∧ (settle im1 im2 r).1.h = im1.h ∧
      (settle im1 im2 r).1.c = im1.c := ⟨rfl, rfl, rfl⟩

theorem step_yx_header {α : Type} {f : fmap_yx α} {s s' : image × Option image × α}
    {p : Int × Int} (h : step_yx f s p = .ok s') :
    s'.1.w = s.1.w ∧ s'.1.h = s.1.h ∧ s'.1.c = s.1.c := by
  simp only [step_yx, bind, Except.bind, pure, Except.pure] at h
  cases hf : f s.1 s.2.1 p.1 p.2 s.2.2 with
  | error e => rw [hf] at h; cases h
  | ok r =>
    rw [hf] at h
    cases h
    exact settle_header _ _ _

theorem foldlM_header {S : Type} (step : (image × Option image × α) → S → Except Fault (image × Option image × α))
    (hstep : ∀ s s' p, step s p = .ok s' → s'.1.w = s.1.w ∧ s'.1.h = s.1.h ∧ s'.1.c = s.1.c)
    (L : List S) :
    ∀ s s', L.foldlM step s = .ok s' → s'.1.w = s.1.w ∧ s'.1.h = s.1.h ∧ s'.1.c = s.1.c := by
  induction L with
  | nil => intro s s' h; cases h; exact ⟨rfl, rfl, rfl⟩
  | cons p L ih =>
    intro s s' h
    rw [List.foldlM_cons] at h
    simp only [bind, Except.bind] at h
    cases h1 : step s p with
    | error e => rw [h1] at h; cases h
    | ok s1 =>
      rw [h1] at h
      have a := hstep _ _ _ h1
      have b := ih _ _ h
      exact ⟨b.1.trans a.1, b.2.1.trans a.2.1, b.2.2.trans a.2.2⟩

theorem map_yx_rows_eq {α : Type} (f : fmap_yx α) (n : Nat) :
    ∀ (y : Int) (im1 : image) (im2 : Option image) (a : α),
      map_yx_rows f n y im1 im2 a =
        ((List.range n).flatMap fun j : Nat =>
          (List.range im1.w.toNat).map fun i : Nat => ((i : Int), y + (j : Int))).foldlM
          (step_yx f) (im1, im2, a) := by
  induction n with
  | zero => intro y im1 im2 a; rfl
  | succ n ih =>
    intro y im1 im2 a
    rw [List.range_succ_eq_map, List.flatMap_cons, List.foldlM_append, List.flatMap_map]
    simp only [map_yx_rows, bind, Except.bind]
    rw [map_yx_row_eq]
    simp only [Nat.cast_zero, add_zero, zero_add]
    cases hr : ((List.range im1.w.toNat).map fun i : Nat => ((i : Int), y)).foldlM
        (step_yx f) (im1, im2, a) with
    | error e => rfl
    | ok s =>
      simp only [ih]
      have hh := foldlM_header (step_yx f) (fun _ _ _ h => step_yx_header h) _ _ _ hr
      rw [hh.1]
      congr 2
      funext j
      congr 1
      funext i
      simp only [Nat.succ_eq_add_one, Nat.cast_add, Nat.cast_one]
      congr 1
      ring

theorem map_yx_eq_foldlM {α : Type} (im1 : image) (im2 : Option image) (f : fmap_yx α) (a : α) :
    map_yx im1 im2 f a = (coords_yx im1.w im1.h).foldlM (step_yx f) (im1, im2, a) := by
  unfold map_yx coords_yx
  rw [map_yx_rows_eq]
  simp only [zero_add]

theorem map_cyx_row_eq {α : Type} (f : fmap_cyx α) (c y : Int) (n : Nat) :
    ∀ (x : Int) (im1 : image) (im2 : Option image) (a : α),
      map_cyx_row f c y n x im1 im2 a =
        map_yx_row (fun i1 i2 x y a => f i1 i2 x y c a) y n x im1 im2 a := by
  induction n with
  | zero => intro x im1 im2 a; rfl
  | succ n ih =>
    intro x im1 im2 a
    simp only [map_cyx_row, map_yx_row, ih]

theorem map_cyx_rows_eq {α : Type} (f : fmap_cyx α) (c : Int) (n : Nat) :
    ∀ (y : Int) (im1 : image) (im2 : Option image) (a : α),
      map_cyx_rows f c n y im1 im2 a =
        map_yx_rows (fun i1 i2 x y a => f i1 i2 x y c a) n y im1 im2 a := by
  induction n with
  | zero => intro y im1 im2 a; rfl
  | succ n ih =>
    intro y im1 im2 a
    simp only [map_cyx_rows, map_yx_rows, ih, map_cyx_row_eq]

theorem foldlM_step_cyx {α : Type} (f : fmap_cyx α) (c : Int) (L : List (Int × Int))
    (s : image × Option image × α) :
    L.foldlM (step_yx fun i1 i2 x y a => f i1 i2 x y c a) s =
      (L.map fun p => (p.1, p.2, c)).foldlM (step_cyx f) s := by
  rw [List.foldlM_map]
  rfl

theorem step_cyx_header {α : Type} {f : fmap_cyx α} {s s' : image × Option image × α}
    {p : Int × Int × Int} (h : step_cyx f s p = .ok s') :
    s'.1.w = s.1.w ∧ s'.1.h = s.1.h ∧ s'.1.c = s.1.c := by
  simp only [step_cyx, bind, Except.bind, pure, Except.pure] at h
  cases hf : f s.1 s.2.1 p.1 p.2.1 p.2.2 s.2.2 with
  | error e => rw [hf] at h; cases h
  | ok r =>
    rw [hf] at h
    cases h
    exact settle_header _ _ _

theorem map_cyx_planes_eq {α : Type} (f : fmap_cyx α) (n : Nat) :
    ∀ (c : Int) (im1 : image) (im2 : Option image) (a : α),
      map_cyx_planes f n c im1 im2 a =
        ((List.range n).flatMap fun k : Nat => (List.range im1.h.toNat).flatMap fun j : Nat =>
          (List.range im1.w.toNat).map fun i : Nat => ((i : Int), (j : Int), c + (k : Int))).foldlM
          (step_cyx f) (im1, im2, a) := by
  induction n with
  | zero => intro c im1 im2 a; rfl
  | succ n ih =>
    intro c im1 im2 a
    rw [List.range_succ_eq_map, List.flatMap_cons, List.foldlM_append, List.flatMap_map]
    simp only [map_cyx_planes, bind, Except.bind]
    rw [map_cyx_rows_eq, map_yx_rows_eq, foldlM_step_cyx]
    simp only [Nat.cast_zero, add_zero, zero_add, List.map_flatMap, List.map_map,
      Function.comp_def]
    cases hr : ((List.range im1.h.toNat).flatMap fun j : Nat =>
          (List.range im1.w.toNat).map fun i : Nat => ((i : Int), (j : Int), c)).foldlM
        (step_cyx f) (im1, im2, a) with
    | error e => rfl
    | ok s =>
      simp only [ih]
      have hh := foldlM_header (step_cyx f) (fun _ _ _ h => step_cyx_header h) _ _ _ hr
      simp only at hh
      rw [hh.1, hh.2.1]
      congr 2
      funext k
      congr 1
      funext j
      congr 1
      funext i
      simp only [Nat.succ_eq_add_one, Nat.cast_add, Nat.cast_one]
      congr 2
      ring

theorem map_cyx_eq_foldlM {α : Type} (im1 : image) (im2 : Option image) (f : fmap_cyx α)
    (a : α) :
    map_cyx im1 im2 f a = (coords_cyx im1.w im1.h im1.c).foldlM (step_cyx f) (im1, im2, a) := by
  unfold map_cyx coords_cyx
  rw [map_cyx_planes_eq]
  simp only [zero_add]

theorem foldlM_trace_yx {α : Type} (f : fmap_yx α) (L : List (Int × Int)) :
    ∀ (s : image × Option image × α) (l0 : List (Int × Int)),
      L.foldlM (step_yx (trace_yx f)) (s.1, s.2.1, (s.2.2, l0)) =
        (L.foldlM (step_yx f) s).map fun r => (r.1, r.2.1, (r.2.2, l0 ++ L)) := by
  induction L with
  | nil => intro s l0; simp [List.foldlM, pure, Except.pure, Except.map]
  | cons p L ih =>
    intro s l0
    rw [List.foldlM_cons, List.foldlM_cons]
    simp only [step_yx, trace_yx, bind, Except.bind, pure, Except.pure]
    cases f s.1 s.2.1 p.1 p.2 s.2.2 with
    | error e => rfl
    | ok r =>
      have h := ih (settle s.1 s.2.1 r) (l0 ++ [p])
      simp only [List.append_assoc, List.singleton_append] at h
      exact h

theorem foldlM_trace_cyx {α : Type} (f : fmap_cyx α) (L : List (Int × Int × Int)) :
    ∀ (s : image × Option image × α) (l0 : List (Int × Int × Int)),
      L.foldlM (step_cyx (trace_cyx f)) (s.1, s.2.1, (s.2.2, l0)) =
        (L.foldlM (step_cyx f) s).map fun r => (r.1, r.2.1, (r.2.2, l0 ++ L)) := by
  induction L with
  | nil => intro s l0; simp [List.foldlM, pure, Except.pure, Except.map]
  | cons p L ih =>
    intro s l0
    rw [List.foldlM_cons, List.foldlM_cons]
    simp only [step_cyx, trace_cyx, bind, Except.bind, pure, Except.pure]
    cases f s.1 s.2.1 p.1 p.2.1 p.2.2 s.2.2 with
    | error e => rfl
    | ok r =>
      have h := ih (settle s.1 s.2.1 r) (l0 ++ [p])
      simp only [List.append_assoc, List.singleton_append] at h
      exact h

theorem foldlM_total {σ S : Type} (step : σ → S → Except Fault σ)
    (h : ∀ s p, ∃ s', step s p = .ok s') (L : List S) :
    ∀ s, ∃ s', L.foldlM step s = .ok s' := by
  induction L with
  | nil => intro s; exact ⟨s, rfl⟩
  | cons p L ih =>
    intro s
    obtain ⟨s1, h1⟩ := h s p
    obtain ⟨s2, h2⟩ := ih s1
    refine ⟨s2, ?_⟩
    rw [List.foldlM_cons]
    simp only [bind, Except.bind, h1, h2]

theorem mem_coords_yx (w h x y : Int) :
    (x, y) ∈ coords_yx w h ↔ 0 ≤ x ∧ x < w ∧ 0 ≤ y ∧ y < h := by
  simp only [coords_yx, List.mem_flatMap, List.mem_map, List.mem_range, Prod.mk.injEq]
  constructor
  · rintro ⟨j, hj, i, hi, rfl, rfl⟩
    omega
  · rintro ⟨h1, h2, h3, h4⟩
    exact ⟨y.toNat, by omega, x.toNat, by omega, by omega, by omega⟩

theorem mem_coords_cyx (w h c x y ch : Int) :
    (x, y, ch) ∈ coords_cyx w h c ↔ 0 ≤ ch ∧ ch < c ∧ 0 ≤ y ∧ y < h ∧ 0 ≤ x ∧ x < w := by
  simp only [coords_cyx, List.mem_flatMap, List.mem_map, List.mem_range, Prod.mk.injEq]
  constructor
  · rintro ⟨k, hk, j, hj, i, hi, rfl, rfl, rfl⟩
    omega
  · rintro ⟨h1, h2, h3, h4, h5, h6⟩
    exact ⟨ch.toNat, by omega, y.toNat, by omega, x.toNat, by omega, by omega, by omega, by omega⟩

theorem nodup_coords_yx (w h : Int) : (coords_yx w h).Nodup := by
  unfold coords_yx
  rw [List.nodup_flatMap]
  constructor
  · intro y _
    refine (List.nodup_range _).map ?_
    intro a b hab
    simpa using hab
  · refine (List.nodup_range _).pairwise_of_forall_ne ?_
    intro a _ b _ hab
    simp only [Function.onFun]
    rw [List.disjoint_left]
    intro p hp hq
    simp only [List.mem_map, List.mem_range] at hp hq
    obtain ⟨i, _, rfl⟩ := hp
    obtain ⟨i', _, h'⟩ := hq
    simp only [Prod.mk.injEq, Nat.cast_inj] at h'
    exact hab h'.2.symm

theorem nodup_coords_cyx (w h c : Int) : (coords_cyx w h c).Nodup := by
  unfold coords_cyx
  rw [List.nodup_flatMap]
  constructor
  · intro ch _
    have h1 := (nodup_coords_yx w h).map (f := fun p : Int × Int => (p.1, p.2, (ch : Int)))
      (by intro p q hpq; simp only [Prod.mk.injEq] at hpq; exact Prod.ext hpq.1 hpq.2.1)
    simpa only [coords_yx, List.map_flatMap, List.map_map, Function.comp] using h1
  · refine (List.nodup_range _).pairwise_of_forall_ne ?_
    intro a _ b _ hab
    simp only [Function.onFun]
    rw [List.disjoint_left]
    intro p hp hq
    simp only [List.mem_flatMap, List.mem_map, List.mem_range] at hp hq
    obtain ⟨j, _, i, _, rfl⟩ := hp
    obtain ⟨j', _, i', _, h'⟩ := hq
    simp only [Prod.mk.injEq, Nat.cast_inj] at h'
    exact hab h'.2.2.symm

theorem length_coords_yx (w h : Int) : (coords_yx w h).length = h.toNat * w.toNat := by
  simp [coords_yx, List.length_flatMap, Function.comp_def]

theorem length_coords_cyx (w h c : Int) :
    (coords_cyx w h c).length = c.toNat * (h.toNat * w.toNat) := by
  simp [coords_cyx, List.length_flatMap, Function.comp_def]

/-! ## Layout lemmas -/

theorem offset_decode {im : image} {x y c : Int} (hw : WellFormed im) (hb : InBounds im x y c) :
    offset im x y c % im.w = x ∧ offset im x y c / im.w % im.h = y ∧
      offset im x y c / im.w / im.h = c := by
  obtain ⟨hw0, hh0, hc0, -, -⟩ := hw
  obtain ⟨hx0, hx1, hy0, hy1, hc0, hc1⟩ := hb
  have e : offset im x y c = x + (c * im.h + y) * im.w := by unfold offset; ring
  have h1 : offset im x y c % im.w = x := by
    rw [e, Int.add_mul_emod_self, Int.emod_eq_of_lt hx0 hx1]
  have h2 : offset im x y c / im.w = y + c * im.h := by
    rw [e, Int.add_mul_ediv_right _ _ (by omega), Int.ediv_eq_zero_of_lt hx0 hx1]
    ring
  refine ⟨h1, ?_, ?_⟩
  · rw [h2, Int.add_mul_emod_self, Int.emod_eq_of_lt hy0 hy1]
  · rw [h2, Int.add_mul_ediv_right _ _ (by omega), Int.ediv_eq_zero_of_lt hy0 hy1]
    ring

theorem lin_inj {im : image} {x y c x' y' c' : Int} (hw : WellFormed im)
    (hb : InBounds im x y c) (hb' : InBounds im x' y' c') (h : lin im x y c = lin im x' y' c') :
    x = x' ∧ y = y' ∧ c = c' := by
  have h0 := (offset_bounds hw hb).1
  have h0' := (offset_bounds hw hb').1
  have e : offset im x y c = offset im x' y' c' := by unfold lin at h; omega
  have d := offset_decode hw hb
  have d' := offset_decode hw hb'
  rw [e] at d
  exact ⟨d.1.symm.trans d'.1, d.2.1.symm.trans d'.2.1, d.2.2.symm.trans d'.2.2⟩

theorem exists_coord {im : image} (hw : WellFormed im) {i : Nat} (hi : i < im.data.length) :
    ∃ x y c, InBounds im x y c ∧ lin im x y c = i := by
  obtain ⟨hw0, hh0, hc0, hlen, -⟩ := id hw
  have hi' : (i : Int) < im.w * im.h * im.c := by omega
  refine ⟨(i : Int) % im.w, (i : Int) / im.w % im.h, (i : Int) / im.w / im.h, ?_, ?_⟩
  · refine ⟨Int.emod_nonneg _ (by omega), Int.emod_lt_of_pos _ hw0, Int.emod_nonneg _ (by omega),
      Int.emod_lt_of_pos _ hh0, ?_, ?_⟩
    · exact Int.ediv_nonneg (Int.ediv_nonneg (by omega) (by omega)) (by omega)
    · apply Int.ediv_lt_of_lt_mul hh0
      apply Int.ediv_lt_of_lt_mul hw0
      calc (i : Int) < im.w * im.h * im.c := hi'
        _ = im.c * im.h * im.w := by ring
  · have e1 := Int.emod_add_ediv (i : Int) im.w
    have e2 := Int.emod_add_ediv ((i : Int) / im.w) im.h
    have e : offset im ((i : Int) % im.w) ((i : Int) / im.w % im.h) ((i : Int) / im.w / im.h) = i := by
      unfold offset
      calc (i : Int) / im.w / im.h * im.w * im.h + (i : Int) / im.w % im.h * im.w + (i : Int) % im.w
          = (i : Int) % im.w + im.w * ((i : Int) / im.w % im.h + im.h * ((i : Int) / im.w / im.h)) := by ring
        _ = i := by rw [e2, e1]
    unfold lin
    rw [e]
    simp

/-! ## Independent sites -/

theorem foldlM_sites {σ S ι : Type} (step : σ → S → Except Fault σ) (Inv : σ → Prop)
    (obs : σ → ι → ℚ) (fp : S → ι → Prop) (F : S → (ι → ℚ) → ι → ℚ)
    (hloc : ∀ s o o', (∀ j, fp s j → o j = o' j) → ∀ i, fp s i → F s o i = F s o' i)
    (L : List S) :
    L.Nodup →
    (∀ s ∈ L, ∀ s' ∈ L, ∀ i, fp s i → fp s' i → s = s') →
    (∀ σ0, Inv σ0 → ∀ s ∈ L, ∃ σ1, step σ0 s = .ok σ1 ∧ Inv σ1 ∧
        ∀ i, (fp s i → obs σ1 i = F s (obs σ0) i) ∧ (¬ fp s i → obs σ1 i = obs σ0 i)) →
    ∀ σ0, Inv σ0 → ∃ σf, L.foldlM step σ0 = .ok σf ∧ Inv σf ∧
        ∀ i, (∀ s ∈ L, fp s i → obs σf i = F s (obs σ0) i) ∧
             ((∀ s ∈ L, ¬ fp s i) → obs σf i = obs σ0 i) := by
  induction L with
  | nil =>
    intro _ _ _ σ0 h0
    exact ⟨σ0, rfl, h0, fun i => ⟨fun s hs => absurd hs (List.not_mem_nil s), fun _ => rfl⟩⟩
  | cons s L ih =>
    intro hnd hdisj hstep σ0 h0
    have hsL : s ∉ L := (List.nodup_cons.1 hnd).1
    obtain ⟨σ1, e1, inv1, o1⟩ := hstep σ0 h0 s (List.mem_cons_self s L)
    obtain ⟨σf, ef, invf, of⟩ := ih (List.nodup_cons.1 hnd).2
      (fun a ha b hb => hdisj a (List.mem_cons_of_mem s ha) b (List.mem_cons_of_mem s hb))
      (fun τ hτ a ha => hstep τ hτ a (List.mem_cons_of_mem s ha)) σ1 inv1
    have sep : ∀ s' ∈ L, ∀ j, fp s' j → ¬ fp s j := by
      intro s' hs' j hj hsj
      have := hdisj s (List.mem_cons_self s L) s' (List.mem_cons_of_mem s hs') j hsj hj
      exact hsL (this ▸ hs')
    refine ⟨σf, ?_, invf, fun i => ⟨?_, ?_⟩⟩
    · rw [List.foldlM_cons]
      simp only [bind, Except.bind, e1, ef]
    · intro s' hs' hi
      rcases List.mem_cons.1 hs' with rfl | hmem
      · have h2 : ∀ t ∈ L, ¬ fp t i := fun t ht hti => sep t ht i hti hi
        rw [(of i).2 h2, (o1 i).1 hi]
      · rw [(of i).1 s' hmem hi]
        exact hloc s' _ _ (fun j hj => (o1 j).2 (sep s' hmem j hj)) i hi
    · intro hnone
      rw [(of i).2 (fun t ht => hnone t (List.mem_cons_of_mem s ht)),
        (o1 i).2 (hnone s (List.mem_cons_self s L))]

/-! ## Arithmetic of the colour conversions -/

theorem trunc_eq {q : ℚ} {n : Int} (h0 : 0 ≤ q) (h1 : (n : ℚ) ≤ q) (h2 : q < n + 1) :
    trunc q = n := by
  unfold trunc
  rw [if_pos h0]
  exact Int.floor_eq_iff.2 ⟨h1, h2⟩

theorem fmod_two {h : ℚ} {n : Int} (h0 : 0 ≤ h) (h1 : 2 * (n : ℚ) ≤ h) (h2 : h < 2 * n + 2) :
    fmod h 2 = h - 2 * n := by
  unfold fmod
  rw [trunc_eq (n := n) (by linarith) (by linarith) (by linarith)]
  ring

theorem fabs_eq_abs (x : ℚ) : fabs x = |x| := by
  unfold fabs
  split_ifs with h
  · exact (abs_of_neg h).symm
  · exact (abs_of_nonneg (not_lt.1 h)).symm

/-- The factor `1 - fabs(fmod(h, 2) - 1)` of line 217 on each of the six sectors. -/
theorem hue_factor {h : ℚ} (h0 : 0 ≤ h) (h6 : h < 6) :
    1 - fabs (fmod h 2 - 1) =
      if h < 1 then h else if h < 2 then 2 - h else if h < 3 then h - 2
      else if h < 4 then 4 - h else if h < 5 then h - 4 else 6 - h := by
  rw [fabs_eq_abs]
  by_cases c2 : h < 2
  · rw [fmod_two (n := 0) h0 (by norm_num; linarith) (by norm_num; linarith)]
    by_cases c1 : h < 1
    · rw [if_pos c1, abs_of_nonpos (by norm_num; linarith)]; push_cast; ring
    · rw [if_neg c1, if_pos c2, abs_of_nonneg (by norm_num; linarith)]; push_cast; ring
  · by_cases c4 : h < 4
    · rw [fmod_two (n := 1) h0 (by norm_num; linarith) (by norm_num; linarith)]
      rw [if_neg (by linarith), if_neg c2]
      by_cases c3 : h < 3
      · rw [if_pos c3, abs_of_nonpos (by norm_num; linarith)]; push_cast; ring
      · rw [if_neg c3, if_pos c4, abs_of_nonneg (by norm_num; linarith)]; push_cast; ring
    · rw [fmod_two (n := 2) h0 (by norm_num; linarith) (by norm_num; linarith)]
      rw [if_neg (by linarith), if_neg c2, if_neg (by linarith), if_neg c4]
      by_cases c5 : h < 5
      · rw [if_pos c5, abs_of_nonpos (by norm_num; linarith)]; push_cast; ring
      · rw [if_neg c5, abs_of_nonneg (by norm_num; linarith)]; push_cast; ring

theorem three_way_max_eq (a b c : ℚ) : three_way_max a b c = max a (max b c) := by
  unfold three_way_max
  simp only [max_def]
  split_ifs <;> linarith

theorem three_way_min_eq (a b c : ℚ) : three_way_min a b c = min a (min b c) := by
  unfold three_way_min
  simp only [min_def]
  split_ifs <;> linarith

/-- Lines 211-246 with the sector factor made explicit, for a hue sample in `[0, 1)`. -/
theorem fhsv_to_rgb_calc_eq {p0 : ℚ} (S V : ℚ) (h0 : 0 ≤ p0) (h1 : p0 < 1) :
    fhsv_to_rgb_calc p0 S V =
      if 6 * p0 < 1 then (V * S + (V - V * S), V * S * (6 * p0) + (V - V * S), 0 + (V - V * S))
      else if 6 * p0 < 2 then
        (V * S * (2 - 6 * p0) + (V - V * S), V * S + (V - V * S), 0 + (V - V * S))
      else if 6 * p0 < 3 then
        (0 + (V - V * S), V * S + (V - V * S), V * S * (6 * p0 - 2) + (V - V * S))
      else if 6 * p0 < 4 then
        (0 + (V - V * S), V * S * (4 - 6 * p0) + (V - V * S), V * S + (V - V * S))
      else if 6 * p0 < 5 then
        (V * S * (6 * p0 - 4) + (V - V * S), 0 + (V - V * S), V * S + (V - V * S))
      else (V * S + (V - V * S), 0 + (V - V * S), V * S * (6 - 6 * p0) + (V - V * S)) := by
  have e : 360 * p0 / 60 = 6 * p0 := by ring
  have a0 : (0 : ℚ) ≤ 6 * p0 := by linarith
  have a6 : 6 * p0 < 6 := by linarith
  unfold fhsv_to_rgb_calc
  simp only [e]
  rw [hue_factor a0 a6]
  by_cases c1 : 6 * p0 < 1
  · simp only [c1, a0, and_self, if_true]
  · have b1 : 1 ≤ 6 * p0 := not_lt.1 c1
    by_cases c2 : 6 * p0 < 2
    · simp only [c1, c2, b1, and_false, and_self, if_true, if_false]
    · have b2 : 2 ≤ 6 * p0 := not_lt.1 c2
      by_cases c3 : 6 * p0 < 3
      · simp only [c1, c2, c3, b2, and_false, and_self, if_true, if_false]
      · have b3 : 3 ≤ 6 * p0 := not_lt.1 c3
        by_cases c4 : 6 * p0 < 4
        · simp only [c1, c2, c3, c4, b3, and_false, and_self, if_true, if_false]
        · have b4 : 4 ≤ 6 * p0 := not_lt.1 c4
          by_cases c5 : 6 * p0 < 5
          · simp only [c1, c2, c3, c4, c5, b4, and_false, and_self, if_true, if_false]
          · simp only [c1, c2, c3, c4, c5, and_false, if_false]


theorem frgb_to_hsv_calc_eq (R G B : ℚ) :
    frgb_to_hsv_calc R G B =
      (if hue_of R G B (three_way_max R G B) (three_way_min R G B) < 0 then
          hue_of R G B (three_way_max R G B) (three_way_min R G B) / 6 + 1
        else hue_of R G B (three_way_max R G B) (three_way_min R G B) / 6,
       if three_way_max R G B = 0 then 0
       else (three_way_max R G B - three_way_min R G B) / three_way_max R G B,
       three_way_max R G B) := rfl

/-- The sector table of lines 220-249 for a pixel of value `V`, chroma `V - m` and hue
`h / 6`. -/
theorem fhsv_to_rgb_calc_sector {V m h : ℚ} (hV : V ≠ 0) (h0 : 0 ≤ h) (h6 : h < 6) :
    fhsv_to_rgb_calc (h / 6) ((V - m) / V) V =
      if h < 1 then (V, (V - m) * h + m, m)
      else if h < 2 then ((V - m) * (2 - h) + m, V, m)
      else if h < 3 then (m, V, (V - m) * (h - 2) + m)
      else if h < 4 then (m, (V - m) * (4 - h) + m, V)
      else if h < 5 then ((V - m) * (h - 4) + m, m, V)
      else (V, m, (V - m) * (6 - h) + m) := by
  have e1 : 6 * (h / 6) = h := by ring
  have e2 : V * ((V - m) / V) = V - m := by field_simp
  rw [fhsv_to_rgb_calc_eq _ _ (by positivity) (by linarith)]
  simp only [e1, e2]
  split_ifs <;> refine Prod.ext ?_ (Prod.ext ?_ ?_) <;> simp only <;> ring

theorem roundtrip_core {R G B V m : ℚ} (hm0 : 0 ≤ m)
    (v1 : R ≤ V) (v2 : G ≤ V) (v3 : B ≤ V) (vc : V = R ∨ V = G ∨ V = B)
    (m1 : m ≤ R) (m2 : m ≤ G) (m3 : m ≤ B) (mc : m = R ∨ m = G ∨ m = B) :
    fhsv_to_rgb_calc
      (if hue_of R G B V m < 0 then hue_of R G B V m / 6 + 1 else hue_of R G B V m / 6)
      (if V = 0 then 0 else (V - m) / V) V = (R, G, B) := by
  by_cases hC : V - m = 0
  · have eR : R = V := by linarith
    have eG : G = V := by linarith
    have eB : B = V := by linarith
    have hh : hue_of R G B V m = 0 := by unfold hue_of; rw [if_pos hC]
    have hS : (if V = 0 then 0 else (V - m) / V) = 0 := by
      split_ifs
      · rfl
      · rw [hC]; simp
    rw [hh, hS, eR, eG, eB]
    rw [fhsv_to_rgb_calc_eq _ _ (by norm_num) (by norm_num)]
    norm_num
  · have hCpos : 0 < V - m := lt_of_le_of_ne (by linarith) (Ne.symm hC)
    have hV0 : V ≠ 0 := by
      intro h; rw [h] at hCpos; linarith
    rw [if_neg hV0]
    by_cases hVR : V = R
    · have hh : hue_of R G B V m = (G - B) / (V - m) := by
        unfold hue_of; rw [if_neg hC, if_pos hVR]
      rw [hh]
      subst hVR
      by_cases hGB : B ≤ G
      · have em : m = B := by
          rcases mc with h | h | h
          · exact absurd (by rw [h]; ring) hC
          · linarith
          · exact h
        subst em
        have t0 : 0 ≤ (G - m) / (V - m) := div_nonneg (by linarith) hCpos.le
        have t1 : (G - m) / (V - m) ≤ 1 := (div_le_one hCpos).2 (by linarith)
        rw [if_neg (not_lt.2 t0), fhsv_to_rgb_calc_sector hV0 t0 (by linarith)]
        by_cases hGV : G < V
        · have t2 : (G - m) / (V - m) < 1 := (div_lt_one hCpos).2 (by linarith)
          rw [if_pos t2]
          refine Prod.ext rfl (Prod.ext ?_ rfl)
          simp only
          field_simp
        · have eG : G = V := le_antisymm v2 (not_lt.1 hGV)
          subst eG
          have t2 : (G - m) / (G - m) = 1 := div_self hC
          rw [t2, if_neg (by norm_num), if_pos (by norm_num)]
          refine Prod.ext ?_ (Prod.ext rfl rfl)
          simp only
          ring
      · have hGB' : G < B := not_le.1 hGB
        have em : m = G := by
          rcases mc with h | h | h
          · exact absurd (by rw [h]; ring) hC
          · exact h
          · linarith
        subst em
        have t0 : (m - B) / (V - m) < 0 := div_neg_of_neg_of_pos (by linarith) hCpos
        have t1 : -1 ≤ (m - B) / (V - m) := (le_div_iff₀ hCpos).2 (by linarith)
        rw [if_pos t0]
        have e : (m - B) / (V - m) / 6 + 1 = ((m - B) / (V - m) + 6) / 6 := by ring
        rw [e, fhsv_to_rgb_calc_sector hV0 (by linarith) (by linarith)]
        rw [if_neg (by linarith), if_neg (by linarith), if_neg (by linarith),
          if_neg (by linarith), if_neg (by linarith)]
        refine Prod.ext rfl (Prod.ext rfl ?_)
        simp only
        field_simp
    · have hRV : R < V := lt_of_le_of_ne v1 (Ne.symm hVR)
      by_cases hVG : V = G
      · have hh : hue_of R G B V m = (B - R) / (V - m) + 2 := by
          unfold hue_of; rw [if_neg hC, if_neg hVR, if_pos hVG]
        rw [hh]
        subst hVG
        by_cases hRB : R ≤ B
        · have em : m = R := by
            rcases mc with h | h | h
            · exact h
            · exact absurd (by rw [h]; ring) hC
            · linarith
          subst em
          have t0 : 0 ≤ (B - m) / (V - m) := div_nonneg (by linarith) hCpos.le
          have t1 : (B - m) / (V - m) ≤ 1 := (div_le_one hCpos).2 (by linarith)
          rw [if_neg (by linarith), fhsv_to_rgb_calc_sector hV0 (by linarith) (by linarith)]
          by_cases hBV : B < V
          · have t2 : (B - m) / (V - m) < 1 := (div_lt_one hCpos).2 (by linarith)
            rw [if_neg (by linarith), if_neg (by linarith), if_pos (by linarith)]
            refine Prod.ext rfl (Prod.ext rfl ?_)
            simp only
            field_simp
            ring
          · have eB : B = V := le_antisymm v3 (not_lt.1 hBV)
            subst eB
            have t2 : (B - m) / (B - m) = 1 := div_self hC
            rw [t2, if_neg (by norm_num), if_neg (by norm_num), if_neg (by norm_num),
              if_pos (by norm_num)]
            refine Prod.ext rfl (Prod.ext ?_ rfl)
            simp only
            ring
        · have hRB' : B < R := not_le.1 hRB
          have em : m = B := by
            rcases mc with h | h | h
            · linarith
            · exact absurd (by rw [h]; ring) hC
            · exact h
          subst em
          have t0 : (m - R) / (V - m) < 0 := div_neg_of_neg_of_pos (by linarith) hCpos
          have t1 : -1 < (m - R) / (V - m) := (lt_div_iff₀ hCpos).2 (by linarith)
          rw [if_neg (by linarith), fhsv_to_rgb_calc_sector hV0 (by linarith) (by linarith)]
          rw [if_neg (by linarith), if_pos (by linarith)]
          refine Prod.ext ?_ (Prod.ext rfl rfl)
          simp only
          field_simp
      · have hGV : G < V := lt_of_le_of_ne v2 (Ne.symm hVG)
        have hVB : V = B := by
          rcases vc with h | h | h
          · exact absurd h hVR
          · exact absurd h hVG
          · exact h
        have hh : hue_of R G B V m = (R - G) / (V - m) + 4 := by
          unfold hue_of; rw [if_neg hC, if_neg hVR, if_neg hVG]
        rw [hh]
        subst hVB
        by_cases hGR : G ≤ R
        · have em : m = G := by
            rcases mc with h | h | h
            · linarith
            · exact h
            · exact absurd (by rw [h]; ring) hC
          subst em
          have t0 : 0 ≤ (R - m) / (V - m) := div_nonneg (by linarith) hCpos.le
          have t1 : (R - m) / (V - m) < 1 := (div_lt_one hCpos).2 (by linarith)
          rw [if_neg (by linarith), fhsv_to_rgb_calc_sector hV0 (by linarith) (by linarith)]
          rw [if_neg (by linarith), if_neg (by linarith), if_neg (by linarith),
            if_neg (by linarith), if_pos (by linarith)]
          refine Prod.ext ?_ (Prod.ext rfl rfl)
          simp only
          field_simp
          ring
        · have hGR' : R < G := not_le.1 hGR
          have em : m = R := by
            rcases mc with h | h | h
            · exact h
            · linarith
            · exact absurd (by rw [h]; ring) hC
          subst em
          have t0 : (m - G) / (V - m) < 0 := div_neg_of_neg_of_pos (by linarith) hCpos
          have t1 : -1 < (m - G) / (V - m) := (lt_div_iff₀ hCpos).2 (by linarith)
          rw [if_neg (by linarith), fhsv_to_rgb_calc_sector hV0 (by linarith) (by linarith)]
          rw [if_neg (by linarith), if_neg (by linarith), if_neg (by linarith),
            if_pos (by linarith)]
          refine Prod.ext rfl (Prod.ext ?_ rfl)
          simp only
          field_simp

theorem roundtrip_calc {R G B : ℚ} (hR : 0 ≤ R) (hG : 0 ≤ G) (hB : 0 ≤ B) :
    fhsv_to_rgb_calc (frgb_to_hsv_calc R G B).1 (frgb_to_hsv_calc R G B).2.1
      (frgb_to_hsv_calc R G B).2.2 = (R, G, B) := by
  have hV := three_way_max_eq R G B
  have hm := three_way_min_eq R G B
  rw [frgb_to_hsv_calc_eq]
  simp only
  apply roundtrip_core
  · rw [hm]; exact le_min hR (le_min hG hB)
  · rw [hV]; exact le_max_left _ _
  · rw [hV]; exact le_trans (le_max_left _ _) (le_max_right _ _)
  · rw [hV]; exact le_trans (le_max_right _ _) (le_max_right _ _)
  · rw [hV]
    rcases max_choice R (max G B) with h | h
    · exact Or.inl h
    · rcases max_choice G B with h' | h'
      · exact Or.inr (Or.inl (h.trans h'))
      · exact Or.inr (Or.inr (h.trans h'))
  · rw [hm]; exact min_le_left _ _
  · rw [hm]; exact le_trans (min_le_right _ _) (min_le_left _ _)
  · rw [hm]; exact le_trans (min_le_right _ _) (min_le_right _ _)
  · rw [hm]
    rcases min_choice R (min G B) with h | h
    · exact Or.inl h
    · rcases min_choice G B with h' | h'
      · exact Or.inr (Or.inl (h.trans h'))
      · exact Or.inr (Or.inr (h.trans h'))
/-! ## In-place traversals -/

theorem lin_congr {im im' : image} (h1 : im'.w = im.w) (h2 : im'.h = im.h) (x y c : Int) :
    lin im' x y c = lin im x y c := by
  unfold lin offset
  rw [h1, h2]

theorem lin_cast {im : image} {x y c : Int} (hw : WellFormed im) (hb : InBounds im x y c) :
    ((lin im x y c : Nat) : Int) = offset im x y c := by
  have h := (offset_bounds hw hb).1
  unfold lin
  omega

theorem mem_coords_yx_inBounds {im : image} {s : Int × Int} (hs : s ∈ coords_yx im.w im.h)
    {ch : Int} (h0 : 0 ≤ ch) (h1 : ch < im.c) : InBounds im s.1 s.2 ch := by
  have h := (mem_coords_yx im.w im.h s.1 s.2).1 hs
  exact ⟨h.1, h.2.1, h.2.2.1, h.2.2.2, h0, h1⟩

/-- A callback that rewrites the samples of its own pixel from the samples of that pixel,
run over the whole image: every pixel ends up rewritten once, from its original samples. -/
theorem map_yx_inplace {α : Type} (f : fmap_yx α) (a : α) (G : Int → (Int → ℚ) → ℚ)
    (im : image) (hw : WellFormed im)
    (hG : ∀ ch p p', (∀ k, 0 ≤ k → k < im.c → p k = p' k) → G ch p = G ch p')
    (hf : ∀ im1, WellFormed im1 → im1.w = im.w → im1.h = im.h → im1.c = im.c →
      ∀ x y, 0 ≤ x → x < im.w → 0 ≤ y → y < im.h →
      ∃ d, f im1 none x y a = .ok (d, none, a) ∧ d.length = im1.data.length ∧
        (∀ ch, 0 ≤ ch → ch < im.c →
          d.getD (lin im x y ch) 0 = G ch (fun k => im1.data.getD (lin im x y k) 0)) ∧
        (∀ i, (∀ ch, 0 ≤ ch → ch < im.c → i ≠ lin im x y ch) →
          d.getD i 0 = im1.data.getD i 0)) :
    ∃ im', map_yx im none f a = .ok (im', none, a) ∧ im'.w = im.w ∧ im'.h = im.h ∧
      im'.c = im.c ∧ im'.data.length = im.data.length ∧
      ∀ x y ch, InBounds im x y ch →
        im'.data.getD (lin im x y ch) 0 = G ch (fun k => im.data.getD (lin im x y k) 0) := by
  rw [map_yx_eq_foldlM]
  have key := foldlM_sites (step_yx f)
    (fun σ => σ.1.w = im.w ∧ σ.1.h = im.h ∧ σ.1.c = im.c ∧
      σ.1.data.length = im.data.length ∧ σ.2.1 = none ∧ σ.2.2 = a)
    (fun σ (i : Nat) => σ.1.data.getD i 0)
    (fun s i => ∃ ch, 0 ≤ ch ∧ ch < im.c ∧ i = lin im s.1 s.2 ch)
    (fun s o i => G ((i : Int) / im.w / im.h) (fun k => o (lin im s.1 s.2 k)))
    (by
      intro s o o' h i _
      exact hG _ _ _ (fun k hk0 hk1 => h _ ⟨k, hk0, hk1, rfl⟩))
    (coords_yx im.w im.h) (nodup_coords_yx _ _)
    (by
      rintro s hs s' hs' i ⟨ch, h0, h1, rfl⟩ ⟨ch', h0', h1', e⟩
      have := lin_inj hw (mem_coords_yx_inBounds hs h0 h1) (mem_coords_yx_inBounds hs' h0' h1') e
      exact Prod.ext this.1 this.2.1)
    (by
      rintro ⟨im1, o2, b⟩ ⟨i1, i2, i3, i4, i5, i6⟩ s hs
      simp only at i1 i2 i3 i4 i5 i6
      subst i5 i6
      have hm := (mem_coords_yx im.w im.h s.1 s.2).1 hs
      obtain ⟨d, e, hl, h1, h2⟩ := hf im1 (wellFormed_of_header hw i1 i2 i3 i4) i1 i2 i3
        s.1 s.2 hm.1 hm.2.1 hm.2.2.1 hm.2.2.2
      refine ⟨settle im1 none (d, none, b), ?_, ⟨i1, i2, i3, hl.trans i4, rfl, rfl⟩, ?_⟩
      · simp only [step_yx, e, bind, Except.bind, pure, Except.pure]
      · intro i
        constructor
        · rintro ⟨ch, h0, h1', rfl⟩
          have hb : InBounds im s.1 s.2 ch := mem_coords_yx_inBounds hs h0 h1'
          have hd := (offset_decode hw hb).2.2
          show d.getD _ 0 =
            G (((lin im s.1 s.2 ch : Nat) : Int) / im.w / im.h)
              (fun k => im1.data.getD (lin im s.1 s.2 k) 0)
          rw [h1 ch h0 h1', lin_cast hw hb, hd]
        · intro hn
          show d.getD i 0 = _
          exact h2 i (fun ch h0 h1' e => hn ⟨ch, h0, h1', e⟩))
    (im, none, a) ⟨rfl, rfl, rfl, rfl, rfl, rfl⟩
  obtain ⟨⟨im', o2, b⟩, e, ⟨i1, i2, i3, i4, i5, i6⟩, hobs⟩ := key
  simp only at i1 i2 i3 i4 i5 i6
  subst i5 i6
  refine ⟨im', e, i1, i2, i3, i4, ?_⟩
  intro x y ch hb
  have hs : (x, y) ∈ coords_yx im.w im.h :=
    (mem_coords_yx im.w im.h x y).2 ⟨hb.1, hb.2.1, hb.2.2.1, hb.2.2.2.1⟩
  have := (hobs (lin im x y ch)).1 (x, y) hs ⟨ch, hb.2.2.2.2.1, hb.2.2.2.2.2, rfl⟩
  simp only at this
  rw [this, lin_cast hw hb, (offset_decode hw hb).2.2]

theorem frgb_to_hsv_eq : frgb_to_hsv = fpixel3 frgb_to_hsv_calc := rfl

theorem fhsv_to_rgb_eq : fhsv_to_rgb = fpixel3 fhsv_to_rgb_calc := rfl

theorem fshift_image_eq : fshift_image = fpoint (fun value v => value + v) := rfl

theorem fscale_image_eq : fscale_image = fpoint (fun value v => value * v) := rfl

theorem getD_set_ne {d : List ℚ} {i j : Nat} (v : ℚ) (h : i ≠ j) :
    (d.set i v).getD j 0 = d.getD j 0 := by
  rw [getD_set, if_neg (fun c => h c.1)]

theorem getD_set_eq {d : List ℚ} {i : Nat} (v : ℚ) (h : i < d.length) :
    (d.set i v).getD i 0 = v := by
  rw [getD_set, if_pos ⟨rfl, h⟩]

theorem fpixel3_run (g : ℚ → ℚ → ℚ → ℚ × ℚ × ℚ) {im1 : image} (hw : WellFormed im1)
    (hc : im1.c = 3) {x y : Int} (hx0 : 0 ≤ x) (hx1 : x < im1.w) (hy0 : 0 ≤ y) (hy1 : y < im1.h)
    (a : Unit) :
    fpixel3 g im1 none x y a =
      .ok (((im1.data.set (lin im1 x y 0)
              (g (sample im1 x y 0) (sample im1 x y 1) (sample im1 x y 2)).1).set
            (lin im1 x y 1) (g (sample im1 x y 0) (sample im1 x y 1) (sample im1 x y 2)).2.1).set
            (lin im1 x y 2) (g (sample im1 x y 0) (sample im1 x y 1) (sample im1 x y 2)).2.2,
          none, a) := by
  have b0 : InBounds im1 x y 0 := ⟨hx0, hx1, hy0, hy1, le_refl 0, by omega⟩
  have b1 : InBounds im1 x y 1 := ⟨hx0, hx1, hy0, hy1, by omega, by omega⟩
  have b2 : InBounds im1 x y 2 := ⟨hx0, hx1, hy0, hy1, by omega, by omega⟩
  unfold fpixel3
  simp only [get_pixel_eq hw b0, get_pixel_eq hw b1, get_pixel_eq hw b2, bind, Except.bind]
  rw [set_pixel_eq _ hw b0]
  simp only
  rw [set_pixel_eq _ (wellFormed_set hw _ _) (show InBounds _ x y 1 from b1)]
  simp only
  rw [set_pixel_eq _ (wellFormed_set (wellFormed_set hw _ _) _ _) (show InBounds _ x y 2 from b2)]
  rfl

/-- The samples `fpixel3 g` leaves in channel `ch` of a pixel whose samples were `p`. -/
theorem map_yx_pixel3 (g : ℚ → ℚ → ℚ → ℚ × ℚ × ℚ) (im : image) (hw : WellFormed im)
    (hc : im.c = 3) :
    ∃ im', map_yx im none (fpixel3 g) () = .ok (im', none, ()) ∧ im'.w = im.w ∧
      im'.h = im.h ∧ im'.c = im.c ∧ im'.data.length = im.data.length ∧
      ∀ x y, 0 ≤ x → x < im.w → 0 ≤ y → y < im.h →
        sample im' x y 0 = (g (sample im x y 0) (sample im x y 1) (sample im x y 2)).1 ∧
        sample im' x y 1 = (g (sample im x y 0) (sample im x y 1) (sample im x y 2)).2.1 ∧
        sample im' x y 2 = (g (sample im x y 0) (sample im x y 1) (sample im x y 2)).2.2 := by
  obtain ⟨im', e, i1, i2, i3, i4, hs⟩ := map_yx_inplace (fpixel3 g) () 
    (fun ch p => if ch = 0 then (g (p 0) (p 1) (p 2)).1
      else if ch = 1 then (g (p 0) (p 1) (p 2)).2.1 else (g (p 0) (p 1) (p 2)).2.2)
    im hw
    (by
      intro ch p p' h
      dsimp only
      rw [h 0 (le_refl 0) (by omega), h 1 (by omega) (by omega), h 2 (by omega) (by omega)])
    (by
      intro im1 hw1 j1 j2 j3 x y hx0 hx1 hy0 hy1
      have hc1 : im1.c = 3 := j3.trans hc
      have b0 : InBounds im1 x y 0 := ⟨hx0, j1 ▸ hx1, hy0, j2 ▸ hy1, le_refl 0, by omega⟩
      have b1 : InBounds im1 x y 1 := ⟨hx0, j1 ▸ hx1, hy0, j2 ▸ hy1, by omega, by omega⟩
      have b2 : InBounds im1 x y 2 := ⟨hx0, j1 ▸ hx1, hy0, j2 ▸ hy1, by omega, by omega⟩
      have l0 := lin_lt hw1 b0
      have l1 := lin_lt hw1 b1
      have l2 := lin_lt hw1 b2
      have n01 : lin im1 x y 0 ≠ lin im1 x y 1 := fun h => by
        have := (lin_inj hw1 b0 b1 h).2.2; omega
      have n02 : lin im1 x y 0 ≠ lin im1 x y 2 := fun h => by
        have := (lin_inj hw1 b0 b2 h).2.2; omega
      have n12 : lin im1 x y 1 ≠ lin im1 x y 2 := fun h => by
        have := (lin_inj hw1 b1 b2 h).2.2; omega
      refine ⟨_, fpixel3_run g hw1 hc1 hx0 (j1 ▸ hx1) hy0 (j2 ▸ hy1) (), ?_, ?_, ?_⟩
      · simp only [List.length_set]
      · intro ch h0 h3
        simp only [← lin_congr j1 j2, sample]
        have hch : ch = 0 ∨ ch = 1 ∨ ch = 2 := by omega
        rcases hch with rfl | rfl | rfl
        · rw [getD_set_ne _ n02.symm, getD_set_ne _ n01.symm, getD_set_eq _ l0, if_pos rfl]
        · rw [getD_set_ne _ n12.symm, getD_set_eq _ (by rw [List.length_set]; exact l1),
            if_neg (by norm_num), if_pos rfl]
        · rw [getD_set_eq _ (by rw [List.length_set, List.length_set]; exact l2),
            if_neg (by norm_num), if_neg (by norm_num)]
      · intro i hi
        have e0 := hi 0 (le_refl 0) (by omega)
        have e1 := hi 1 (by omega) (by omega)
        have e2 := hi 2 (by omega) (by omega)
        rw [← lin_congr j1 j2] at e0 e1 e2
        rw [getD_set_ne _ e2.symm, getD_set_ne _ e1.symm, getD_set_ne _ e0.symm])
  refine ⟨im', e, i1, i2, i3, i4, ?_⟩
  intro x y hx0 hx1 hy0 hy1
  have b0 : InBounds im x y 0 := ⟨hx0, hx1, hy0, hy1, le_refl 0, by omega⟩
  have b1 : InBounds im x y 1 := ⟨hx0, hx1, hy0, hy1, by omega, by omega⟩
  have b2 : InBounds im x y 2 := ⟨hx0, hx1, hy0, hy1, by omega, by omega⟩
  have s0 := hs x y 0 b0
  have s1 := hs x y 1 b1
  have s2 := hs x y 2 b2
  simp only [sample, lin_congr i1 i2]
  refine ⟨?_, ?_, ?_⟩
  · rw [s0, if_pos rfl]
  · rw [s1, if_neg (by norm_num), if_pos rfl]
  · rw [s2, if_neg (by norm_num), if_neg (by norm_num)]



theorem list_ext_getD {l1 l2 : List ℚ} (hl : l1.length = l2.length)
    (h : ∀ i, i < l1.length → l1.getD i 0 = l2.getD i 0) : l1 = l2 := by
  apply List.ext_getElem hl
  intro i h1 h2
  have := h i h1
  simpa [List.getD_eq_getElem?_getD, List.getElem?_eq_getElem h1, List.getElem?_eq_getElem h2]
    using this

theorem image_ext {a b : image} (h1 : a.w = b.w) (h2 : a.h = b.h) (h3 : a.c = b.c)
    (h4 : a.data = b.data) : a = b := by
  cases a; cases b; simp only [image.mk.injEq]; exact ⟨h1, h2, h3, h4⟩

theorem sample_mem {im : image} {x y c : Int} (hw : WellFormed im) (hb : InBounds im x y c) :
    sample im x y c ∈ im.data := by
  have h := lin_lt hw hb
  unfold sample
  rw [List.getD_eq_getElem?_getD, List.getElem?_eq_getElem h]
  exact List.getElem_mem h

theorem rgb_to_hsv_ok (im : image) (hw : WellFormed im) (hc : im.c = 3) :
    ∃ im', rgb_to_hsv im = .ok im' ∧ im'.w = im.w ∧ im'.h = im.h ∧ im'.c = im.c ∧
      im'.data.length = im.data.length ∧
      ∀ x y, 0 ≤ x → x < im.w → 0 ≤ y → y < im.h →
        sample im' x y 0 =
          (frgb_to_hsv_calc (sample im x y 0) (sample im x y 1) (sample im x y 2)).1 ∧
        sample im' x y 1 =
          (frgb_to_hsv_calc (sample im x y 0) (sample im x y 1) (sample im x y 2)).2.1 ∧
        sample im' x y 2 =
          (frgb_to_hsv_calc (sample im x y 0) (sample im x y 1) (sample im x y 2)).2.2 := by
  obtain ⟨im', e, h⟩ := map_yx_pixel3 frgb_to_hsv_calc im hw hc
  refine ⟨im', ?_, h⟩
  unfold rgb_to_hsv
  rw [if_pos hc, frgb_to_hsv_eq, e]
  rfl

theorem hsv_to_rgb_ok (im : image) (hw : WellFormed im) (hc : im.c = 3) :
    ∃ im', hsv_to_rgb im = .ok im' ∧ im'.w = im.w ∧ im'.h = im.h ∧ im'.c = im.c ∧
      im'.data.length = im.data.length ∧
      ∀ x y, 0 ≤ x → x < im.w → 0 ≤ y → y < im.h →
        sample im' x y 0 =
          (fhsv_to_rgb_calc (sample im x y 0) (sample im x y 1) (sample im x y 2)).1 ∧
        sample im' x y 1 =
          (fhsv_to_rgb_calc (sample im x y 0) (sample im x y 1) (sample im x y 2)).2.1 ∧
        sample im' x y 2 =
          (fhsv_to_rgb_calc (sample im x y 0) (sample im x y 1) (sample im x y 2)).2.2 := by
  obtain ⟨im', e, h⟩ := map_yx_pixel3 fhsv_to_rgb_calc im hw hc
  refine ⟨im', ?_, h⟩
  unfold hsv_to_rgb
  rw [if_pos hc, fhsv_to_rgb_eq, e]
  rfl

/-- Two well-formed images of one shape with the same sample at every in-bounds coordinate
are the same image. -/
theorem image_eq_of_samples {a b : image} (hw : WellFormed b) (h1 : a.w = b.w)
    (h2 : a.h = b.h) (h3 : a.c = b.c) (h4 : a.data.length = b.data.length)
    (hs : ∀ x y c, InBounds b x y c → sample a x y c = sample b x y c) : a = b := by
  refine image_ext h1 h2 h3 (list_ext_getD h4 ?_)
  intro i hi
  obtain ⟨x, y, c, hb, rfl⟩ := exists_coord hw (h4 ▸ hi)
  have := hs x y c hb
  unfold sample at this
  rw [lin_congr h1 h2] at this
  exact this


theorem fpoint_run (op : ℚ → ℚ → ℚ) {im1 : image} (hw : WellFormed im1) {x y k : Int}
    (hb : InBounds im1 x y k) (v : ℚ) :
    fpoint op im1 none x y ⟨k, v⟩ =
      .ok (im1.data.set (lin im1 x y k) (op (sample im1 x y k) v), none, ⟨k, v⟩) := by
  unfold fpoint
  simp only [get_pixel_eq hw hb, bind, Except.bind]
  rw [set_pixel_eq _ hw hb]
  rfl

theorem map_yx_point (op : ℚ → ℚ → ℚ) (im : image) (hw : WellFormed im) (k : Int)
    (hk0 : 0 ≤ k) (hk1 : k < im.c) (v : ℚ) :
    ∃ im', map_yx im none (fpoint op) ⟨k, v⟩ = .ok (im', none, ⟨k, v⟩) ∧ im'.w = im.w ∧
      im'.h = im.h ∧ im'.c = im.c ∧ im'.data.length = im.data.length ∧
      ∀ x y ch, InBounds im x y ch →
        sample im' x y ch = if ch = k then op (sample im x y k) v else sample im x y ch := by
  obtain ⟨im', e, i1, i2, i3, i4, hs⟩ := map_yx_inplace (fpoint op) ⟨k, v⟩
    (fun ch p => if ch = k then op (p k) v else if 0 ≤ ch ∧ ch < im.c then p ch else 0) im hw
    (by
      intro ch p p' h
      dsimp only
      split_ifs with hch hc
      · rw [h k hk0 hk1]
      · exact h ch hc.1 hc.2
      · rfl)
    (by
      intro im1 hw1 j1 j2 j3 x y hx0 hx1 hy0 hy1
      have bk : InBounds im1 x y k := ⟨hx0, j1 ▸ hx1, hy0, j2 ▸ hy1, hk0, j3 ▸ hk1⟩
      refine ⟨_, fpoint_run op hw1 bk v, ?_, ?_, ?_⟩
      · simp only [List.length_set]
      · intro ch h0 h1
        have bc : InBounds im1 x y ch := ⟨hx0, j1 ▸ hx1, hy0, j2 ▸ hy1, h0, j3 ▸ h1⟩
        simp only [← lin_congr j1 j2, sample]
        by_cases hch : ch = k
        · subst hch
          rw [getD_set_eq _ (lin_lt hw1 bk), if_pos rfl]
        · rw [getD_set_ne _ (fun h => hch (lin_inj hw1 bk bc h).2.2.symm), if_neg hch,
            if_pos ⟨h0, h1⟩]
      · intro i hi
        have ek := hi k hk0 hk1
        rw [← lin_congr j1 j2] at ek
        rw [getD_set_ne _ ek.symm])
  refine ⟨im', e, i1, i2, i3, i4, ?_⟩
  intro x y ch hb
  have := hs x y ch hb
  simp only [sample, lin_congr i1 i2]
  rw [this]
  by_cases hch : ch = k
  · rw [if_pos hch, if_pos hch]
  · rw [if_neg hch, if_neg hch, if_pos ⟨hb.2.2.2.2.1, hb.2.2.2.2.2⟩]
/-! ## Out-of-place traversals -/

/-- A traversal whose every call stores one value, fixed by the site, at a place of the
output image that belongs to the site alone. -/
theorem foldlM_out {S : Type} (step : image × Option image × Unit → S →
      Except Fault (image × Option image × Unit))
    (L : List S) (im out0 : image) (site : S → Nat) (val : S → ℚ) (hnd : L.Nodup)
    (hinj : ∀ s ∈ L, ∀ s' ∈ L, site s = site s' → s = s')
    (hlt : ∀ s ∈ L, site s < out0.data.length)
    (hstep : ∀ out : image, out.w = out0.w → out.h = out0.h → out.c = out0.c →
      out.data.length = out0.data.length → ∀ s ∈ L,
        step (im, some out, ()) s =
          .ok (im, some { out with data := out.data.set (site s) (val s) }, ())) :
    ∃ out', L.foldlM step (im, some out0, ()) = .ok (im, some out', ()) ∧ out'.w = out0.w ∧
      out'.h = out0.h ∧ out'.c = out0.c ∧ out'.data.length = out0.data.length ∧
      (∀ s ∈ L, out'.data.getD (site s) 0 = val s) ∧
      (∀ i, (∀ s ∈ L, i ≠ site s) → out'.data.getD i 0 = out0.data.getD i 0) := by
  have key := foldlM_sites step
    (fun σ => σ.1 = im ∧ ∃ out, σ.2.1 = some out ∧ out.w = out0.w ∧ out.h = out0.h ∧
      out.c = out0.c ∧ out.data.length = out0.data.length)
    (fun σ (i : Nat) => match σ.2.1 with
      | some o => o.data.getD i 0
      | none => 0)
    (fun s i => i = site s) (fun s _ _ => val s)
    (by intro s o o' _ i _; rfl)
    L hnd
    (by
      rintro s hs s' hs' i rfl e
      exact hinj s hs s' hs' e)
    (by
      rintro ⟨im1, o2, u⟩ ⟨i1, out, i2, j1, j2, j3, j4⟩ s hs
      simp only at i1 i2
      subst i1 i2
      refine ⟨_, hstep out j1 j2 j3 j4 s hs, ⟨rfl, _, rfl, j1, j2, j3, ?_⟩, ?_⟩
      · simp only [List.length_set]; exact j4
      · intro i
        constructor
        · rintro rfl
          show (out.data.set (site s) (val s)).getD (site s) 0 = val s
          exact getD_set_eq _ (j4 ▸ hlt s hs)
        · intro hne
          show (out.data.set (site s) (val s)).getD i 0 = out.data.getD i 0
          exact getD_set_ne _ (Ne.symm hne))
    (im, some out0, ()) ⟨rfl, out0, rfl, rfl, rfl, rfl, rfl⟩
  obtain ⟨⟨im1, o2, u⟩, e, ⟨i1, out, i2, j1, j2, j3, j4⟩, hobs⟩ := key
  simp only at i1 i2
  subst i1 i2
  refine ⟨out, e, j1, j2, j3, j4, ?_, ?_⟩
  · intro s hs
    exact (hobs (site s)).1 s hs rfl
  · intro i hi
    exact (hobs i).2 hi

theorem fcopy_image_run {im out : image} (hw : WellFormed im) (hwo : WellFormed out)
    (h1 : out.w = im.w) (h2 : out.h = im.h) (h3 : out.c = im.c) {x y c : Int}
    (hb : InBounds im x y c) :
    step_cyx fcopy_image (im, some out, ()) (x, y, c) =
      .ok (im, some { out with data := out.data.set (lin im x y c) (sample im x y c) }, ()) := by
  have hbo : InBounds out x y c := by unfold InBounds; rw [h1, h2, h3]; exact hb
  simp only [step_cyx, fcopy_image, get_pixel_eq hw hb, bind, Except.bind]
  rw [set_pixel_eq _ hwo hbo, lin_congr h1 h2]
  rfl

theorem frgb_to_grayscale_run {im out : image} (hw : WellFormed im) (hc : im.c = 3)
    (hwo : WellFormed out) (h1 : out.w = im.w) (h2 : out.h = im.h) (h3 : out.c = 1)
    {x y : Int} (hx0 : 0 ≤ x) (hx1 : x < im.w) (hy0 : 0 ≤ y) (hy1 : y < im.h) :
    step_yx frgb_to_grayscale (im, some out, ()) (x, y) =
      .ok (im, some { out with
        data := out.data.set (lin out x y 0)
          (sample im x y 0 * R_WEIGHT + sample im x y 1 * G_WEIGHT + sample im x y 2 * B_WEIGHT) },
        ()) := by
  have b0 : InBounds im x y 0 := ⟨hx0, hx1, hy0, hy1, le_refl 0, by omega⟩
  have b1 : InBounds im x y 1 := ⟨hx0, hx1, hy0, hy1, by omega, by omega⟩
  have b2 : InBounds im x y 2 := ⟨hx0, hx1, hy0, hy1, by omega, by omega⟩
  have hbo : InBounds out x y 0 := ⟨hx0, h1 ▸ hx1, hy0, h2 ▸ hy1, le_refl 0, by omega⟩
  simp only [step_yx, frgb_to_grayscale, get_pixel_eq hw b0, get_pixel_eq hw b1,
    get_pixel_eq hw b2, bind, Except.bind]
  rw [set_pixel_eq _ hwo hbo]
  rfl



theorem mem_coords_cyx_inBounds {im : image} {s : Int × Int × Int}
    (hs : s ∈ coords_cyx im.w im.h im.c) : InBounds im s.1 s.2.1 s.2.2 := by
  have h := (mem_coords_cyx im.w im.h im.c s.1 s.2.1 s.2.2).1 hs
  exact ⟨h.2.2.2.2.1, h.2.2.2.2.2, h.2.2.1, h.2.2.2.1, h.1, h.2.1⟩

theorem map_cyx_fcopy_image {im out0 : image} (hw : WellFormed im) (hmk : WellFormed out0)
    (h1 : out0.w = im.w) (h2 : out0.h = im.h) (h3 : out0.c = im.c) :
    map_cyx im (some out0) fcopy_image () = .ok (im, some im, ()) := by
  obtain ⟨out, e, j1, j2, j3, j4, hs, -⟩ := foldlM_out (step_cyx fcopy_image)
    (coords_cyx im.w im.h im.c) im out0
    (fun s => lin im s.1 s.2.1 s.2.2) (fun s => sample im s.1 s.2.1 s.2.2)
    (nodup_coords_cyx _ _ _)
    (by
      intro s hs s' hs' e
      have := lin_inj hw (mem_coords_cyx_inBounds hs) (mem_coords_cyx_inBounds hs') e
      exact Prod.ext this.1 (Prod.ext this.2.1 this.2.2))
    (by
      intro s hs
      have := lin_lt hw (mem_coords_cyx_inBounds hs)
      have l1 := hw.2.2.2.1
      have l2 := hmk.2.2.2.1
      rw [h1, h2, h3] at l2
      show lin im s.1 s.2.1 s.2.2 < _
      omega)
    (by
      intro o k1 k2 k3 k4 s hs
      exact fcopy_image_run hw (wellFormed_of_header hmk k1 k2 k3 k4) (k1.trans h1)
        (k2.trans h2) (k3.trans h3) (mem_coords_cyx_inBounds hs))
  have hlen : out.data.length = im.data.length := by
    have l1 := hw.2.2.2.1
    have l2 := hmk.2.2.2.1
    rw [h1, h2, h3] at l2
    omega
  have hout : out = im := by
    apply image_eq_of_samples hw (j1.trans h1) (j2.trans h2) (j3.trans h3) hlen
    intro x y c hb
    have := hs (x, y, c) ((mem_coords_cyx _ _ _ _ _ _).2
      ⟨hb.2.2.2.2.1, hb.2.2.2.2.2, hb.2.2.1, hb.2.2.2.1, hb.1, hb.2.1⟩)
    simp only at this
    unfold sample
    rw [lin_congr (j1.trans h1) (j2.trans h2)]
    exact this
  subst hout
  rw [map_cyx_eq_foldlM]
  exact e

theorem rgb_to_grayscale_ok (make_image : Int → Int → Int → image) (im : image)
    (hw : WellFormed im) (hc : im.c = 3) (hmk : WellFormed (make_image im.w im.h 1))
    (h1 : (make_image im.w im.h 1).w = im.w) (h2 : (make_image im.w im.h 1).h = im.h)
    (h3 : (make_image im.w im.h 1).c = 1) :
    ∃ gray, rgb_to_grayscale make_image im = .ok (im, gray) ∧
      gray.w = im.w ∧ gray.h = im.h ∧ gray.c = 1 ∧
      ∀ x y, 0 ≤ x → x < im.w → 0 ≤ y → y < im.h →
        ∃ R G B, get_pixel im x y 0 = .ok R ∧ get_pixel im x y 1 = .ok G ∧
          get_pixel im x y 2 = .ok B ∧
          get_pixel gray x y 0 = .ok (299 / 1000 * R + 587 / 1000 * G + 114 / 1000 * B) := by
  have inb : ∀ {s : Int × Int}, s ∈ coords_yx im.w im.h →
      InBounds (make_image im.w im.h 1) s.1 s.2 0 := by
    intro s hs
    have h := (mem_coords_yx im.w im.h s.1 s.2).1 hs
    exact ⟨h.1, by rw [h1]; exact h.2.1, h.2.2.1, by rw [h2]; exact h.2.2.2, le_refl 0,
      by omega⟩
  obtain ⟨out, e, j1, j2, j3, j4, hs, -⟩ := foldlM_out (step_yx frgb_to_grayscale)
    (coords_yx im.w im.h) im (make_image im.w im.h 1)
    (fun s => lin (make_image im.w im.h 1) s.1 s.2 0)
    (fun s => sample im s.1 s.2 0 * R_WEIGHT + sample im s.1 s.2 1 * G_WEIGHT +
      sample im s.1 s.2 2 * B_WEIGHT)
    (nodup_coords_yx _ _)
    (by
      intro s hs s' hs' e
      have := lin_inj hmk (inb hs) (inb hs') e
      exact Prod.ext this.1 this.2.1)
    (fun s hs => lin_lt hmk (inb hs))
    (by
      intro o k1 k2 k3 k4 s hs
      have h := (mem_coords_yx im.w im.h s.1 s.2).1 hs
      have := frgb_to_grayscale_run hw hc (wellFormed_of_header hmk k1 k2 k3 k4)
        (k1.trans h1) (k2.trans h2) (k3.trans h3) h.1 h.2.1 h.2.2.1 h.2.2.2
      rw [lin_congr k1 k2] at this
      exact this)
  have hwo : WellFormed out := wellFormed_of_header hmk j1 j2 j3 j4
  refine ⟨out, ?_, j1.trans h1, j2.trans h2, j3.trans h3, ?_⟩
  · unfold rgb_to_grayscale
    simp only [if_pos hc, map_yx_eq_foldlM, e, bind, Except.bind, pure, Except.pure]
  · intro x y hx0 hx1 hy0 hy1
    have b0 : InBounds im x y 0 := ⟨hx0, hx1, hy0, hy1, le_refl 0, by omega⟩
    have b1 : InBounds im x y 1 := ⟨hx0, hx1, hy0, hy1, by omega, by omega⟩
    have b2 : InBounds im x y 2 := ⟨hx0, hx1, hy0, hy1, by omega, by omega⟩
    have hbo : InBounds out x y 0 :=
      ⟨hx0, by rw [j1, h1]; exact hx1, hy0, by rw [j2, h2]; exact hy1, le_refl 0, by omega⟩
    refine ⟨sample im x y 0, sample im x y 1, sample im x y 2, get_pixel_eq hw b0,
      get_pixel_eq hw b1, get_pixel_eq hw b2, ?_⟩
    rw [get_pixel_eq hwo hbo, lin_congr j1 j2]
    have := hs (x, y) ((mem_coords_yx _ _ _ _).2 ⟨hx0, hx1, hy0, hy1⟩)
    simp only at this
    rw [this]
    congr 1
    unfold R_WEIGHT G_WEIGHT B_WEIGHT
    ring


/-! ## Assertions -/

theorem bind_ne_assert {β γ : Type} {m : Except Fault β} {k : β → Except Fault γ}
    (h1 : m ≠ .error .assertion) (h2 : ∀ v, k v ≠ .error .assertion) :
    (m >>= k) ≠ .error .assertion := by
  cases m with
  | error e =>
    intro h
    apply h1
    simpa [bind, Except.bind] using h
  | ok v => exact h2 v

theorem load_ne_assert (d : List ℚ) (i : Int) : load d i ≠ .error .assertion := by
  unfold load
  split_ifs
  · split <;> simp
  · simp

theorem poke_ne_assert (d : List ℚ) (i : Int) (v : ℚ) : poke d i v ≠ .error .assertion := by
  unfold poke
  split_ifs <;> simp

theorem get_pixel_ne_assert (im : image) (x y c : Int) :
    get_pixel im x y c ≠ .error .assertion := load_ne_assert _ _

theorem set_pixel_ne_assert (im : image) (x y c : Int) (v : ℚ) :
    set_pixel im x y c v ≠ .error .assertion := by
  unfold set_pixel
  dsimp only
  split_ifs
  · exact bind_ne_assert (poke_ne_assert _ _ _) (fun _ => by simp [pure, Except.pure])
  · simp [pure, Except.pure]

theorem fpixel3_ne_assert (g : ℚ → ℚ → ℚ → ℚ × ℚ × ℚ) (im1 : image) (im2 : Option image)
    (x y : Int) (a : Unit) : fpixel3 g im1 im2 x y a ≠ .error .assertion := by
  unfold fpixel3
  refine bind_ne_assert (get_pixel_ne_assert _ _ _ _) fun _ => ?_
  refine bind_ne_assert (get_pixel_ne_assert _ _ _ _) fun _ => ?_
  refine bind_ne_assert (get_pixel_ne_assert _ _ _ _) fun _ => ?_
  refine bind_ne_assert (set_pixel_ne_assert _ _ _ _ _) fun _ => ?_
  refine bind_ne_assert (set_pixel_ne_assert _ _ _ _ _) fun _ => ?_
  refine bind_ne_assert (set_pixel_ne_assert _ _ _ _ _) fun _ => ?_
  simp [pure, Except.pure]

theorem frgb_to_grayscale_ne_assert (im1 : image) (im2 : Option image) (x y : Int) (a : Unit) :
    frgb_to_grayscale im1 im2 x y a ≠ .error .assertion := by
  unfold frgb_to_grayscale
  refine bind_ne_assert (get_pixel_ne_assert _ _ _ _) fun _ => ?_
  refine bind_ne_assert (get_pixel_ne_assert _ _ _ _) fun _ => ?_
  refine bind_ne_assert (get_pixel_ne_assert _ _ _ _) fun _ => ?_
  cases im2 with
  | none => simp
  | some out =>
    refine bind_ne_assert (set_pixel_ne_assert _ _ _ _ _) fun _ => ?_
    simp [pure, Except.pure]

theorem foldlM_ne_assert {σ S : Type} (step : σ → S → Except Fault σ)
    (h : ∀ s p, step s p ≠ .error .assertion) (L : List S) :
    ∀ s, L.foldlM step s ≠ .error .assertion := by
  induction L with
  | nil => intro s; simp [List.foldlM, pure, Except.pure]
  | cons p L ih =>
    intro s
    rw [List.foldlM_cons]
    exact bind_ne_assert (h s p) ih

theorem map_yx_ne_assert {α : Type} (f : fmap_yx α)
    (h : ∀ i1 i2 x y a, f i1 i2 x y a ≠ .error .assertion) (im1 : image) (im2 : Option image)
    (a : α) : map_yx im1 im2 f a ≠ .error .assertion := by
  rw [map_yx_eq_foldlM]
  refine foldlM_ne_assert _ (fun s p => ?_) _ _
  unfold step_yx
  exact bind_ne_assert (h _ _ _ _ _) (fun _ => by simp [pure, Except.pure])

/-! ## Call sequences -/

theorem map_yx_trace {α : Type} (im1 : image) (im2 : Option image) (f : fmap_yx α) (a : α) :
    map_yx im1 im2 (trace_yx f) (a, []) =
      (map_yx im1 im2 f a).map fun r => (r.1, r.2.1, (r.2.2, coords_yx im1.w im1.h)) := by
  rw [map_yx_eq_foldlM, map_yx_eq_foldlM]
  have := foldlM_trace_yx f (coords_yx im1.w im1.h) (im1, im2, a) []
  simpa using this

theorem map_cyx_trace {α : Type} (im1 : image) (im2 : Option image) (f : fmap_cyx α) (a : α) :
    map_cyx im1 im2 (trace_cyx f) (a, []) =
      (map_cyx im1 im2 f a).map fun r =>
        (r.1, r.2.1, (r.2.2, coords_cyx im1.w im1.h im1.c)) := by
  rw [map_cyx_eq_foldlM, map_cyx_eq_foldlM]
  have := foldlM_trace_cyx f (coords_cyx im1.w im1.h im1.c) (im1, im2, a) []
  simpa using this

theorem map_yx_total {α : Type} (im1 : image) (im2 : Option image) (f : fmap_yx α) (a : α)
    (hf : ∀ i1 i2 x y b, ∃ r, f i1 i2 x y b = .ok r) : ∃ r, map_yx im1 im2 f a = .ok r := by
  rw [map_yx_eq_foldlM]
  refine foldlM_total _ (fun s p => ?_) _ _
  obtain ⟨r, e⟩ := hf s.1 s.2.1 p.1 p.2 s.2.2
  exact ⟨settle s.1 s.2.1 r, by simp only [step_yx, e, bind, Except.bind, pure, Except.pure]⟩

theorem map_cyx_total {α : Type} (im1 : image) (im2 : Option image) (f : fmap_cyx α) (a : α)
    (hf : ∀ i1 i2 x y c b, ∃ r, f i1 i2 x y c b = .ok r) :
    ∃ r, map_cyx im1 im2 f a = .ok r := by
  rw [map_cyx_eq_foldlM]
  refine foldlM_total _ (fun s p => ?_) _ _
  obtain ⟨r, e⟩ := hf s.1 s.2.1 p.1 p.2.1 p.2.2 s.2.2
  exact ⟨settle s.1 s.2.1 r, by simp only [step_cyx, e, bind, Except.bind, pure, Except.pure]⟩

theorem flatMap_range_getElem? {β : Type} (f : Nat → List β) (W : Nat)
    (hlen : ∀ j, (f j).length = W) (H : Nat) :
    ∀ k, k < H * W → ((List.range H).flatMap f)[k]? = (f (k / W))[k % W]? := by
  induction H with
  | zero => intro k hk; simp at hk
  | succ H ih =>
    intro k hk
    have hW : 0 < W := by
      rcases Nat.eq_zero_or_pos W with h | h
      · rw [h] at hk; simp at hk
      · exact h
    have hl : ((List.range H).flatMap f).length = H * W := by
      simp [List.length_flatMap, Function.comp_def, hlen]
    rw [List.range_succ, List.flatMap_append]
    simp only [List.flatMap_cons, List.flatMap_nil, List.append_nil]
    by_cases hk' : k < H * W
    · rw [List.getElem?_append_left (by rw [hl]; exact hk')]
      exact ih k hk'
    · have hge : H * W ≤ k := Nat.le_of_not_lt hk'
      rw [List.getElem?_append_right (by rw [hl]; exact hge), hl]
      have hlt : k - H * W < W := by
        have : (H + 1) * W = H * W + W := by ring
        omega
      have e : k = k - H * W + W * H := by rw [Nat.mul_comm W H]; omega
      have hdiv : k / W = H := by
        rw [e, Nat.add_mul_div_left _ _ hW, Nat.div_eq_of_lt hlt, Nat.zero_add]
      have hmod : k % W = k - H * W := by
        rw [e, Nat.add_mul_mod_self_left, Nat.mod_eq_of_lt hlt]
        omega
      rw [hdiv, hmod]

theorem coords_yx_getElem? (w h : Int) (k : Nat) (hk : k < h.toNat * w.toNat) :
    (coords_yx w h)[k]? = some (((k % w.toNat : Nat) : Int), ((k / w.toNat : Nat) : Int)) := by
  unfold coords_yx
  rw [flatMap_range_getElem? _ w.toNat (by intro j; simp) h.toNat k hk]
  have hW : 0 < w.toNat := by
    rcases Nat.eq_zero_or_pos w.toNat with h0 | h0
    · rw [h0] at hk; simp at hk
    · exact h0
  simp [List.getElem?_map, List.getElem?_range (Nat.mod_lt k hW)]

theorem coords_cyx_getElem? (w h c : Int) (k : Nat) (hk : k < c.toNat * (h.toNat * w.toNat)) :
    (coords_cyx w h c)[k]? =
      some (((k % w.toNat : Nat) : Int), ((k / w.toNat % h.toNat : Nat) : Int),
        ((k / (h.toNat * w.toNat) : Nat) : Int)) := by
  unfold coords_cyx
  have hHW : 0 < h.toNat * w.toNat := by
    rcases Nat.eq_zero_or_pos (h.toNat * w.toNat) with h0 | h0
    · rw [h0] at hk; simp at hk
    · exact h0
  have hW : 0 < w.toNat := Nat.pos_of_mul_pos_left hHW
  rw [flatMap_range_getElem? _ (h.toNat * w.toNat)
    (by intro j; simp [List.length_flatMap, Function.comp_def]) c.toNat k hk]
  rw [flatMap_range_getElem? _ w.toNat (by intro j; simp) h.toNat _ (Nat.mod_lt k hHW)]
  have e1 : k % (h.toNat * w.toNat) % w.toNat = k % w.toNat :=
    Nat.mod_mul_left_mod k h.toNat w.toNat
  have e2 : k % (h.toNat * w.toNat) / w.toNat = k / w.toNat % h.toNat := by
    rw [Nat.mul_comm h.toNat w.toNat, Nat.mod_mul_right_div_self]
  rw [e1, e2]
  simp [List.getElem?_map, List.getElem?_range (Nat.mod_lt k hW)]


/-! ## Memory -/

theorem fetch_eq_ok {m : Memory} {p : image_ptr} {im : image} (h : fetch m p = .ok im) :
    m[p.data]? = some im.data ∧ im.w = p.w ∧ im.h = p.h ∧ im.c = p.c := by
  unfold fetch at h
  cases hd : m[p.data]? with
  | none => rw [hd] at h; cases h
  | some d =>
    rw [hd] at h
    cases h
    exact ⟨rfl, rfl, rfl, rfl⟩

theorem fetch_of {m : Memory} {p : image_ptr} {d : List ℚ} (h : m[p.data]? = some d) :
    fetch m p = .ok { w := p.w, h := p.h, c := p.c, data := d } := by
  unfold fetch
  rw [h]

theorem getElem?_set_self {m : Memory} {i : Nat} (d : List ℚ) (h : i < m.length) :
    (m.set i d)[i]? = some d := by
  rw [List.getElem?_set, if_pos rfl, if_pos h]

theorem getElem?_set_other {m : Memory} {i j : Nat} (d : List ℚ) (h : i ≠ j) :
    (m.set i d)[j]? = m[j]? := by
  rw [List.getElem?_set, if_neg h]

theorem lt_length_of_getElem? {m : Memory} {i : Nat} {d : List ℚ} (h : m[i]? = some d) :
    i < m.length := by
  by_contra hn
  rw [List.getElem?_eq_none (Nat.le_of_not_lt hn)] at h
  cases h

theorem set_pixel_total {im : image} (hw : WellFormed im) (x y c : Int) (v : ℚ) :
    ∃ im', set_pixel im x y c v = .ok im' ∧ im'.w = im.w ∧ im'.h = im.h ∧ im'.c = im.c ∧
      (InBounds im x y c → get_pixel im' x y c = .ok v) := by
  by_cases hb : InBounds im x y c
  · refine ⟨_, set_pixel_eq v hw hb, rfl, rfl, rfl, fun _ => ?_⟩
    rw [get_pixel_eq (wellFormed_set hw _ _) (show InBounds _ x y c from hb)]
    show Except.ok ((im.data.set (lin im x y c) v).getD (lin im x y c) 0) = _
    rw [getD_set_eq _ (lin_lt hw hb)]
  · exact ⟨_, set_pixel_outside v hb, rfl, rfl, rfl, fun h => absurd h hb⟩
/-! ## Further traversal facts -/

theorem fclamp_image_eq : fclamp_image = fcell fclamp_image_calc := rfl

theorem foldlM_fixed {σ S : Type} (step : σ → S → Except Fault σ) (s0 : σ) (L : List S)
    (h : ∀ p ∈ L, step s0 p = .ok s0) : L.foldlM step s0 = .ok s0 := by
  induction L with
  | nil => rfl
  | cons p L ih =>
    rw [List.foldlM_cons, h p (List.mem_cons_self p L)]
    exact ih (fun q hq => h q (List.mem_cons_of_mem p hq))

theorem fpoint_run_outside (op : ℚ → ℚ → ℚ) {im1 : image} (hw : WellFormed im1) (x y : Int)
    {k : Int} (hk : k < 0 ∨ k ≥ im1.c) (v : ℚ) :
    fpoint op im1 none x y ⟨k, v⟩ = .ok (im1.data, none, ⟨k, v⟩) := by
  have hb : ¬ InBounds im1 x y k := by unfold InBounds; omega
  unfold fpoint
  simp only [get_pixel_clamped hw, bind, Except.bind]
  rw [set_pixel_outside _ hb]
  rfl

theorem map_yx_point_outside (op : ℚ → ℚ → ℚ) (im : image) (hw : WellFormed im) {k : Int}
    (hk : k < 0 ∨ k ≥ im.c) (v : ℚ) :
    map_yx im none (fpoint op) ⟨k, v⟩ = .ok (im, none, ⟨k, v⟩) := by
  rw [map_yx_eq_foldlM]
  apply foldlM_fixed
  intro p _
  simp only [step_yx, fpoint_run_outside op hw p.1 p.2 hk v, bind, Except.bind, pure,
    Except.pure]
  rfl

theorem set_pixel_shape {im im' : image} {x y c : Int} {v : ℚ}
    (h : set_pixel im x y c v = .ok im') :
    im'.w = im.w ∧ im'.h = im.h ∧ im'.c = im.c ∧ im'.data.length = im.data.length := by
  unfold set_pixel at h
  dsimp only at h
  split_ifs at h with hf
  · unfold poke at h
    split_ifs at h with hp
    · simp only [bind, Except.bind, pure, Except.pure, Except.ok.injEq] at h
      subst h
      exact ⟨rfl, rfl, rfl, List.length_set _ _ _⟩
    · simp [bind, Except.bind] at h
  · simp only [pure, Except.pure, Except.ok.injEq] at h
    subst h
    exact ⟨rfl, rfl, rfl, rfl⟩

theorem bind_eq_ok {β γ : Type} {m : Except Fault β} {k : β → Except Fault γ} {r : γ}
    (h : (m >>= k) = .ok r) : ∃ v, m = .ok v ∧ k v = .ok r := by
  cases m with
  | error e => simp [bind, Except.bind] at h
  | ok v => exact ⟨v, rfl, h⟩

theorem fpoint_length (op : ℚ → ℚ → ℚ) {im1 : image} {im2 : Option image} {x y : Int}
    {a : cv_args} {r : Effect cv_args} (h : fpoint op im1 im2 x y a = .ok r) :
    r.1.length = im1.data.length := by
  unfold fpoint at h
  obtain ⟨v, -, h⟩ := bind_eq_ok h
  obtain ⟨i, hi, h⟩ := bind_eq_ok h
  simp only [pure, Except.pure, Except.ok.injEq] at h
  subst h
  exact (set_pixel_shape hi).2.2.2

theorem fcell_length (op : ℚ → ℚ) {im1 : image} {im2 : Option image} {x y c : Int}
    {a : Unit} {r : Effect Unit} (h : fcell op im1 im2 x y c a = .ok r) :
    r.1.length = im1.data.length := by
  unfold fcell at h
  obtain ⟨v, -, h⟩ := bind_eq_ok h
  obtain ⟨i, hi, h⟩ := bind_eq_ok h
  simp only [pure, Except.pure, Except.ok.injEq] at h
  subst h
  exact (set_pixel_shape hi).2.2.2

theorem fpixel3_length (g : ℚ → ℚ → ℚ → ℚ × ℚ × ℚ) {im1 : image} {im2 : Option image}
    {x y : Int} {a : Unit} {r : Effect Unit} (h : fpixel3 g im1 im2 x y a = .ok r) :
    r.1.length = im1.data.length := by
  unfold fpixel3 at h
  obtain ⟨p0, -, h⟩ := bind_eq_ok h
  obtain ⟨p1, -, h⟩ := bind_eq_ok h
  obtain ⟨p2, -, h⟩ := bind_eq_ok h
  obtain ⟨i1, h1, h⟩ := bind_eq_ok h
  obtain ⟨i2, h2, h⟩ := bind_eq_ok h
  obtain ⟨i3, h3, h⟩ := bind_eq_ok h
  simp only [pure, Except.pure, Except.ok.injEq] at h
  subst h
  rw [(set_pixel_shape h3).2.2.2, (set_pixel_shape h2).2.2.2, (set_pixel_shape h1).2.2.2]

theorem foldlM_length {α S : Type}
    (step : (image × Option image × α) → S → Except Fault (image × Option image × α))
    (hstep : ∀ s s' p, step s p = .ok s' → s'.1.data.length = s.1.data.length) (L : List S) :
    ∀ s s', L.foldlM step s = .ok s' → s'.1.data.length = s.1.data.length := by
  induction L with
  | nil => intro s s' h; cases h; rfl
  | cons p L ih =>
    intro s s' h
    rw [List.foldlM_cons] at h
    obtain ⟨s1, h1, h2⟩ := bind_eq_ok h
    exact (ih _ _ h2).trans (hstep _ _ _ h1)

theorem map_yx_shape {α : Type} (f : fmap_yx α)
    (hf : ∀ i1 i2 x y a r, f i1 i2 x y a = .ok r → r.1.length = i1.data.length)
    {im1 : image} {im2 : Option image} {a : α} {s : image × Option image × α}
    (h : map_yx im1 im2 f a = .ok s) :
    s.1.w = im1.w ∧ s.1.h = im1.h ∧ s.1.c = im1.c ∧ s.1.data.length = im1.data.length := by
  rw [map_yx_eq_foldlM] at h
  have h1 := foldlM_header (step_yx f) (fun _ _ _ h => step_yx_header h) _ _ _ h
  have h2 := foldlM_length (step_yx f) (by
    intro s s' p hs
    unfold step_yx at hs
    obtain ⟨r, hr, hs⟩ := bind_eq_ok hs
    simp only [pure, Except.pure, Except.ok.injEq] at hs
    subst hs
    exact hf _ _ _ _ _ _ hr) _ _ _ h
  exact ⟨h1.1, h1.2.1, h1.2.2, h2⟩

theorem map_cyx_shape {α : Type} (f : fmap_cyx α)
    (hf : ∀ i1 i2 x y c a r, f i1 i2 x y c a = .ok r → r.1.length = i1.data.length)
    {im1 : image} {im2 : Option image} {a : α} {s : image × Option image × α}
    (h : map_cyx im1 im2 f a = .ok s) :
    s.1.w = im1.w ∧ s.1.h = im1.h ∧ s.1.c = im1.c ∧ s.1.data.length = im1.data.length := by
  rw [map_cyx_eq_foldlM] at h
  have h1 := foldlM_header (step_cyx f) (fun _ _ _ h => step_cyx_header h) _ _ _ h
  have h2 := foldlM_length (step_cyx f) (by
    intro s s' p hs
    unfold step_cyx at hs
    obtain ⟨r, hr, hs⟩ := bind_eq_ok hs
    simp only [pure, Except.pure, Except.ok.injEq] at hs
    subst hs
    exact hf _ _ _ _ _ _ _ hr) _ _ _ h
  exact ⟨h1.1, h1.2.1, h1.2.2, h2⟩



theorem fcell_run (op : ℚ → ℚ) {im1 : image} (hw : WellFormed im1) {x y c : Int}
    (hb : InBounds im1 x y c) (a : Unit) :
    fcell op im1 none x y c a =
      .ok (im1.data.set (lin im1 x y c) (op (sample im1 x y c)), none, a) := by
  unfold fcell
  simp only [get_pixel_eq hw hb, bind, Except.bind]
  rw [set_pixel_eq _ hw hb]
  rfl

/-- A callback that rewrites the one sample it is called for, run over all channels of the
whole image: every sample of the store ends up rewritten once, from its original value. -/
theorem map_cyx_cell (op : ℚ → ℚ) (im : image) (hw : WellFormed im) :
    ∃ im', map_cyx im none (fcell op) () = .ok (im', none, ()) ∧ im'.w = im.w ∧
      im'.h = im.h ∧ im'.c = im.c ∧ im'.data.length = im.data.length ∧
      ∀ i, i < im.data.length → im'.data.getD i 0 = op (im.data.getD i 0) := by
  rw [map_cyx_eq_foldlM]
  have key := foldlM_sites (step_cyx (fcell op))
    (fun σ => σ.1.w = im.w ∧ σ.1.h = im.h ∧ σ.1.c = im.c ∧
      σ.1.data.length = im.data.length ∧ σ.2.1 = none)
    (fun σ (i : Nat) => σ.1.data.getD i 0)
    (fun s i => i = lin im s.1 s.2.1 s.2.2)
    (fun _ o i => op (o i))
    (by
      intro s o o' h i hi
      dsimp only
      rw [h i hi])
    (coords_cyx im.w im.h im.c) (nodup_coords_cyx _ _ _)
    (by
      rintro s hs s' hs' i rfl e
      have := lin_inj hw (mem_coords_cyx_inBounds hs) (mem_coords_cyx_inBounds hs') e
      exact Prod.ext this.1 (Prod.ext this.2.1 this.2.2))
    (by
      rintro ⟨im1, o2, b⟩ ⟨i1, i2, i3, i4, i5⟩ s hs
      simp only at i1 i2 i3 i4 i5
      subst i5
      have hw1 : WellFormed im1 := wellFormed_of_header hw i1 i2 i3 i4
      have hb : InBounds im s.1 s.2.1 s.2.2 := mem_coords_cyx_inBounds hs
      have hb1 : InBounds im1 s.1 s.2.1 s.2.2 := by
        unfold InBounds; rw [i1, i2, i3]; exact hb
      have e := fcell_run op hw1 hb1 b
      rw [lin_congr i1 i2] at e
      refine ⟨settle im1 none
        (im1.data.set (lin im s.1 s.2.1 s.2.2) (op (sample im1 s.1 s.2.1 s.2.2)), none, b),
        ?_, ⟨i1, i2, i3, ?_, rfl⟩, ?_⟩
      · simp only [step_cyx, e, bind, Except.bind, pure, Except.pure]
      · show (im1.data.set _ _).length = _
        rw [List.length_set]; exact i4
      · intro i
        constructor
        · rintro rfl
          show (im1.data.set _ _).getD _ 0 = op (im1.data.getD _ 0)
          rw [getD_set_eq _ (by rw [i4]; exact lin_lt hw hb)]
          unfold sample
          rw [lin_congr i1 i2]
        · intro hn
          show (im1.data.set _ _).getD i 0 = im1.data.getD i 0
          exact getD_set_ne _ (Ne.symm hn))
    (im, none, ()) ⟨rfl, rfl, rfl, rfl, rfl⟩
  obtain ⟨⟨im', o2, b⟩, e, ⟨i1, i2, i3, i4, i5⟩, hobs⟩ := key
  simp only at i1 i2 i3 i4 i5
  subst i5
  refine ⟨im', e, i1, i2, i3, i4, ?_⟩
  intro i hi
  obtain ⟨x, y, c, hb, rfl⟩ := exists_coord hw hi
  have hs : (x, y, c) ∈ coords_cyx im.w im.h im.c :=
    (mem_coords_cyx _ _ _ _ _ _).2 ⟨hb.2.2.2.2.1, hb.2.2.2.2.2, hb.2.2.1, hb.2.2.2.1, hb.1, hb.2.1⟩
  exact (hobs (lin im x y c)).1 (x, y, c) hs rfl

theorem clamp_image_ok (im : image) (hw : WellFormed im) :
    ∃ im', clamp_image im = .ok im' ∧ im'.w = im.w ∧ im'.h = im.h ∧ im'.c = im.c ∧
      im'.data.length = im.data.length ∧
      ∀ i, i < im.data.length → im'.data.getD i 0 = fclamp_image_calc (im.data.getD i 0) := by
  obtain ⟨im', e, h⟩ := map_cyx_cell fclamp_image_calc im hw
  refine ⟨im', ?_, h⟩
  unfold clamp_image
  rw [fclamp_image_eq, e]
  rfl

theorem fclamp_image_calc_spec (v : ℚ) :
    0 ≤ fclamp_image_calc v ∧ fclamp_image_calc v ≤ 1 ∧
      (0 ≤ v → v ≤ 1 → fclamp_image_calc v = v) ∧ (v > 1 → fclamp_image_calc v = 1) ∧
      (v < 0 → fclamp_image_calc v = 0) := by
  unfold fclamp_image_calc
  dsimp only
  refine ⟨?_, ?_, ?_, ?_, ?_⟩
  · split_ifs <;> linarith
  · split_ifs <;> linarith
  · intro h0 h1; split_ifs <;> linarith
  · intro h; split_ifs <;> linarith
  · intro h; split_ifs <;> linarith


theorem clampTo_idem {n : Int} (hn : 0 < n) (v : Int) : clampTo n (clampTo n v) = clampTo n v := by
  unfold clampTo; split_ifs <;> omega

theorem map_yx_point_total (op : ℚ → ℚ → ℚ) (im : image) (hw : WellFormed im) (k : Int)
    (v : ℚ) :
    ∃ im', map_yx im none (fpoint op) ⟨k, v⟩ = .ok (im', none, ⟨k, v⟩) ∧ im'.w = im.w ∧
      im'.h = im.h ∧ im'.c = im.c ∧ im'.data.length = im.data.length := by
  by_cases hk : 0 ≤ k ∧ k < im.c
  · obtain ⟨im', e, h1, h2, h3, h4, -⟩ := map_yx_point op im hw k hk.1 hk.2 v
    exact ⟨im', e, h1, h2, h3, h4⟩
  · exact ⟨im, map_yx_point_outside op im hw (by omega) v, rfl, rfl, rfl, rfl⟩

theorem shift_image_eq_map (im : image) (k : Int) (v : ℚ) {im' : image}
    (h : map_yx im none (fpoint fun value v => value + v) ⟨k, v⟩ = .ok (im', none, ⟨k, v⟩)) :
    shift_image im k v = .ok im' := by
  unfold shift_image
  rw [fshift_image_eq]
  simp only [h, bind, Except.bind, pure, Except.pure]

theorem scale_image_eq_map (im : image) (k : Int) (v : ℚ) {im' : image}
    (h : map_yx im none (fpoint fun value v => value * v) ⟨k, v⟩ = .ok (im', none, ⟨k, v⟩)) :
    scale_image im k v = .ok im' := by
  unfold scale_image
  rw [fscale_image_eq]
  simp only [h, bind, Except.bind, pure, Except.pure]
/-! ## Single pixels -/

theorem fpixel3_single (g : ℚ → ℚ → ℚ → ℚ × ℚ × ℚ) (a b c : ℚ) :
    fpixel3 g ⟨1, 1, 3, [a, b, c]⟩ none 0 0 () =
      .ok ([(g a b c).1, (g a b c).2.1, (g a b c).2.2], none, ()) := by
  rfl

theorem frgb_to_hsv_calc_gray (v : ℚ) : frgb_to_hsv_calc v v v = (0, 0, v) := by
  have hV : three_way_max v v v = v := by rw [three_way_max_eq]; simp
  have hm : three_way_min v v v = v := by rw [three_way_min_eq]; simp
  rw [frgb_to_hsv_calc_eq, hV, hm]
  simp [hue_of]

theorem checked_div_of_ne (a : ℚ) {b : ℚ} (hb : b ≠ 0) : checked_div a b = some (a / b) := by
  unfold checked_div
  rw [if_neg hb]

theorem frgb_to_hsv_checked_eq (R G B : ℚ) :
    frgb_to_hsv_checked R G B = some (frgb_to_hsv_calc R G B) := by
  have hS : (if three_way_max R G B = 0 then some (0 : ℚ)
      else checked_div (three_way_max R G B - three_way_min R G B) (three_way_max R G B)) =
      some (if three_way_max R G B = 0 then 0
        else (three_way_max R G B - three_way_min R G B) / three_way_max R G B) := by
    by_cases hV : three_way_max R G B = 0
    · rw [if_pos hV, if_pos hV]
    · rw [if_neg hV, if_neg hV, checked_div_of_ne _ hV]
  have hh : (if three_way_max R G B - three_way_min R G B = 0 then some (0 : ℚ)
      else if three_way_max R G B = R then
        checked_div (G - B) (three_way_max R G B - three_way_min R G B)
      else if three_way_max R G B = G then
        (checked_div (B - R) (three_way_max R G B - three_way_min R G B)).map (· + 2)
      else (checked_div (R - G) (three_way_max R G B - three_way_min R G B)).map (· + 4)) =
      some (hue_of R G B (three_way_max R G B) (three_way_min R G B)) := by
    unfold hue_of
    by_cases hC : three_way_max R G B - three_way_min R G B = 0
    · rw [if_pos hC, if_pos hC]
    · rw [if_neg hC, if_neg hC]
      simp only [checked_div_of_ne _ hC, Option.map_some']
      split_ifs <;> rfl
  have hH : ∀ h : ℚ, (if h < 0 then (checked_div h 6).map (· + 1) else checked_div h 6) =
      some (if h < 0 then h / 6 + 1 else h / 6) := by
    intro h
    simp only [checked_div_of_ne _ (show (6 : ℚ) ≠ 0 by norm_num), Option.map_some']
    split_ifs <;> rfl
  rw [frgb_to_hsv_calc_eq]
  unfold frgb_to_hsv_checked
  dsimp only
  rw [hS, Option.bind_eq_bind, Option.some_bind, hh, Option.some_bind, hH, Option.some_bind]
  rfl

theorem frgb_to_hsv_calc_eq_spec (R G B : ℚ) :
    frgb_to_hsv_calc R G B = spec_rgb_to_hsv R G B := by
  unfold frgb_to_hsv_calc spec_rgb_to_hsv
  rw [three_way_max_eq, three_way_min_eq]

theorem fmod_two_eq_floor {h : ℚ} (h0 : 0 ≤ h) :
    fmod h 2 = h - 2 * (Int.floor (h / 2) : ℚ) := by
  unfold fmod trunc
  rw [if_pos (by positivity)]
  ring

theorem fhsv_to_rgb_calc_eq_spec {H : ℚ} (S V : ℚ) (h0 : 0 ≤ H) :
    fhsv_to_rgb_calc H S V = spec_hsv_to_rgb H S V := by
  have e : 360 * H / 60 = 6 * H := by ring
  have a0 : (0 : ℚ) ≤ 6 * H := by linarith
  unfold fhsv_to_rgb_calc spec_hsv_to_rgb
  simp only [e, fabs_eq_abs, fmod_two_eq_floor a0]
  by_cases c1 : 6 * H < 1
  · simp only [c1, a0, and_self, if_true]
  · have b1 : 1 ≤ 6 * H := not_lt.1 c1
    by_cases c2 : 6 * H < 2
    · simp only [c1, c2, b1, and_false, and_self, if_true, if_false]
    · have b2 : 2 ≤ 6 * H := not_lt.1 c2
      by_cases c3 : 6 * H < 3
      · simp only [c1, c2, c3, b2, and_false, and_self, if_true, if_false]
      · have b3 : 3 ≤ 6 * H := not_lt.1 c3
        by_cases c4 : 6 * H < 4
        · simp only [c1, c2, c3, c4, b3, and_false, and_self, if_true, if_false]
        · have b4 : 4 ≤ 6 * H := not_lt.1 c4
          by_cases c5 : 6 * H < 5
          · simp only [c1, c2, c3, c4, c5, b4, and_false, and_self, if_true, if_false]
          · simp only [c1, c2, c3, c4, c5, and_false, if_false]



theorem three_way_facts (R G B : ℚ) :
    R ≤ three_way_max R G B ∧ G ≤ three_way_max R G B ∧ B ≤ three_way_max R G B ∧
    (three_way_max R G B = R ∨ three_way_max R G B = G ∨ three_way_max R G B = B) ∧
    three_way_min R G B ≤ R ∧ three_way_min R G B ≤ G ∧ three_way_min R G B ≤ B ∧
    (three_way_min R G B = R ∨ three_way_min R G B = G ∨ three_way_min R G B = B) := by
  rw [three_way_max_eq, three_way_min_eq]
  refine ⟨le_max_left _ _, le_trans (le_max_left _ _) (le_max_right _ _),
    le_trans (le_max_right _ _) (le_max_right _ _), ?_, min_le_left _ _,
    le_trans (min_le_right _ _) (min_le_left _ _),
    le_trans (min_le_right _ _) (min_le_right _ _), ?_⟩
  · rcases max_choice R (max G B) with h | h
    · exact Or.inl h
    · rcases max_choice G B with h' | h'
      · exact Or.inr (Or.inl (h.trans h'))
      · exact Or.inr (Or.inr (h.trans h'))
  · rcases min_choice R (min G B) with h | h
    · exact Or.inl h
    · rcases min_choice G B with h' | h'
      · exact Or.inr (Or.inl (h.trans h'))
      · exact Or.inr (Or.inr (h.trans h'))

theorem hue_of_range {R G B V m : ℚ} (v1 : R ≤ V) (v2 : G ≤ V) (v3 : B ≤ V)
    (m1 : m ≤ R) (m2 : m ≤ G) (m3 : m ≤ B) :
    -1 ≤ hue_of R G B V m ∧ hue_of R G B V m ≤ 5 := by
  unfold hue_of
  by_cases hC : V - m = 0
  · rw [if_pos hC]; norm_num
  · have hCpos : 0 < V - m := lt_of_le_of_ne (by linarith) (Ne.symm hC)
    rw [if_neg hC]
    by_cases h1 : V = R
    · rw [if_pos h1]
      have a : -1 ≤ (G - B) / (V - m) := (le_div_iff₀ hCpos).2 (by linarith)
      have b : (G - B) / (V - m) ≤ 1 := (div_le_one hCpos).2 (by linarith)
      constructor <;> linarith
    · rw [if_neg h1]
      by_cases h2 : V = G
      · rw [if_pos h2]
        have a : -1 ≤ (B - R) / (V - m) := (le_div_iff₀ hCpos).2 (by linarith)
        have b : (B - R) / (V - m) ≤ 1 := (div_le_one hCpos).2 (by linarith)
        constructor <;> linarith
      · rw [if_neg h2]
        have a : -1 ≤ (R - G) / (V - m) := (le_div_iff₀ hCpos).2 (by linarith)
        have b : (R - G) / (V - m) ≤ 1 := (div_le_one hCpos).2 (by linarith)
        constructor <;> linarith

theorem frgb_to_hsv_calc_hue_range (R G B : ℚ) :
    0 ≤ (frgb_to_hsv_calc R G B).1 ∧ (frgb_to_hsv_calc R G B).1 < 1 := by
  obtain ⟨v1, v2, v3, -, m1, m2, m3, -⟩ := three_way_facts R G B
  have h := hue_of_range v1 v2 v3 m1 m2 m3
  rw [frgb_to_hsv_calc_eq]
  dsimp only
  split_ifs with hn
  · constructor <;> linarith
  · constructor <;> linarith

theorem frgb_to_hsv_calc_unit_range {R G B : ℚ} (r0 : 0 ≤ R) (r1 : R ≤ 1) (g0 : 0 ≤ G)
    (g1 : G ≤ 1) (b0 : 0 ≤ B) (b1 : B ≤ 1) :
    0 ≤ (frgb_to_hsv_calc R G B).2.1 ∧ (frgb_to_hsv_calc R G B).2.1 ≤ 1 ∧
      0 ≤ (frgb_to_hsv_calc R G B).2.2 ∧ (frgb_to_hsv_calc R G B).2.2 ≤ 1 := by
  obtain ⟨v1, v2, v3, vc, m1, m2, m3, mc⟩ := three_way_facts R G B
  have hV0 : 0 ≤ three_way_max R G B := le_trans r0 v1
  have hV1 : three_way_max R G B ≤ 1 := by rcases vc with h | h | h <;> rw [h] <;> assumption
  have hm0 : 0 ≤ three_way_min R G B := by rcases mc with h | h | h <;> rw [h] <;> assumption
  rw [frgb_to_hsv_calc_eq]
  dsimp only
  refine ⟨?_, ?_, hV0, hV1⟩
  · split_ifs with hz
    · exact le_refl 0
    · exact div_nonneg (by linarith) hV0
  · split_ifs with hz
    · norm_num
    · have hpos : 0 < three_way_max R G B := lt_of_le_of_ne hV0 (Ne.symm hz)
      exact (div_le_one hpos).2 (by linarith)


theorem three_way_max_of {a b c V : ℚ} (h1 : a ≤ V) (h2 : b ≤ V) (h3 : c ≤ V)
    (hc : V = a ∨ V = b ∨ V = c) : three_way_max a b c = V := by
  rw [three_way_max_eq]
  apply le_antisymm (max_le h1 (max_le h2 h3))
  rcases hc with h | h | h
  · rw [h]; exact le_max_left _ _
  · rw [h]; exact le_trans (le_max_left _ _) (le_max_right _ _)
  · rw [h]; exact le_trans (le_max_right _ _) (le_max_right _ _)

theorem three_way_min_of {a b c m : ℚ} (h1 : m ≤ a) (h2 : m ≤ b) (h3 : m ≤ c)
    (hc : m = a ∨ m = b ∨ m = c) : three_way_min a b c = m := by
  rw [three_way_min_eq]
  apply le_antisymm _ (le_min h1 (le_min h2 h3))
  rcases hc with h | h | h
  · rw [h]; exact min_le_left _ _
  · rw [h]; exact le_trans (min_le_right _ _) (min_le_left _ _)
  · rw [h]; exact le_trans (min_le_right _ _) (min_le_right _ _)

/-- The result of lines 173-193 on a pixel with maximum `V > 0`, minimum `m` and hue
numerator `t`. -/
theorem frgb_to_hsv_calc_of {R G B V m t : ℚ} (hV : 0 < V)
    (h1 : R ≤ V) (h2 : G ≤ V) (h3 : B ≤ V) (hc : V = R ∨ V = G ∨ V = B)
    (m1 : m ≤ R) (m2 : m ≤ G) (m3 : m ≤ B) (mc : m = R ∨ m = G ∨ m = B)
    (ht : hue_of R G B V m = t) :
    frgb_to_hsv_calc R G B = (if t < 0 then t / 6 + 1 else t / 6, (V - m) / V, V) := by
  rw [frgb_to_hsv_calc_eq, three_way_max_of h1 h2 h3 hc, three_way_min_of m1 m2 m3 mc, ht,
    if_neg (ne_of_gt hV)]

theorem reverse_core {V m h : ℚ} (hV : 0 < V) (hm : m < V) (h0 : 0 ≤ h) (h6 : h < 6) :
    frgb_to_hsv_calc (fhsv_to_rgb_calc (h / 6) ((V - m) / V) V).1
      (fhsv_to_rgb_calc (h / 6) ((V - m) / V) V).2.1
      (fhsv_to_rgb_calc (h / 6) ((V - m) / V) V).2.2 = (h / 6, (V - m) / V, V) := by
  have hC : V - m ≠ 0 := by intro e; linarith
  have hCpos : 0 < V - m := by linarith
  rw [fhsv_to_rgb_calc_sector (ne_of_gt hV) h0 h6]
  by_cases c1 : h < 1
  · rw [if_pos c1]
    dsimp only
    have g1 : m ≤ (V - m) * h + m := by nlinarith
    have g2 : (V - m) * h + m ≤ V := by nlinarith
    rw [frgb_to_hsv_calc_of (t := h) hV (le_refl V) g2 hm.le (Or.inl rfl) hm.le g1 (le_refl m)
      (Or.inr (Or.inr rfl))
      (by unfold hue_of; rw [if_neg hC, if_pos rfl]; field_simp),
      if_neg (not_lt.2 h0)]
  · have b1 : 1 ≤ h := not_lt.1 c1
    rw [if_neg c1]
    by_cases c2 : h < 2
    · rw [if_pos c2]
      dsimp only
      have g1 : m ≤ (V - m) * (2 - h) + m := by nlinarith
      have g2 : (V - m) * (2 - h) + m ≤ V := by nlinarith
      rw [frgb_to_hsv_calc_of (t := h) hV g2 (le_refl V) hm.le (Or.inr (Or.inl rfl)) g1 hm.le
        (le_refl m) (Or.inr (Or.inr rfl))
        (by
          unfold hue_of
          rw [if_neg hC]
          by_cases e : V = (V - m) * (2 - h) + m
          · have h1 : h = 1 := by
              have : (V - m) * (1 - h) = 0 := by linarith
              rcases mul_eq_zero.1 this with a | a
              · exact absurd a hC
              · linarith
            rw [if_pos e]
            subst h1
            field_simp
          · rw [if_neg e, if_pos rfl]
            field_simp
            ring),
        if_neg (not_lt.2 h0)]
    · have b2 : 2 ≤ h := not_lt.1 c2
      rw [if_neg c2]
      by_cases c3 : h < 3
      · rw [if_pos c3]
        dsimp only
        have g1 : m ≤ (V - m) * (h - 2) + m := by nlinarith
        have g2 : (V - m) * (h - 2) + m ≤ V := by nlinarith
        rw [frgb_to_hsv_calc_of (t := h) hV hm.le (le_refl V) g2 (Or.inr (Or.inl rfl))
          (le_refl m) hm.le g1 (Or.inl rfl)
          (by
            unfold hue_of
            rw [if_neg hC, if_neg (ne_of_gt hm), if_pos rfl]
            field_simp),
          if_neg (not_lt.2 h0)]
      · have b3 : 3 ≤ h := not_lt.1 c3
        rw [if_neg c3]
        by_cases c4 : h < 4
        · rw [if_pos c4]
          dsimp only
          have g1 : m ≤ (V - m) * (4 - h) + m := by nlinarith
          have g2 : (V - m) * (4 - h) + m ≤ V := by nlinarith
          rw [frgb_to_hsv_calc_of (t := h) hV hm.le g2 (le_refl V) (Or.inr (Or.inr rfl))
            (le_refl m) g1 hm.le (Or.inl rfl)
            (by
              unfold hue_of
              rw [if_neg hC, if_neg (ne_of_gt hm)]
              by_cases e : V = (V - m) * (4 - h) + m
              · have h3 : h = 3 := by
                  have : (V - m) * (3 - h) = 0 := by linarith
                  rcases mul_eq_zero.1 this with a | a
                  · exact absurd a hC
                  · linarith
                rw [if_pos e]
                subst h3
                field_simp
                ring
              · rw [if_neg e]
                field_simp
                ring),
            if_neg (not_lt.2 h0)]
        · have b4 : 4 ≤ h := not_lt.1 c4
          rw [if_neg c4]
          by_cases c5 : h < 5
          · rw [if_pos c5]
            dsimp only
            have g1 : m ≤ (V - m) * (h - 4) + m := by nlinarith
            have g2 : (V - m) * (h - 4) + m < V := by nlinarith
            rw [frgb_to_hsv_calc_of (t := h) hV g2.le hm.le (le_refl V)
              (Or.inr (Or.inr rfl)) g1 (le_refl m) hm.le (Or.inr (Or.inl rfl))
              (by
                unfold hue_of
                rw [if_neg hC, if_neg (ne_of_gt g2), if_neg (ne_of_gt hm)]
                field_simp),
              if_neg (not_lt.2 h0)]
          · have b5 : 5 ≤ h := not_lt.1 c5
            rw [if_neg c5]
            dsimp only
            have g1 : m ≤ (V - m) * (6 - h) + m := by nlinarith
            have g2 : (V - m) * (6 - h) + m ≤ V := by nlinarith
            rw [frgb_to_hsv_calc_of (t := h - 6) hV (le_refl V) hm.le g2 (Or.inl rfl) hm.le
              (le_refl m) g1 (Or.inr (Or.inl rfl))
              (by
                unfold hue_of
                rw [if_neg hC, if_pos rfl]
                field_simp
                ring),
              if_pos (by linarith)]
            refine Prod.ext ?_ rfl
            dsimp only
            ring


theorem reverse_calc {H S V : ℚ} (h0 : 0 ≤ H) (h1 : H < 1) (hS : 0 < S) (hV : 0 < V) :
    frgb_to_hsv_calc (fhsv_to_rgb_calc H S V).1 (fhsv_to_rgb_calc H S V).2.1
      (fhsv_to_rgb_calc H S V).2.2 = (H, S, V) := by
  have e1 : 6 * H / 6 = H := by ring
  have e2 : (V - (V - V * S)) / V = S := by field_simp
  have key := reverse_core (V := V) (m := V - V * S) (h := 6 * H) hV
    (by nlinarith) (by linarith) (by linarith)
  rw [e1, e2] at key
  exact key

theorem reverse_calc_gray {H S V : ℚ} (h0 : 0 ≤ H) (h1 : H < 1) (hz : S = 0 ∨ V = 0) :
    frgb_to_hsv_calc (fhsv_to_rgb_calc H S V).1 (fhsv_to_rgb_calc H S V).2.1
      (fhsv_to_rgb_calc H S V).2.2 = (0, 0, V) := by
  have hC : V * S = 0 := by rcases hz with h | h <;> rw [h] <;> ring
  have e : fhsv_to_rgb_calc H S V = (V, V, V) := by
    rw [fhsv_to_rgb_calc_eq S V h0 h1]
    simp only [hC, zero_mul, sub_zero, zero_add]
    split_ifs <;> rfl
  rw [e]
  exact frgb_to_hsv_calc_gray V

/-! ## Rounding -/

theorem round_even_bounds (q : ℚ) :
    Int.floor q ≤ round_even q ∧ round_even q ≤ Int.floor q + 1 := by
  unfold round_even
  split_ifs <;> omega

theorem round_even_intCast (n : Int) : round_even (n : ℚ) = n := by
  unfold round_even
  simp

theorem round_even_mono {a b : ℚ} (h : a ≤ b) : round_even a ≤ round_even b := by
  have hf : Int.floor a ≤ Int.floor b := Int.floor_mono h
  rcases hf.lt_or_eq with hlt | heq
  · have h1 := (round_even_bounds a).2
    have h2 := (round_even_bounds b).1
    omega
  · unfold round_even
    rw [heq]
    split_ifs <;> first | omega | (exfalso; linarith)

theorem round_even_neg (q : ℚ) : round_even (-q) = - round_even q := by
  by_cases hq : (Int.floor q : ℚ) = q
  · rw [← hq, ← Int.cast_neg, round_even_intCast, round_even_intCast]
  · have h1 : (Int.floor q : ℚ) < q := lt_of_le_of_ne (Int.floor_le q) hq
    have h2 : q < Int.floor q + 1 := Int.lt_floor_add_one q
    have hfl : Int.floor (-q) = - Int.floor q - 1 := by
      rw [Int.floor_eq_iff]
      push_cast
      constructor <;> linarith
    unfold round_even
    rw [hfl]
    push_cast
    split_ifs <;> first | omega | (exfalso; linarith)

theorem round_even_eq {q : ℚ} {n : Int} (h : |q - n| < 1 / 2) : round_even q = n := by
  rw [abs_lt] at h
  obtain ⟨h1, h2⟩ := h
  by_cases hq : (n : ℚ) ≤ q
  · have hfl : Int.floor q = n := by
      rw [Int.floor_eq_iff]
      constructor <;> linarith
    unfold round_even
    rw [hfl, if_pos (by linarith)]
  · have hfl : Int.floor q = n - 1 := by
      rw [Int.floor_eq_iff]
      push_cast
      constructor <;> linarith
    unfold round_even
    rw [hfl]
    push_cast
    rw [if_neg (by linarith), if_pos (by linarith)]
    omega

/-! ## Binary formats -/

theorem two_zpow_pos (k : Int) : (0 : ℚ) < 2 ^ k := zpow_pos (by norm_num) k

theorem binade_neg (emin : Int) (q : ℚ) : binade emin (-q) = binade emin q := by
  unfold binade
  rw [abs_neg]

theorem fl_neg (p : Nat) (emin : Int) (q : ℚ) : fl p emin (-q) = - fl p emin q := by
  unfold fl
  rw [binade_neg, neg_div, round_even_neg]
  push_cast
  ring

theorem fl_zero (p : Nat) (emin : Int) : fl p emin 0 = 0 := by
  unfold fl
  rw [zero_div]
  have : round_even 0 = 0 := round_even_intCast 0
  rw [this]
  simp

theorem fl_le_of_le {p : Nat} {emin : Int} {q : ℚ} {n : Int}
    (h : q ≤ n * 2 ^ (binade emin q - ((p : Int) - 1))) :
    fl p emin q ≤ n * 2 ^ (binade emin q - ((p : Int) - 1)) := by
  unfold fl
  have hk := two_zpow_pos (binade emin q - ((p : Int) - 1))
  have h1 : q / 2 ^ (binade emin q - ((p : Int) - 1)) ≤ n := by
    rw [div_le_iff₀ hk]; exact h
  have h2 := round_even_mono h1
  rw [round_even_intCast] at h2
  have h3 : (round_even (q / 2 ^ (binade emin q - ((p : Int) - 1))) : ℚ) ≤ n := by
    exact_mod_cast h2
  exact mul_le_mul_of_nonneg_right h3 hk.le

theorem le_fl_of_le {p : Nat} {emin : Int} {q : ℚ} {n : Int}
    (h : (n : ℚ) * 2 ^ (binade emin q - ((p : Int) - 1)) ≤ q) :
    (n : ℚ) * 2 ^ (binade emin q - ((p : Int) - 1)) ≤ fl p emin q := by
  unfold fl
  have hk := two_zpow_pos (binade emin q - ((p : Int) - 1))
  have h1 : (n : ℚ) ≤ q / 2 ^ (binade emin q - ((p : Int) - 1)) := by
    rw [le_div_iff₀ hk]; exact h
  have h2 := round_even_mono h1
  rw [round_even_intCast] at h2
  have h3 : (n : ℚ) ≤ (round_even (q / 2 ^ (binade emin q - ((p : Int) - 1))) : ℚ) := by
    exact_mod_cast h2
  exact mul_le_mul_of_nonneg_right h3 hk.le

theorem fl_nonneg (p : Nat) (emin : Int) {q : ℚ} (h : 0 ≤ q) : 0 ≤ fl p emin q := by
  have := @le_fl_of_le p emin q 0 (by simpa using h)
  simpa using this

/-- Below the top of its binade. -/
theorem lt_binade_succ (emin : Int) (q : ℚ) : |q| < 2 ^ (binade emin q + 1) := by
  have h1 : |q| < ((2 : Nat) : ℚ) ^ (Int.log 2 |q| + 1) := Int.lt_zpow_succ_log_self (by norm_num) _
  rw [Nat.cast_ofNat] at h1
  refine lt_of_lt_of_le h1 (zpow_le_zpow_right₀ (by norm_num) ?_)
  unfold binade
  have := le_max_left (Int.log 2 |q|) emin
  omega

/-- At least the bottom of its binade, unless in the subnormal range. -/
theorem binade_le {emin : Int} {q : ℚ} (hq : q ≠ 0) (h : emin ≤ Int.log 2 |q|) :
    (2 : ℚ) ^ binade emin q ≤ |q| := by
  have h1 : ((2 : Nat) : ℚ) ^ Int.log 2 |q| ≤ |q| :=
    Int.zpow_log_le_self (by norm_num) (abs_pos.mpr hq)
  rw [Nat.cast_ofNat] at h1
  unfold binade
  rw [max_eq_left h]
  exact h1

theorem binade_mono (emin : Int) {a b : ℚ} (h0 : 0 < a) (h : a ≤ b) :
    binade emin a ≤ binade emin b := by
  unfold binade
  have : Int.log 2 |a| ≤ Int.log 2 |b| := by
    rw [abs_of_pos h0, abs_of_pos (lt_of_lt_of_le h0 h)]
    exact Int.log_mono_right h0 h
  exact max_le_max this (le_refl _)

theorem binade_eq {emin e : Int} {q : ℚ} (he : emin ≤ e) (h1 : 2 ^ e ≤ |q|)
    (h2 : |q| < 2 ^ (e + 1)) : binade emin q = e := by
  have hpos : 0 < |q| := lt_of_lt_of_le (two_zpow_pos e) h1
  have hl : Int.log 2 |q| = e := by
    apply le_antisymm
    · have := (Int.lt_zpow_iff_log_lt (b := 2) (by norm_num) hpos (x := e + 1)).mp
        (by rw [Nat.cast_ofNat]; exact h2)
      omega
    · exact (Int.zpow_le_iff_le_log (b := 2) (by norm_num) hpos (x := e)).mp
        (by rw [Nat.cast_ofNat]; exact h1)
  unfold binade
  rw [hl, max_eq_left he]

theorem pow_pred_mul (p : Nat) (hp : 1 ≤ p) (e : Int) :
    (((2 : Int) ^ (p - 1) : Int) : ℚ) * 2 ^ (e - ((p : Int) - 1)) = 2 ^ e := by
  push_cast
  rw [← zpow_natCast, ← zpow_add₀ (by norm_num : (2 : ℚ) ≠ 0)]
  congr 1
  omega

theorem pow_mul (p : Nat) (e : Int) :
    (((2 : Int) ^ p : Int) : ℚ) * 2 ^ (e - ((p : Int) - 1)) = 2 ^ (e + 1) := by
  push_cast
  rw [← zpow_natCast, ← zpow_add₀ (by norm_num : (2 : ℚ) ≠ 0)]
  congr 1
  omega

theorem fl_le_binade_succ (p : Nat) (emin : Int) {q : ℚ} (h0 : 0 < q) :
    fl p emin q ≤ 2 ^ (binade emin q + 1) := by
  have h := lt_binade_succ emin q
  rw [abs_of_pos h0] at h
  have := @fl_le_of_le p emin q (2 ^ p)
    (by rw [pow_mul]; exact h.le)
  rw [pow_mul] at this
  exact this

theorem binade_le_fl {p : Nat} (hp : 1 ≤ p) {emin : Int} {q : ℚ} (h0 : 0 < q)
    (h : emin ≤ Int.log 2 |q|) : 2 ^ binade emin q ≤ fl p emin q := by
  have h1 := binade_le h0.ne.symm h
  rw [abs_of_pos h0] at h1
  have := @le_fl_of_le p emin q (2 ^ (p - 1))
    (by rw [pow_pred_mul p hp]; exact h1)
  rw [pow_pred_mul p hp] at this
  exact this

theorem fl_mono_pos {p : Nat} (hp : 1 ≤ p) (emin : Int) {a b : ℚ} (h0 : 0 < a) (h : a ≤ b) :
    fl p emin a ≤ fl p emin b := by
  have hb : 0 < b := lt_of_lt_of_le h0 h
  rcases (binade_mono emin h0 h).lt_or_eq with hlt | heq
  · have h1 := fl_le_binade_succ p emin h0
    have hlog : emin ≤ Int.log 2 |b| := by
      by_contra hc
      have e1 : binade emin b = emin := by
        unfold binade
        exact max_eq_right (by omega)
      have e2 : emin ≤ binade emin a := le_max_right _ _
      omega
    have h2 := binade_le_fl hp hb hlog
    have h3 : (2 : ℚ) ^ (binade emin a + 1) ≤ 2 ^ binade emin b :=
      zpow_le_zpow_right₀ (by norm_num) (by omega)
    linarith
  · unfold fl
    rw [heq]
    have hk := two_zpow_pos (binade emin b - ((p : Int) - 1))
    have h1 : a / 2 ^ (binade emin b - ((p : Int) - 1)) ≤
        b / 2 ^ (binade emin b - ((p : Int) - 1)) := div_le_div_of_nonneg_right h hk.le
    have h2 : (round_even (a / 2 ^ (binade emin b - ((p : Int) - 1))) : ℚ) ≤
        round_even (b / 2 ^ (binade emin b - ((p : Int) - 1))) := by
      exact_mod_cast round_even_mono h1
    exact mul_le_mul_of_nonneg_right h2 hk.le

theorem fl_mono {p : Nat} (hp : 1 ≤ p) (emin : Int) {a b : ℚ} (h : a ≤ b) :
    fl p emin a ≤ fl p emin b := by
  rcases lt_or_le 0 a with ha | ha
  · exact fl_mono_pos hp emin ha h
  · rcases le_or_lt 0 b with hb | hb
    · have h1 : fl p emin a ≤ 0 := by
        have := @fl_nonneg p emin (-a) (by linarith)
        rw [fl_neg] at this
        linarith
      exact le_trans h1 (fl_nonneg p emin hb)
    · have := fl_mono_pos hp emin (a := -b) (b := -a) (by linarith) (by linarith)
      rw [fl_neg, fl_neg] at this
      linarith

/-- Evaluation of a rounding: the binade and the nearest integer multiple are given. -/
theorem fl_eval {p : Nat} {emin : Int} {q : ℚ} (e n : Int) (he : emin ≤ e)
    (h1 : 2 ^ e ≤ |q|) (h2 : |q| < 2 ^ (e + 1))
    (hn : |q / 2 ^ (e - ((p : Int) - 1)) - n| < 1 / 2) :
    fl p emin q = n * 2 ^ (e - ((p : Int) - 1)) := by
  unfold fl
  rw [binade_eq he h1 h2, round_even_eq hn]

/-! ## Binary32 and binary64 -/

theorem fl32_eval {q : ℚ} (e n : Int) (r : ℚ) (he : -126 ≤ e) (h1 : 2 ^ e ≤ q)
    (h2 : q < 2 ^ (e + 1)) (hn1 : (n : ℚ) - 1 / 2 < q / 2 ^ (e - 23))
    (hn2 : q / 2 ^ (e - 23) < n + 1 / 2) (hr : (n : ℚ) * 2 ^ (e - 23) = r) : fl32 q = r := by
  have h0 : 0 < q := lt_of_lt_of_le (two_zpow_pos e) h1
  rw [← hr]
  refine fl_eval e n he ?_ ?_ ?_
  · rw [abs_of_pos h0]; exact h1
  · rw [abs_of_pos h0]; exact h2
  · rw [abs_lt]; constructor <;> linarith

theorem fl64_eval {q : ℚ} (e n : Int) (r : ℚ) (he : -1022 ≤ e) (h1 : 2 ^ e ≤ q)
    (h2 : q < 2 ^ (e + 1)) (hn1 : (n : ℚ) - 1 / 2 < q / 2 ^ (e - 52))
    (hn2 : q / 2 ^ (e - 52) < n + 1 / 2) (hr : (n : ℚ) * 2 ^ (e - 52) = r) : fl64 q = r := by
  have h0 : 0 < q := lt_of_lt_of_le (two_zpow_pos e) h1
  rw [← hr]
  refine fl_eval e n he ?_ ?_ ?_
  · rw [abs_of_pos h0]; exact h1
  · rw [abs_of_pos h0]; exact h2
  · rw [abs_lt]; constructor <;> linarith

theorem fl32_zero : fl32 0 = 0 := fl_zero 24 (-126)

theorem fl64_zero : fl64 0 = 0 := fl_zero 53 (-1022)

theorem fl32_neg (q : ℚ) : fl32 (-q) = - fl32 q := fl_neg 24 (-126) q

theorem fl32_mono {a b : ℚ} (h : a ≤ b) : fl32 a ≤ fl32 b := fl_mono (by norm_num) (-126) h

theorem fl32_nonneg {q : ℚ} (h : 0 ≤ q) : 0 ≤ fl32 q := fl_nonneg 24 (-126) h

theorem fl32_one : fl32 1 = 1 :=
  fl32_eval 0 8388608 1 (by norm_num) (by norm_num) (by norm_num) (by norm_num) (by norm_num)
    (by norm_num)

theorem fl64_one : fl64 1 = 1 :=
  fl64_eval 0 4503599627370496 1 (by norm_num) (by norm_num) (by norm_num) (by norm_num)
    (by norm_num) (by norm_num)

theorem fl32_six : fl32 6 = 6 :=
  fl32_eval 2 12582912 6 (by norm_num) (by norm_num) (by norm_num) (by norm_num) (by norm_num)
    (by norm_num)

theorem fl32_three : fl32 3 = 3 :=
  fl32_eval 1 12582912 3 (by norm_num) (by norm_num) (by norm_num) (by norm_num) (by norm_num)
    (by norm_num)

theorem fl32_180 : fl32 180 = 180 :=
  fl32_eval 7 11796480 180 (by norm_num) (by norm_num) (by norm_num) (by norm_num)
    (by norm_num) (by norm_num)

theorem fl32_half : fl32 (1 / 2) = 1 / 2 :=
  fl32_eval (-1) 8388608 _ (by norm_num) (by norm_num) (by norm_num) (by norm_num)
    (by norm_num) (by norm_num)

theorem fl32_tiny : fl32 (1 / 2 ^ 30) = 1 / 2 ^ 30 :=
  fl32_eval (-30) 8388608 _ (by norm_num) (by norm_num) (by norm_num) (by norm_num)
    (by norm_num) (by norm_num)

theorem fl64_tiny : fl64 (1 / 2 ^ 30) = 1 / 2 ^ 30 :=
  fl64_eval (-30) 4503599627370496 _ (by norm_num) (by norm_num) (by norm_num) (by norm_num)
    (by norm_num) (by norm_num)

theorem fl32_tiny_sixth : fl32 (1 / 2 ^ 30 / 6) = 11184811 / 2 ^ 56 :=
  fl32_eval (-33) 11184811 _ (by norm_num) (by norm_num) (by norm_num) (by norm_num)
    (by norm_num) (by norm_num)

theorem fl32_below_one : fl32 (-(11184811 / 2 ^ 56) + 1) = 1 :=
  fl32_eval (-1) 16777216 _ (by norm_num) (by norm_num) (by norm_num) (by norm_num)
    (by norm_num) (by norm_num)

theorem fl32_one_sub_tiny : fl32 (1 - 1 / 2 ^ 30) = 1 :=
  fl32_eval (-1) 16777216 _ (by norm_num) (by norm_num) (by norm_num) (by norm_num)
    (by norm_num) (by norm_num)

theorem fl32_one_add_tiny : fl32 (1 / 2 ^ 30 + 1) = 1 :=
  fl32_eval 0 8388608 _ (by norm_num) (by norm_num) (by norm_num) (by norm_num)
    (by norm_num) (by norm_num)


/-! ## The conversions in binary32 -/

theorem frgb_to_hsv_float_at : frgb_to_hsv_float 1 0 (1 / 2 ^ 30) = (1, 1, 1) := by
  have hmax : three_way_max 1 0 (1 / 2 ^ 30) = 1 := by norm_num [three_way_max]
  have hmin : three_way_min 1 0 (1 / 2 ^ 30) = 0 := by norm_num [three_way_min]
  have e1 : fl32 (0 - 1 / 2 ^ 30) = -(1 / 2 ^ 30) := by
    rw [zero_sub, fl32_neg, fl32_tiny]
  have e2 : fl32 (-(1 / 2 ^ 30) / 6) = -(11184811 / 2 ^ 56) := by
    rw [neg_div, fl32_neg, fl32_tiny_sixth]
  have hneg : -(1 / 2 ^ 30 : ℚ) < 0 := by norm_num
  unfold frgb_to_hsv_float
  simp only [hmax, hmin, sub_zero, fl32_one, div_one, e1, fl32_neg, fl32_tiny, e2,
    fl32_below_one, if_pos hneg, if_neg (one_ne_zero : (1 : ℚ) ≠ 0), if_true]

theorem fhsv_to_rgb_float_at : fhsv_to_rgb_float (1 / 2) (1 / 2 ^ 30) 1 = (1, 1, 1) := by
  have e1 : fl32 (360 * (1 / 2)) = 180 := by
    rw [show (360 : ℚ) * (1 / 2) = 180 by norm_num, fl32_180]
  have e2 : fl32 (180 / 60) = 3 := by
    rw [show (180 : ℚ) / 60 = 3 by norm_num, fl32_three]
  have e3 : fmod 3 2 = 1 := by
    have := fmod_two (h := 3) (n := 1) (by norm_num) (by norm_num) (by norm_num)
    rw [this]; norm_num
  unfold fhsv_to_rgb_float
  simp only [e1, e2, e3, one_mul, sub_self, fl64_zero, fabs, lt_irrefl, if_false, sub_zero,
    fl64_one, mul_one, fl32_tiny, fl64_tiny, fl32_one_sub_tiny, zero_add, fl32_one,
    fl32_one_add_tiny]
  norm_num
  refine ⟨fl32_one, ?_⟩
  have h := fl32_one_add_tiny
  norm_num at h
  exact h


theorem frgb_to_hsv_float_gray {v : ℚ} : frgb_to_hsv_float v v v = (0, 0, v) := by
  have hV : three_way_max v v v = v := by rw [three_way_max_eq]; simp
  have hm : three_way_min v v v = v := by rw [three_way_min_eq]; simp
  unfold frgb_to_hsv_float
  simp only [hV, hm, sub_self, fl32_zero, zero_div, if_true, lt_irrefl, if_false, ite_self]

theorem fhsv_to_rgb_float_gray (H : ℚ) {S V : ℚ} (hV : fl32 V = V) (hz : S = 0 ∨ V = 0) :
    fhsv_to_rgb_float H S V = (V, V, V) := by
  have hC : V * S = 0 := by rcases hz with h | h <;> rw [h] <;> ring
  unfold fhsv_to_rgb_float
  simp only [hC, fl32_zero, zero_mul, fl64_zero, sub_zero]
  split_ifs <;> simp only [zero_add, hV]

theorem reverse_float_gray (H : ℚ) {S V : ℚ} (hV : fl32 V = V) (hz : S = 0 ∨ V = 0) :
    frgb_to_hsv_float (fhsv_to_rgb_float H S V).1 (fhsv_to_rgb_float H S V).2.1
      (fhsv_to_rgb_float H S V).2.2 = (0, 0, V) := by
  rw [fhsv_to_rgb_float_gray H hV hz]
  exact frgb_to_hsv_float_gray

/-- The quotient of line 182, 184 or 186 lies in `[-1, 1]`. -/
theorem fl32_quot_range {a D : ℚ} (h1 : -D ≤ a) (h2 : a ≤ D) (hC : fl32 D ≠ 0) :
    -1 ≤ fl32 (fl32 a / fl32 D) ∧ fl32 (fl32 a / fl32 D) ≤ 1 := by
  have hD : 0 ≤ D := by linarith
  have hC0 : 0 < fl32 D := lt_of_le_of_ne (fl32_nonneg hD) (Ne.symm hC)
  have a1 : - fl32 D ≤ fl32 a := by
    rw [← fl32_neg]; exact fl32_mono h1
  have a2 : fl32 a ≤ fl32 D := fl32_mono h2
  have q1 : -1 ≤ fl32 a / fl32 D := by
    rw [le_div_iff₀ hC0]; linarith
  have q2 : fl32 a / fl32 D ≤ 1 := by
    rw [div_le_iff₀ hC0]; linarith
  constructor
  · have := fl32_mono q1
    rwa [fl32_neg, fl32_one] at this
  · have := fl32_mono q2
    rwa [fl32_one] at this

/-- Lines 189-193 in binary32: from `-1 ≤ h ≤ 6` to `0 ≤ H ≤ 1`. -/
theorem fl32_hue_range {h : ℚ} (h1 : -1 ≤ h) (h6 : h ≤ 6) :
    0 ≤ (if h < 0 then fl32 (fl32 (h / 6) + 1) else fl32 (h / 6)) ∧
      (if h < 0 then fl32 (fl32 (h / 6) + 1) else fl32 (h / 6)) ≤ 1 := by
  split_ifs with hn
  · have b1 : -1 ≤ fl32 (h / 6) := by
      have := fl32_mono (show (-1 : ℚ) ≤ h / 6 by linarith)
      rwa [fl32_neg, fl32_one] at this
    have b2 : fl32 (h / 6) ≤ 0 := by
      have := fl32_mono (show h / 6 ≤ 0 by linarith)
      rwa [fl32_zero] at this
    constructor
    · exact fl32_nonneg (by linarith)
    · have := fl32_mono (show fl32 (h / 6) + 1 ≤ 1 by linarith)
      rwa [fl32_one] at this
  · constructor
    · exact fl32_nonneg (by linarith)
    · have := fl32_mono (show h / 6 ≤ 1 by linarith)
      rwa [fl32_one] at this

theorem frgb_to_hsv_float_hue_range (R G B : ℚ) :
    0 ≤ (frgb_to_hsv_float R G B).1 ∧ (frgb_to_hsv_float R G B).1 ≤ 1 := by
  obtain ⟨v1, v2, v3, -, m1, m2, m3, -⟩ := three_way_facts R G B
  unfold frgb_to_hsv_float
  dsimp only
  apply fl32_hue_range
  · split_ifs with hC hR hG
    · norm_num
    · exact (fl32_quot_range (by linarith) (by linarith) hC).1
    · have := (fl32_quot_range (a := B - R) (by linarith) (by linarith) hC).1
      have h0 := fl32_nonneg (show (0 : ℚ) ≤ fl32 (fl32 (B - R) /
        fl32 (three_way_max R G B - three_way_min R G B)) + 2 by linarith)
      linarith
    · have := (fl32_quot_range (a := R - G) (by linarith) (by linarith) hC).1
      have h0 := fl32_nonneg (show (0 : ℚ) ≤ fl32 (fl32 (R - G) /
        fl32 (three_way_max R G B - three_way_min R G B)) + 4 by linarith)
      linarith
  · split_ifs with hC hR hG
    · norm_num
    · have := (fl32_quot_range (a := G - B) (by linarith) (by linarith) hC).2
      linarith
    · have := (fl32_quot_range (a := B - R) (by linarith) (by linarith) hC).2
      have h0 := fl32_mono (show fl32 (fl32 (B - R) /
        fl32 (three_way_max R G B - three_way_min R G B)) + 2 ≤ 6 by linarith)
      rwa [fl32_six] at h0
    · have := (fl32_quot_range (a := R - G) (by linarith) (by linarith) hC).2
      have h0 := fl32_mono (show fl32 (fl32 (R - G) /
        fl32 (three_way_max R G B - three_way_min R G B)) + 4 ≤ 6 by linarith)
      rwa [fl32_six] at h0

theorem frgb_to_hsv_float_unit_range {R G B : ℚ} (fR : fl32 R = R) (fG : fl32 G = G)
    (fB : fl32 B = B) (r0 : 0 ≤ R) (r1 : R ≤ 1) (g0 : 0 ≤ G)
    (g1 : G ≤ 1) (b0 : 0 ≤ B) (b1 : B ≤ 1) :
    0 ≤ (frgb_to_hsv_float R G B).2.1 ∧ (frgb_to_hsv_float R G B).2.1 ≤ 1 ∧
      0 ≤ (frgb_to_hsv_float R G B).2.2 ∧ (frgb_to_hsv_float R G B).2.2 ≤ 1 := by
  obtain ⟨v1, v2, v3, vc, m1, m2, m3, mc⟩ := three_way_facts R G B
  have hV0 : 0 ≤ three_way_max R G B := le_trans r0 v1
  have hV1 : three_way_max R G B ≤ 1 := by rcases vc with h | h | h <;> rw [h] <;> assumption
  have hVf : fl32 (three_way_max R G B) = three_way_max R G B := by
    rcases vc with h | h | h <;> rw [h] <;> assumption
  have hm0 : 0 ≤ three_way_min R G B := by rcases mc with h | h | h <;> rw [h] <;> assumption
  have hC0 : 0 ≤ fl32 (three_way_max R G B - three_way_min R G B) :=
    fl32_nonneg (by linarith)
  have hC1 : fl32 (three_way_max R G B - three_way_min R G B) ≤ three_way_max R G B := by
    have := fl32_mono (show three_way_max R G B - three_way_min R G B ≤ three_way_max R G B
      by linarith)
    rwa [hVf] at this
  unfold frgb_to_hsv_float
  dsimp only
  refine ⟨?_, ?_, hV0, hV1⟩
  · split_ifs with hz
    · exact le_refl 0
    · exact fl32_nonneg (div_nonneg hC0 hV0)
  · split_ifs with hz
    · norm_num
    · have hVp : 0 < three_way_max R G B := lt_of_le_of_ne hV0 (Ne.symm hz)
      have := fl32_mono (show fl32 (three_way_max R G B - three_way_min R G B) /
        three_way_max R G B ≤ 1 by rw [div_le_iff₀ hVp]; linarith)
      rwa [fl32_one] at this

/-! ## The claims -/

/-- Claim C1. RGB to HSV and back: on a well-formed 3-channel image whose samples all lie
in `[0, 1]`, `rgb_to_hsv` returns and `hsv_to_rgb` on its result returns the original image,
header and every sample (exact arithmetic); per pixel, the arithmetic of `fhsv_to_rgb`
applied to the `(H, S, V)` computed by the arithmetic of `frgb_to_hsv` from `(R, G, B)` in
`[0, 1]^3` gives `(R, G, B)` back. -/
theorem rgb_hsv_round_trip (im : image) (hw : WellFormed im) (hc : im.c = 3)
    (hr : ∀ v ∈ im.data, 0 ≤ v ∧ v ≤ 1) :
    (∃ hsv, rgb_to_hsv im = .ok hsv ∧ hsv_to_rgb hsv = .ok im) ∧
    (∀ R G B : ℚ, 0 ≤ R → R ≤ 1 → 0 ≤ G → G ≤ 1 → 0 ≤ B → B ≤ 1 →
      fhsv_to_rgb_calc (frgb_to_hsv_calc R G B).1 (frgb_to_hsv_calc R G B).2.1
        (frgb_to_hsv_calc R G B).2.2 = (R, G, B)) := by
  refine ⟨?_, fun R G B r0 _ g0 _ b0 _ => roundtrip_calc r0 g0 b0⟩
  obtain ⟨hsv, e1, i1, i2, i3, i4, s1⟩ := rgb_to_hsv_ok im hw hc
  have hw1 : WellFormed hsv := wellFormed_of_header hw i1 i2 i3 i4
  obtain ⟨rgb, e2, j1, j2, j3, j4, s2⟩ := hsv_to_rgb_ok hsv hw1 (i3.trans hc)
  refine ⟨hsv, e1, ?_⟩
  rw [e2]
  congr 1
  apply image_eq_of_samples hw (j1.trans i1) (j2.trans i2) (j3.trans i3) (j4.trans i4)
  intro x y c hb
  obtain ⟨hx0, hx1, hy0, hy1, hc0, hc1⟩ := hb
  have b0 : InBounds im x y 0 := ⟨hx0, hx1, hy0, hy1, le_refl 0, by omega⟩
  have b1 : InBounds im x y 1 := ⟨hx0, hx1, hy0, hy1, by omega, by omega⟩
  have b2 : InBounds im x y 2 := ⟨hx0, hx1, hy0, hy1, by omega, by omega⟩
  have t1 := s1 x y hx0 hx1 hy0 hy1
  have t2 := s2 x y hx0 (i1 ▸ hx1) hy0 (i2 ▸ hy1)
  rw [t1.1, t1.2.1, t1.2.2] at t2
  have rt := roundtrip_calc (hr _ (sample_mem hw b0)).1 (hr _ (sample_mem hw b1)).1
    (hr _ (sample_mem hw b2)).1
  rw [rt] at t2
  have hch : c = 0 ∨ c = 1 ∨ c = 2 := by omega
  rcases hch with rfl | rfl | rfl
  · exact t2.1
  · exact t2.2.1
  · exact t2.2.2

theorem rgb_hsv_round_trip_witness :
    (∃ hsv, rgb_to_hsv ⟨2, 1, 3, [1, 1/4, 0, 1/2, 0, 0]⟩ = .ok hsv ∧
      hsv_to_rgb hsv = .ok ⟨2, 1, 3, [1, 1/4, 0, 1/2, 0, 0]⟩) :=
  (rgb_hsv_round_trip ⟨2, 1, 3, [1, 1/4, 0, 1/2, 0, 0]⟩ (by decide) (by decide)
    (by norm_num)).1

/-- Claim C2. Write then read: on a well-formed image, `set_pixel` at an in-bounds
coordinate returns, and `get_pixel` at that coordinate on the resulting image returns the
value written. -/
theorem set_pixel_get_pixel (im : image) (x y ch : Int) (v : ℚ) (hw : WellFormed im)
    (hb : InBounds im x y ch) :
    ∃ im', set_pixel im x y ch v = .ok im' ∧ get_pixel im' x y ch = .ok v := by
  refine ⟨_, set_pixel_eq v hw hb, ?_⟩
  have hw' := wellFormed_set hw (lin im x y ch) v
  have hb' : InBounds { im with data := im.data.set (lin im x y ch) v } x y ch := hb
  rw [get_pixel_eq hw' hb']
  have : lin { im with data := im.data.set (lin im x y ch) v } x y ch = lin im x y ch := rfl
  rw [this]
  simp only [getD_set, lin_lt hw hb, and_self, if_true]

theorem set_pixel_get_pixel_witness :
    ∃ im', set_pixel ⟨2, 2, 1, [1, 2, 3, 4]⟩ 1 1 0 9 = .ok im' ∧ get_pixel im' 1 1 0 = .ok 9 :=
  set_pixel_get_pixel ⟨2, 2, 1, [1, 2, 3, 4]⟩ 1 1 0 9 (by decide) (by decide)

/-- Claim C3. Out-of-range writes are dropped: for every image, `set_pixel` at a coordinate
with an axis out of range returns the image it was given, the whole sample store as it
was; no location, the clamped one included, is written. -/
theorem set_pixel_out_of_range (im : image) (x y ch : Int) (v : ℚ)
    (h : x < 0 ∨ x ≥ im.w ∨ y < 0 ∨ y ≥ im.h ∨ ch < 0 ∨ ch ≥ im.c) :
    set_pixel im x y ch v = .ok im := by
  apply set_pixel_outside
  unfold InBounds
  omega

theorem set_pixel_out_of_range_witness :
    set_pixel ⟨2, 2, 1, [1, 2, 3, 4]⟩ 2 0 0 9 = .ok ⟨2, 2, 1, [1, 2, 3, 4]⟩ :=
  set_pixel_out_of_range ⟨2, 2, 1, [1, 2, 3, 4]⟩ 2 0 0 9 (by decide)

/-- Claim C4. Edge replication: on a well-formed image `get_pixel` at any integers
`x, y, ch` returns the sample stored for the clamped coordinate, a place inside the store;
so a read one step outside an edge equals the read on that edge, on each of the three
axes. -/
theorem get_pixel_edge_replication (im : image) (x y ch : Int) (hw : WellFormed im) :
    get_pixel im x y ch =
      .ok (im.data.getD (offset im (clampTo im.w x) (clampTo im.h y) (clampTo im.c ch)).toNat 0) ∧
    (offset im (clampTo im.w x) (clampTo im.h y) (clampTo im.c ch)).toNat < im.data.length ∧
    get_pixel im (-1) y ch = get_pixel im 0 y ch ∧
    get_pixel im im.w y ch = get_pixel im (im.w - 1) y ch ∧
    get_pixel im x (-1) ch = get_pixel im x 0 ch ∧
    get_pixel im x im.h ch = get_pixel im x (im.h - 1) ch ∧
    get_pixel im x y (-1) = get_pixel im x y 0 ∧
    get_pixel im x y im.c = get_pixel im x y (im.c - 1) := by
  obtain ⟨h1, h2, h3, -, -⟩ := id hw
  have e1 : clampTo im.w (-1) = clampTo im.w 0 := by unfold clampTo; split_ifs <;> omega
  have e2 : clampTo im.w im.w = clampTo im.w (im.w - 1) := by unfold clampTo; split_ifs <;> omega
  have e3 : clampTo im.h (-1) = clampTo im.h 0 := by unfold clampTo; split_ifs <;> omega
  have e4 : clampTo im.h im.h = clampTo im.h (im.h - 1) := by unfold clampTo; split_ifs <;> omega
  have e5 : clampTo im.c (-1) = clampTo im.c 0 := by unfold clampTo; split_ifs <;> omega
  have e6 : clampTo im.c im.c = clampTo im.c (im.c - 1) := by unfold clampTo; split_ifs <;> omega
  refine ⟨get_pixel_clamped hw x y ch, lin_lt hw (clampTo_inBounds h1 h2 h3 x y ch), ?_, ?_, ?_, ?_, ?_, ?_⟩ <;>
    simp only [get_pixel_clamped hw, e1, e2, e3, e4, e5, e6]

theorem get_pixel_edge_replication_witness :
    get_pixel ⟨2, 2, 1, [1, 2, 3, 4]⟩ 2 1 0 = get_pixel ⟨2, 2, 1, [1, 2, 3, 4]⟩ (2 - 1) 1 0 :=
  (get_pixel_edge_replication ⟨2, 2, 1, [1, 2, 3, 4]⟩ 0 1 0 (by decide)).2.2.2.1

/-- Claim C5. `clamp_padding` on an image with positive extents: each output axis is 0 for
a negative input, extent - 1 for an input at or above the extent, and the input itself
otherwise; the outputs lie within the extents; the flag is true exactly when all three
inputs were in range, and then the coordinate comes back unchanged. -/
theorem clamp_padding_spec (im : image) (x y ch : Int) (hw : 0 < im.w) (hh : 0 < im.h)
    (hc : 0 < im.c) :
    (clamp_padding im x y ch).2.1 = (if x < 0 then 0 else if x ≥ im.w then im.w - 1 else x) ∧
    (clamp_padding im x y ch).2.2.1 = (if y < 0 then 0 else if y ≥ im.h then im.h - 1 else y) ∧
    (clamp_padding im x y ch).2.2.2 =
      (if ch < 0 then 0 else if ch ≥ im.c then im.c - 1 else ch) ∧
    InBounds im (clamp_padding im x y ch).2.1 (clamp_padding im x y ch).2.2.1
      (clamp_padding im x y ch).2.2.2 ∧
    ((clamp_padding im x y ch).1 = true ↔ InBounds im x y ch) ∧
    (InBounds im x y ch → clamp_padding im x y ch = (true, x, y, ch)) := by
  have h := clamp_padding_eq_clampTo hw hh hc x y ch
  refine ⟨?_, ?_, ?_, ?_, clamp_padding_fst im x y ch, clamp_padding_of_inBounds⟩
  · rw [h]; rfl
  · rw [h]; rfl
  · rw [h]; rfl
  · rw [h]; exact clampTo_inBounds hw hh hc x y ch

theorem clamp_padding_spec_witness :
    (clamp_padding ⟨2, 2, 1, [1, 2, 3, 4]⟩ 5 (-1) 0).2.1 = 1 := by
  have h := (clamp_padding_spec ⟨2, 2, 1, [1, 2, 3, 4]⟩ 5 (-1) 0 (by decide) (by decide) (by decide)).1
  simpa using h

/-- Claim C6. Traversal coverage and order: for every callback that returns, `map_yx`
returns, and run with the logging version of the callback it leaves the same images and
the log `coords_yx w h`, the pairs with `y` outer and `x` inner; this list holds each pair
with `0 <= x < w`, `0 <= y < h` once and nothing else, has `w * h` entries, and its entry
number `k` is `(k mod w, k div w)`. Likewise `map_cyx` with `coords_cyx w h c`: channel
outermost, then `y`, then `x`, `w * h * c` entries, entry number `k` being
`(k mod w, (k div w) mod h, k div (w * h))`. -/
theorem map_traversal_order {α : Type} (im1 : image) (im2 : Option image) (a : α)
    (f : fmap_yx α) (g : fmap_cyx α) (hw : 0 ≤ im1.w) (hh : 0 ≤ im1.h) (hc : 0 ≤ im1.c)
    (hf : ∀ i1 i2 x y b, ∃ r, f i1 i2 x y b = .ok r)
    (hg : ∀ i1 i2 x y c b, ∃ r, g i1 i2 x y c b = .ok r) :
    (∃ r, map_yx im1 im2 f a = .ok r ∧
      map_yx im1 im2 (trace_yx f) (a, []) =
        .ok (r.1, r.2.1, (r.2.2, coords_yx im1.w im1.h))) ∧
    (∀ x y, (x, y) ∈ coords_yx im1.w im1.h ↔ 0 ≤ x ∧ x < im1.w ∧ 0 ≤ y ∧ y < im1.h) ∧
    (coords_yx im1.w im1.h).Nodup ∧
    ((coords_yx im1.w im1.h).length : Int) = im1.w * im1.h ∧
    (∀ k : Nat, (k : Int) < im1.w * im1.h →
      (coords_yx im1.w im1.h)[k]? = some ((k : Int) % im1.w, (k : Int) / im1.w)) ∧
    (∃ r, map_cyx im1 im2 g a = .ok r ∧
      map_cyx im1 im2 (trace_cyx g) (a, []) =
        .ok (r.1, r.2.1, (r.2.2, coords_cyx im1.w im1.h im1.c))) ∧
    (∀ x y ch, (x, y, ch) ∈ coords_cyx im1.w im1.h im1.c ↔
      0 ≤ ch ∧ ch < im1.c ∧ 0 ≤ y ∧ y < im1.h ∧ 0 ≤ x ∧ x < im1.w) ∧
    (coords_cyx im1.w im1.h im1.c).Nodup ∧
    ((coords_cyx im1.w im1.h im1.c).length : Int) = im1.w * im1.h * im1.c ∧
    (∀ k : Nat, (k : Int) < im1.w * im1.h * im1.c →
      (coords_cyx im1.w im1.h im1.c)[k]? =
        some ((k : Int) % im1.w, (k : Int) / im1.w % im1.h, (k : Int) / (im1.w * im1.h))) := by
  have cw : ((im1.w.toNat : Nat) : Int) = im1.w := Int.toNat_of_nonneg hw
  have ch : ((im1.h.toNat : Nat) : Int) = im1.h := Int.toNat_of_nonneg hh
  have cc : ((im1.c.toNat : Nat) : Int) = im1.c := Int.toNat_of_nonneg hc
  refine ⟨?_, mem_coords_yx _ _, nodup_coords_yx _ _, ?_, ?_, ?_, mem_coords_cyx _ _ _,
    nodup_coords_cyx _ _ _, ?_, ?_⟩
  · obtain ⟨r, e⟩ := map_yx_total im1 im2 f a hf
    exact ⟨r, e, by rw [map_yx_trace, e]; rfl⟩
  · rw [length_coords_yx]
    push_cast
    rw [cw, ch]
    ring
  · intro k hk
    have hk' : k < im1.h.toNat * im1.w.toNat := by
      have : ((im1.h.toNat * im1.w.toNat : Nat) : Int) = im1.w * im1.h := by
        push_cast; rw [cw, ch]; ring
      omega
    rw [coords_yx_getElem? _ _ k hk']
    push_cast
    rw [cw]
  · obtain ⟨r, e⟩ := map_cyx_total im1 im2 g a hg
    exact ⟨r, e, by rw [map_cyx_trace, e]; rfl⟩
  · rw [length_coords_cyx]
    push_cast
    rw [cw, ch, cc]
    ring
  · intro k hk
    have hk' : k < im1.c.toNat * (im1.h.toNat * im1.w.toNat) := by
      have : ((im1.c.toNat * (im1.h.toNat * im1.w.toNat) : Nat) : Int) =
          im1.w * im1.h * im1.c := by
        push_cast; rw [cw, ch, cc]; ring
      omega
    rw [coords_cyx_getElem? _ _ _ k hk']
    push_cast
    rw [cw, ch, mul_comm im1.h im1.w]

theorem map_traversal_order_witness :
    map_yx ⟨2, 2, 1, [1, 2, 3, 4]⟩ none
        (trace_yx fun i1 _ _ _ (b : Unit) => .ok (i1.data, none, b)) ((), []) =
      .ok (⟨2, 2, 1, [1, 2, 3, 4]⟩, none, ((), [(0, 0), (1, 0), (0, 1), (1, 1)])) := by
  obtain ⟨⟨r, e1, e2⟩, -⟩ := map_traversal_order ⟨2, 2, 1, [1, 2, 3, 4]⟩ none ()
    (fun i1 _ _ _ b => .ok (i1.data, none, b)) (fun i1 _ _ _ _ b => .ok (i1.data, none, b))
    (by decide) (by decide) (by decide) (fun _ _ _ _ _ => ⟨_, rfl⟩) (fun _ _ _ _ _ _ => ⟨_, rfl⟩)
  rw [e2]
  have : map_yx ⟨2, 2, 1, [1, 2, 3, 4]⟩ none
      (fun i1 _ _ _ (b : Unit) => Except.ok (i1.data, none, b)) () =
      .ok (⟨2, 2, 1, [1, 2, 3, 4]⟩, none, ()) := rfl
  rw [this] at e1
  cases e1
  rfl

/-- Claim C7. Channel-count precondition: `rgb_to_grayscale`, `rgb_to_hsv` and `hsv_to_rgb`
stop on the assertion exactly when the channel count is not 3, whatever the sample store
holds (the test precedes every pixel access: a store on which any access would fault still
gives the assertion, and no image is produced); on a well-formed image with 3 channels
each of them returns. -/
theorem channel_count_precondition (make_image : Int → Int → Int → image) (im : image) :
    (rgb_to_grayscale make_image im = .error .assertion ↔ im.c ≠ 3) ∧
    (rgb_to_hsv im = .error .assertion ↔ im.c ≠ 3) ∧
    (hsv_to_rgb im = .error .assertion ↔ im.c ≠ 3) ∧
    (WellFormed im → im.c = 3 →
      (∃ r, rgb_to_hsv im = .ok r) ∧ (∃ r, hsv_to_rgb im = .ok r) ∧
      (WellFormed (make_image im.w im.h 1) → (make_image im.w im.h 1).w = im.w →
        (make_image im.w im.h 1).h = im.h → (make_image im.w im.h 1).c = 1 →
        ∃ r, rgb_to_grayscale make_image im = .ok r)) := by
  refine ⟨⟨?_, ?_⟩, ⟨?_, ?_⟩, ⟨?_, ?_⟩, ?_⟩
  · intro h hc
    unfold rgb_to_grayscale at h
    rw [if_pos hc] at h
    refine bind_ne_assert (map_yx_ne_assert _ frgb_to_grayscale_ne_assert _ _ _) (fun s => ?_) h
    cases s.2.1 <;> simp [pure, Except.pure]
  · intro hc
    unfold rgb_to_grayscale
    rw [if_neg hc]
  · intro h hc
    unfold rgb_to_hsv at h
    rw [if_pos hc] at h
    exact bind_ne_assert (map_yx_ne_assert _ (fpixel3_ne_assert _) _ _ _)
      (fun s => by simp [pure, Except.pure]) h
  · intro hc
    unfold rgb_to_hsv
    rw [if_neg hc]
  · intro h hc
    unfold hsv_to_rgb at h
    rw [if_pos hc] at h
    exact bind_ne_assert (map_yx_ne_assert _ (fpixel3_ne_assert _) _ _ _)
      (fun s => by simp [pure, Except.pure]) h
  · intro hc
    unfold hsv_to_rgb
    rw [if_neg hc]
  · intro hw hc
    obtain ⟨r1, e1, -⟩ := rgb_to_hsv_ok im hw hc
    obtain ⟨r2, e2, -⟩ := hsv_to_rgb_ok im hw hc
    refine ⟨⟨r1, e1⟩, ⟨r2, e2⟩, ?_⟩
    intro hmk h1 h2 h3
    obtain ⟨g, e, -⟩ := rgb_to_grayscale_ok make_image im hw hc hmk h1 h2 h3
    exact ⟨_, e⟩


theorem channel_count_precondition_witness :
    rgb_to_hsv ⟨1, 1, 1, [1]⟩ = .error .assertion ∧
    hsv_to_rgb ⟨1, 1, 4, [1, 0, 0, 1]⟩ = .error .assertion ∧
    (∃ r, rgb_to_hsv ⟨1, 1, 3, [1, 0, 0]⟩ = .ok r) ∧
    (∃ r, rgb_to_grayscale (fun w h c => ⟨w, h, c, List.replicate (w * h * c).toNat 0⟩)
      ⟨1, 1, 3, [1, 0, 0]⟩ = .ok r) :=
  ⟨(channel_count_precondition (fun w h c => ⟨w, h, c, []⟩) ⟨1, 1, 1, [1]⟩).2.1.2 (by decide),
   (channel_count_precondition (fun w h c => ⟨w, h, c, []⟩) ⟨1, 1, 4, [1, 0, 0, 1]⟩).2.2.1.2
     (by decide),
   ((channel_count_precondition (fun w h c => ⟨w, h, c, []⟩) ⟨1, 1, 3, [1, 0, 0]⟩).2.2.2
     (by decide) rfl).1,
   ((channel_count_precondition (fun w h c => ⟨w, h, c, List.replicate (w * h * c).toNat 0⟩)
     ⟨1, 1, 3, [1, 0, 0]⟩).2.2.2 (by decide) rfl).2.2 (by decide) rfl rfl rfl⟩

/-- Claim C8. Grayscale conversion: on a well-formed `w x h x 3` image, with `make_image`
handing out a well-formed `w x h x 1` image, `rgb_to_grayscale` returns an image of width
`w`, height `h` and 1 channel whose sample at every in-bounds `(x, y)` is
`0.299 R + 0.587 G + 0.114 B` for the samples `R, G, B` of the argument at `(x, y)`; the
argument image is left as it was. -/
theorem rgb_to_grayscale_spec (make_image : Int → Int → Int → image) (im : image)
    (hw : WellFormed im) (hc : im.c = 3) (hmk : WellFormed (make_image im.w im.h 1))
    (h1 : (make_image im.w im.h 1).w = im.w) (h2 : (make_image im.w im.h 1).h = im.h)
    (h3 : (make_image im.w im.h 1).c = 1) :
    ∃ gray, rgb_to_grayscale make_image im = .ok (im, gray) ∧
      gray.w = im.w ∧ gray.h = im.h ∧ gray.c = 1 ∧
      ∀ x y, 0 ≤ x → x < im.w → 0 ≤ y → y < im.h →
        ∃ R G B, get_pixel im x y 0 = .ok R ∧ get_pixel im x y 1 = .ok G ∧
          get_pixel im x y 2 = .ok B ∧
          get_pixel gray x y 0 = .ok (299 / 1000 * R + 587 / 1000 * G + 114 / 1000 * B) :=
  rgb_to_grayscale_ok make_image im hw hc hmk h1 h2 h3

theorem rgb_to_grayscale_spec_witness :
    ∃ gray, rgb_to_grayscale (fun w h c => ⟨w, h, c, List.replicate (w * h * c).toNat 0⟩)
        ⟨2, 1, 3, [1, 1/4, 0, 1/2, 0, 0]⟩ = .ok (⟨2, 1, 3, [1, 1/4, 0, 1/2, 0, 0]⟩, gray) ∧
      gray.w = 2 ∧ gray.h = 1 ∧ gray.c = 1 := by
  obtain ⟨gray, e, a, b, c, -⟩ := rgb_to_grayscale_spec
    (fun w h c => ⟨w, h, c, List.replicate (w * h * c).toNat 0⟩)
    ⟨2, 1, 3, [1, 1/4, 0, 1/2, 0, 0]⟩ (by decide) rfl (by decide) rfl rfl rfl
  exact ⟨gray, e, a, b, c⟩

/-- Claim C9. Copy fidelity: let `im` point to a well-formed image `src` in memory `m`, and
let `make_image` hand out a struct of the same extents whose store has `w * h * c` samples
and lies at an address not in use in `m`, leaving the stores in use as they were. Then
`copy_image` returns a struct `copy` with the same `w`, `h`, `c` and another address than
`im`; the image behind `copy` is `src`, header and every sample; the image behind `im` and
every store of `m` are as before; and every later `set_pixel` on the copy returns, leaves
the image behind `im` as it was, and at an in-bounds coordinate is read back from the
copy. -/
theorem copy_image_fidelity
    (make_image : Memory → Int → Int → Int → Memory × image_ptr) (m : Memory)
    (im : image_ptr) (src : image) (hsrc : fetch m im = .ok src) (hw : WellFormed src)
    (hw1 : (make_image m im.w im.h im.c).2.w = im.w)
    (hw2 : (make_image m im.w im.h im.c).2.h = im.h)
    (hw3 : (make_image m im.w im.h im.c).2.c = im.c)
    (hfresh : m.length ≤ (make_image m im.w im.h im.c).2.data)
    (hold : ∀ i, i < m.length → (make_image m im.w im.h im.c).1[i]? = m[i]?)
    (hnew : ∃ d, (make_image m im.w im.h im.c).1[(make_image m im.w im.h im.c).2.data]? = some d ∧
      (d.length : Int) = im.w * im.h * im.c) :
    ∃ m1 copy, copy_image make_image m im = .ok (m1, copy) ∧
      copy.w = im.w ∧ copy.h = im.h ∧ copy.c = im.c ∧ copy.data ≠ im.data ∧
      fetch m1 copy = .ok src ∧
      (∀ x y ch, get_pixel_at m1 copy x y ch = get_pixel_at m im x y ch) ∧
      fetch m1 im = .ok src ∧
      (∀ i, i < m.length → m1[i]? = m[i]?) ∧
      (∀ x y ch v, ∃ m2, set_pixel_at m1 copy x y ch v = .ok m2 ∧
        fetch m2 im = .ok src ∧
        (∀ x' y' ch', get_pixel_at m2 im x' y' ch' = get_pixel_at m im x' y' ch') ∧
        (InBounds src x y ch → get_pixel_at m2 copy x y ch = .ok v)) := by
  obtain ⟨s1, s2, s3, s4⟩ := fetch_eq_ok hsrc
  obtain ⟨d, hd, hdl⟩ := hnew
  generalize hA : make_image m im.w im.h im.c = a at *
  obtain ⟨ma, copy⟩ := a
  simp only at hw1 hw2 hw3 hfresh hold hd
  have him : im.data < m.length := lt_length_of_getElem? s1
  have hne : copy.data ≠ im.data := by omega
  have hca : copy.data < ma.length := lt_length_of_getElem? hd
  have hia : im.data < ma.length := lt_length_of_getElem? ((hold _ him).trans s1)
  have hsrc_eq : src = { w := im.w, h := im.h, c := im.c, data := src.data } := by
    cases src; simp only at s2 s3 s4; subst s2 s3 s4; rfl
  have f1 : fetch ma im = .ok src := by
    rw [fetch_of ((hold _ him).trans s1)]; exact congrArg _ hsrc_eq.symm
  have f2 : fetch ma copy = .ok { w := copy.w, h := copy.h, c := copy.c, data := d } :=
    fetch_of hd
  have hwd : WellFormed { w := copy.w, h := copy.h, c := copy.c, data := d } := by
    obtain ⟨a1, a2, a3, a4, a5⟩ := hw
    unfold WellFormed
    simp only
    rw [hw1, hw2, hw3, hdl, ← s2, ← s3, ← s4]
    exact ⟨a1, a2, a3, rfl, a5⟩
  have hmap := @map_cyx_fcopy_image src ⟨copy.w, copy.h, copy.c, d⟩ hw hwd
    (by rw [s2]; exact hw1) (by rw [s3]; exact hw2) (by rw [s4]; exact hw3)
  have g1 : ((ma.set im.data src.data).set copy.data src.data)[copy.data]? = some src.data :=
    getElem?_set_self _ (by rw [List.length_set]; exact hca)
  have g2 : ((ma.set im.data src.data).set copy.data src.data)[im.data]? = some src.data := by
    rw [getElem?_set_other _ hne, getElem?_set_self _ hia]
  have c1 : fetch ((ma.set im.data src.data).set copy.data src.data) copy = .ok src := by
    rw [fetch_of g1, hw1, hw2, hw3]; exact congrArg _ hsrc_eq.symm
  have c2 : fetch ((ma.set im.data src.data).set copy.data src.data) im = .ok src := by
    rw [fetch_of g2]; exact congrArg _ hsrc_eq.symm
  refine ⟨(ma.set im.data src.data).set copy.data src.data, copy, ?_, hw1, hw2, hw3, hne, c1,
    ?_, c2, ?_, ?_⟩
  · unfold copy_image
    simp only [hA, f1, f2, hmap, bind, Except.bind, pure, Except.pure]
  · intro x y ch
    unfold get_pixel_at
    rw [c1, hsrc]
  · intro i hi
    have h1 : copy.data ≠ i := by omega
    rw [getElem?_set_other _ h1]
    by_cases h2 : im.data = i
    · subst h2
      rw [getElem?_set_self _ hia, s1]
    · rw [getElem?_set_other _ h2, hold i hi]
  · intro x y ch v
    obtain ⟨src', e, t1, t2, t3, t4⟩ := set_pixel_total hw x y ch v
    have k1 : (((ma.set im.data src.data).set copy.data src.data).set copy.data
        src'.data)[im.data]? = some src.data := by
      rw [getElem?_set_other _ hne, g2]
    have k2 : (((ma.set im.data src.data).set copy.data src.data).set copy.data
        src'.data)[copy.data]? = some src'.data :=
      getElem?_set_self _ (by rw [List.length_set, List.length_set]; exact hca)
    have k3 : fetch (((ma.set im.data src.data).set copy.data src.data).set copy.data
        src'.data) im = .ok src := by
      rw [fetch_of k1]; exact congrArg _ hsrc_eq.symm
    refine ⟨_, ?_, k3, ?_, ?_⟩
    · unfold set_pixel_at
      simp only [c1, e, bind, Except.bind, pure, Except.pure]
    · intro x' y' ch'
      unfold get_pixel_at
      rw [k3, hsrc]
    · intro hb
      unfold get_pixel_at
      rw [fetch_of k2]
      have : ({ w := copy.w, h := copy.h, c := copy.c, data := src'.data } : image) = src' := by
        cases src'; simp only at t1 t2 t3; subst t1 t2 t3
        rw [hw1, hw2, hw3, ← s2, ← s3, ← s4]
      simp only [bind, Except.bind]
      rw [this]
      exact t4 hb


theorem copy_image_fidelity_witness :
    ∃ m1 copy,
      copy_image (fun m w h c => (m ++ [List.replicate (w * h * c).toNat 0], ⟨w, h, c, m.length⟩))
        [[1, 2, 3, 4]] ⟨2, 1, 2, 0⟩ = .ok (m1, copy) ∧
      copy.data ≠ 0 ∧ fetch m1 copy = .ok ⟨2, 1, 2, [1, 2, 3, 4]⟩ ∧
      ∃ m2, set_pixel_at m1 copy 0 0 0 9 = .ok m2 ∧
        fetch m2 ⟨2, 1, 2, 0⟩ = .ok ⟨2, 1, 2, [1, 2, 3, 4]⟩ ∧
        get_pixel_at m2 copy 0 0 0 = .ok 9 := by
  obtain ⟨m1, copy, e, -, -, -, hne, hc, -, -, -, hset⟩ := copy_image_fidelity
    (fun m w h c => (m ++ [List.replicate (w * h * c).toNat 0], ⟨w, h, c, m.length⟩))
    [[1, 2, 3, 4]] ⟨2, 1, 2, 0⟩ ⟨2, 1, 2, [1, 2, 3, 4]⟩ rfl (by decide) rfl rfl rfl
    (by decide)
    (by
      intro i hi
      have : i = 0 := by simpa using hi
      subst this
      rfl)
    ⟨[0, 0, 0, 0], by simp, by decide⟩
  obtain ⟨m2, e2, f2, -, g2⟩ := hset 0 0 0 9
  exact ⟨m1, copy, e, hne, hc, m2, e2, f2, g2 (by decide)⟩

/-- Claim C10. Shift: on a well-formed image and a valid channel `k`, `shift_image`
returns; the sample at every in-bounds `(x, y, k)` is its old value plus `v`, and the
sample at every in-bounds `(x, y, ch)` with `ch` other than `k` is unchanged. -/
theorem shift_image_effect (im : image) (k : Int) (v : ℚ) (hw : WellFormed im)
    (hk0 : 0 ≤ k) (hk1 : k < im.c) :
    ∃ im', shift_image im k v = .ok im' ∧
      (∀ x y, InBounds im x y k →
        ∃ old, get_pixel im x y k = .ok old ∧ get_pixel im' x y k = .ok (old + v)) ∧
      (∀ x y ch, InBounds im x y ch → ch ≠ k → get_pixel im' x y ch = get_pixel im x y ch) := by
  obtain ⟨im', e, i1, i2, i3, i4, hs⟩ := map_yx_point (fun value v => value + v) im hw k hk0 hk1 v
  have hw' : WellFormed im' := wellFormed_of_header hw i1 i2 i3 i4
  have tr : ∀ {x y ch}, InBounds im x y ch → InBounds im' x y ch := by
    intro x y ch hb
    unfold InBounds
    rw [i1, i2, i3]
    exact hb
  refine ⟨im', ?_, ?_, ?_⟩
  · unfold shift_image
    rw [fshift_image_eq]
    simp only [e, bind, Except.bind, pure, Except.pure]
  · intro x y hb
    refine ⟨sample im x y k, get_pixel_eq hw hb, ?_⟩
    rw [get_pixel_eq hw' (tr hb)]
    have := hs x y k hb
    rw [if_pos rfl] at this
    unfold sample at this
    rw [this]
    rfl
  · intro x y ch hb hne
    rw [get_pixel_eq hw' (tr hb), get_pixel_eq hw hb]
    have := hs x y ch hb
    rw [if_neg hne] at this
    unfold sample at this
    rw [this]

theorem shift_image_effect_witness :
    ∃ im', shift_image ⟨2, 2, 2, [1, 2, 3, 4, 5, 6, 7, 8]⟩ 1 10 = .ok im' ∧
      (∀ x y, InBounds ⟨2, 2, 2, [1, 2, 3, 4, 5, 6, 7, 8]⟩ x y 1 →
        ∃ old, get_pixel ⟨2, 2, 2, [1, 2, 3, 4, 5, 6, 7, 8]⟩ x y 1 = .ok old ∧
          get_pixel im' x y 1 = .ok (old + 10)) ∧
      (∀ x y ch, InBounds ⟨2, 2, 2, [1, 2, 3, 4, 5, 6, 7, 8]⟩ x y ch → ch ≠ 1 →
        get_pixel im' x y ch = get_pixel ⟨2, 2, 2, [1, 2, 3, 4, 5, 6, 7, 8]⟩ x y ch) :=
  shift_image_effect ⟨2, 2, 2, [1, 2, 3, 4, 5, 6, 7, 8]⟩ 1 10 (by decide) (by decide) (by decide)

/-- Claim C11. Scale: on a well-formed image and a valid channel `k`, `scale_image`
returns; the sample at every in-bounds `(x, y, k)` is its old value times `v`, and the
sample at every in-bounds `(x, y, ch)` with `ch` other than `k` is unchanged. -/
theorem scale_image_effect (im : image) (k : Int) (v : ℚ) (hw : WellFormed im)
    (hk0 : 0 ≤ k) (hk1 : k < im.c) :
    ∃ im', scale_image im k v = .ok im' ∧
      (∀ x y, InBounds im x y k →
        ∃ old, get_pixel im x y k = .ok old ∧ get_pixel im' x y k = .ok (old * v)) ∧
      (∀ x y ch, InBounds im x y ch → ch ≠ k → get_pixel im' x y ch = get_pixel im x y ch) := by
  obtain ⟨im', e, i1, i2, i3, i4, hs⟩ := map_yx_point (fun value v => value * v) im hw k hk0 hk1 v
  have hw' : WellFormed im' := wellFormed_of_header hw i1 i2 i3 i4
  have tr : ∀ {x y ch}, InBounds im x y ch → InBounds im' x y ch := by
    intro x y ch hb
    unfold InBounds
    rw [i1, i2, i3]
    exact hb
  refine ⟨im', ?_, ?_, ?_⟩
  · unfold scale_image
    rw [fscale_image_eq]
    simp only [e, bind, Except.bind, pure, Except.pure]
  · intro x y hb
    refine ⟨sample im x y k, get_pixel_eq hw hb, ?_⟩
    rw [get_pixel_eq hw' (tr hb)]
    have := hs x y k hb
    rw [if_pos rfl] at this
    unfold sample at this
    rw [this]
    rfl
  · intro x y ch hb hne
    rw [get_pixel_eq hw' (tr hb), get_pixel_eq hw hb]
    have := hs x y ch hb
    rw [if_neg hne] at this
    unfold sample at this
    rw [this]

theorem scale_image_effect_witness :
    ∃ im', scale_image ⟨2, 2, 2, [1, 2, 3, 4, 5, 6, 7, 8]⟩ 1 10 = .ok im' ∧
      (∀ x y, InBounds ⟨2, 2, 2, [1, 2, 3, 4, 5, 6, 7, 8]⟩ x y 1 →
        ∃ old, get_pixel ⟨2, 2, 2, [1, 2, 3, 4, 5, 6, 7, 8]⟩ x y 1 = .ok old ∧
          get_pixel im' x y 1 = .ok (old * 10)) ∧
      (∀ x y ch, InBounds ⟨2, 2, 2, [1, 2, 3, 4, 5, 6, 7, 8]⟩ x y ch → ch ≠ 1 →
        get_pixel im' x y ch = get_pixel ⟨2, 2, 2, [1, 2, 3, 4, 5, 6, 7, 8]⟩ x y ch) :=
  scale_image_effect ⟨2, 2, 2, [1, 2, 3, 4, 5, 6, 7, 8]⟩ 1 10 (by decide) (by decide) (by decide)

/-- Claim C12. Clamp range: on a well-formed image `clamp_image` returns; afterwards every
sample of the store lies in `[0, 1]`; a sample that was in `[0, 1]` is unchanged, one above
1 is 1 and one below 0 is 0, at every place of the store and so at every in-bounds
coordinate (exact arithmetic). -/
theorem clamp_image_range (im : image) (hw : WellFormed im) :
    ∃ im', clamp_image im = .ok im' ∧
      (∀ v ∈ im'.data, 0 ≤ v ∧ v ≤ 1) ∧
      im'.data.length = im.data.length ∧
      (∀ i, i < im.data.length →
        (0 ≤ im.data.getD i 0 → im.data.getD i 0 ≤ 1 → im'.data.getD i 0 = im.data.getD i 0) ∧
        (im.data.getD i 0 > 1 → im'.data.getD i 0 = 1) ∧
        (im.data.getD i 0 < 0 → im'.data.getD i 0 = 0)) ∧
      (∀ x y ch, InBounds im x y ch → ∃ old new, get_pixel im x y ch = .ok old ∧
        get_pixel im' x y ch = .ok new ∧ 0 ≤ new ∧ new ≤ 1 ∧
        (0 ≤ old → old ≤ 1 → new = old) ∧ (old > 1 → new = 1) ∧ (old < 0 → new = 0)) := by
  obtain ⟨im', e, i1, i2, i3, i4, hs⟩ := clamp_image_ok im hw
  have hw' : WellFormed im' := wellFormed_of_header hw i1 i2 i3 i4
  refine ⟨im', e, ?_, i4, ?_, ?_⟩
  · intro v hv
    obtain ⟨i, hi, rfl⟩ := List.getElem_of_mem hv
    have := hs i (i4 ▸ hi)
    rw [List.getD_eq_getElem?_getD, List.getElem?_eq_getElem hi, Option.getD_some] at this
    rw [this]
    exact ⟨(fclamp_image_calc_spec _).1, (fclamp_image_calc_spec _).2.1⟩
  · intro i hi
    rw [hs i hi]
    exact (fclamp_image_calc_spec _).2.2
  · intro x y ch hb
    have hb' : InBounds im' x y ch := by unfold InBounds; rw [i1, i2, i3]; exact hb
    refine ⟨_, _, get_pixel_eq hw hb, get_pixel_eq hw' hb', ?_⟩
    rw [lin_congr i1 i2, hs _ (lin_lt hw hb)]
    exact fclamp_image_calc_spec _

theorem clamp_image_range_witness :
    ∃ im', clamp_image ⟨2, 1, 2, [2, -1, 1/2, 0]⟩ = .ok im' ∧
      (∀ v ∈ im'.data, 0 ≤ v ∧ v ≤ 1) := by
  obtain ⟨im', e, h, -⟩ := clamp_image_range ⟨2, 1, 2, [2, -1, 1/2, 0]⟩ (by decide)
  exact ⟨im', e, h⟩

/-- Claim C13. Known and degenerate conversions: the arithmetic of `frgb_to_hsv`, and
`frgb_to_hsv` itself on a one-pixel image, map pure red `(1,0,0)` to `(0,1,1)`, white
`(1,1,1)` to `(0,0,1)`, mid-gray to `(0,0,1/2)` and every achromatic pixel `(v,v,v)`,
`(0,0,0)` included, to `(0,0,v)`; and for every pixel the evaluation with checked divisions
runs through with the same result, so no division by zero is evaluated. -/
theorem frgb_to_hsv_known_values :
    frgb_to_hsv_calc 1 0 0 = (0, 1, 1) ∧ frgb_to_hsv_calc 1 1 1 = (0, 0, 1) ∧
    frgb_to_hsv_calc (1 / 2) (1 / 2) (1 / 2) = (0, 0, 1 / 2) ∧
    frgb_to_hsv ⟨1, 1, 3, [1, 0, 0]⟩ none 0 0 () = .ok ([0, 1, 1], none, ()) ∧
    frgb_to_hsv ⟨1, 1, 3, [1, 1, 1]⟩ none 0 0 () = .ok ([0, 0, 1], none, ()) ∧
    frgb_to_hsv ⟨1, 1, 3, [1 / 2, 1 / 2, 1 / 2]⟩ none 0 0 () = .ok ([0, 0, 1 / 2], none, ()) ∧
    (∀ v : ℚ, frgb_to_hsv_calc v v v = (0, 0, v)) ∧
    (∀ v : ℚ, frgb_to_hsv ⟨1, 1, 3, [v, v, v]⟩ none 0 0 () = .ok ([0, 0, v], none, ())) ∧
    (∀ R G B : ℚ, frgb_to_hsv_checked R G B = some (frgb_to_hsv_calc R G B)) := by
  have red : frgb_to_hsv_calc 1 0 0 = (0, 1, 1) := by
    norm_num [frgb_to_hsv_calc, three_way_max, three_way_min]
  have gray : ∀ v : ℚ, frgb_to_hsv ⟨1, 1, 3, [v, v, v]⟩ none 0 0 () =
      .ok ([0, 0, v], none, ()) := by
    intro v
    rw [frgb_to_hsv_eq, fpixel3_single, frgb_to_hsv_calc_gray]
  refine ⟨red, frgb_to_hsv_calc_gray 1, frgb_to_hsv_calc_gray (1 / 2), ?_, gray 1,
    gray (1 / 2), frgb_to_hsv_calc_gray, gray, frgb_to_hsv_checked_eq⟩
  rw [frgb_to_hsv_eq, fpixel3_single, red]

/-- Claim C14. Shape preservation: on a well-formed image `shift_image` and `scale_image`
(for every channel argument and value) and `clamp_image` return an image with the same
`w`, `h`, `c` and a store of `w * h * c` samples; so do `rgb_to_hsv` and `hsv_to_rgb`
whenever they return, which they do when `c = 3`. -/
theorem inplace_shape (im : image) (hw : WellFormed im) :
    (∀ k v, ∃ im', shift_image im k v = .ok im' ∧ im'.w = im.w ∧ im'.h = im.h ∧
      im'.c = im.c ∧ (im'.data.length : Int) = im.w * im.h * im.c) ∧
    (∀ k v, ∃ im', scale_image im k v = .ok im' ∧ im'.w = im.w ∧ im'.h = im.h ∧
      im'.c = im.c ∧ (im'.data.length : Int) = im.w * im.h * im.c) ∧
    (∃ im', clamp_image im = .ok im' ∧ im'.w = im.w ∧ im'.h = im.h ∧
      im'.c = im.c ∧ (im'.data.length : Int) = im.w * im.h * im.c) ∧
    (∀ im', rgb_to_hsv im = .ok im' → im'.w = im.w ∧ im'.h = im.h ∧
      im'.c = im.c ∧ (im'.data.length : Int) = im.w * im.h * im.c) ∧
    (∀ im', hsv_to_rgb im = .ok im' → im'.w = im.w ∧ im'.h = im.h ∧
      im'.c = im.c ∧ (im'.data.length : Int) = im.w * im.h * im.c) ∧
    (im.c = 3 → (∃ im', rgb_to_hsv im = .ok im') ∧ ∃ im', hsv_to_rgb im = .ok im') := by
  have hl := hw.2.2.2.1
  refine ⟨?_, ?_, ?_, ?_, ?_, ?_⟩
  · intro k v
    obtain ⟨im', e, h1, h2, h3, h4⟩ := map_yx_point_total (fun value v => value + v) im hw k v
    exact ⟨im', shift_image_eq_map im k v e, h1, h2, h3, by rw [h4]; exact hl⟩
  · intro k v
    obtain ⟨im', e, h1, h2, h3, h4⟩ := map_yx_point_total (fun value v => value * v) im hw k v
    exact ⟨im', scale_image_eq_map im k v e, h1, h2, h3, by rw [h4]; exact hl⟩
  · obtain ⟨im', e, h1, h2, h3, h4, -⟩ := clamp_image_ok im hw
    exact ⟨im', e, h1, h2, h3, by rw [h4]; exact hl⟩
  · intro im' h
    have hc : im.c = 3 := by
      by_contra hc
      unfold rgb_to_hsv at h
      rw [if_neg hc] at h
      cases h
    obtain ⟨r, e, h1, h2, h3, h4, -⟩ := rgb_to_hsv_ok im hw hc
    rw [e] at h
    cases h
    exact ⟨h1, h2, h3, by rw [h4]; exact hl⟩
  · intro im' h
    have hc : im.c = 3 := by
      by_contra hc
      unfold hsv_to_rgb at h
      rw [if_neg hc] at h
      cases h
    obtain ⟨r, e, h1, h2, h3, h4, -⟩ := hsv_to_rgb_ok im hw hc
    rw [e] at h
    cases h
    exact ⟨h1, h2, h3, by rw [h4]; exact hl⟩
  · intro hc
    obtain ⟨r1, e1, -⟩ := rgb_to_hsv_ok im hw hc
    obtain ⟨r2, e2, -⟩ := hsv_to_rgb_ok im hw hc
    exact ⟨⟨r1, e1⟩, ⟨r2, e2⟩⟩

theorem inplace_shape_witness :
    ∃ im', shift_image ⟨2, 1, 2, [1, 2, 3, 4]⟩ 0 5 = .ok im' ∧ im'.w = 2 ∧ im'.h = 1 ∧
      im'.c = 2 ∧ (im'.data.length : Int) = 2 * 1 * 2 :=
  (inplace_shape ⟨2, 1, 2, [1, 2, 3, 4]⟩ (by decide)).1 0 5

/-- Claim C15. `rgb_to_hsv` carries out the specified algorithm pixel by pixel and in
place: on a well-formed 3-channel image it returns, and at every in-bounds `(x, y)` the
samples of channels 0, 1, 2 afterwards are the `(H, S, V)` that `spec_rgb_to_hsv` computes
from the samples `(R, G, B)` of that same pixel before the call; the arithmetic of
`frgb_to_hsv` equals `spec_rgb_to_hsv` on every input. -/
theorem rgb_to_hsv_algorithm (im : image) (hw : WellFormed im) (hc : im.c = 3) :
    (∃ im', rgb_to_hsv im = .ok im' ∧
      ∀ x y, 0 ≤ x → x < im.w → 0 ≤ y → y < im.h →
        ∃ R G B, get_pixel im x y 0 = .ok R ∧ get_pixel im x y 1 = .ok G ∧
          get_pixel im x y 2 = .ok B ∧
          get_pixel im' x y 0 = .ok (spec_rgb_to_hsv R G B).1 ∧
          get_pixel im' x y 1 = .ok (spec_rgb_to_hsv R G B).2.1 ∧
          get_pixel im' x y 2 = .ok (spec_rgb_to_hsv R G B).2.2) ∧
    (∀ R G B : ℚ, frgb_to_hsv_calc R G B = spec_rgb_to_hsv R G B) := by
  refine ⟨?_, frgb_to_hsv_calc_eq_spec⟩
  obtain ⟨im', e, i1, i2, i3, i4, hs⟩ := rgb_to_hsv_ok im hw hc
  have hw' : WellFormed im' := wellFormed_of_header hw i1 i2 i3 i4
  refine ⟨im', e, ?_⟩
  intro x y hx0 hx1 hy0 hy1
  have b0 : InBounds im x y 0 := ⟨hx0, hx1, hy0, hy1, le_refl 0, by omega⟩
  have b1 : InBounds im x y 1 := ⟨hx0, hx1, hy0, hy1, by omega, by omega⟩
  have b2 : InBounds im x y 2 := ⟨hx0, hx1, hy0, hy1, by omega, by omega⟩
  have tr : ∀ {ch}, InBounds im x y ch → InBounds im' x y ch := by
    intro ch hb; unfold InBounds; rw [i1, i2, i3]; exact hb
  have t := hs x y hx0 hx1 hy0 hy1
  simp only [frgb_to_hsv_calc_eq_spec] at t
  refine ⟨sample im x y 0, sample im x y 1, sample im x y 2, get_pixel_eq hw b0,
    get_pixel_eq hw b1, get_pixel_eq hw b2, ?_, ?_, ?_⟩
  · rw [get_pixel_eq hw' (tr b0), ← t.1]; rfl
  · rw [get_pixel_eq hw' (tr b1), ← t.2.1]; rfl
  · rw [get_pixel_eq hw' (tr b2), ← t.2.2]; rfl

theorem rgb_to_hsv_algorithm_witness :
    ∃ im', rgb_to_hsv ⟨1, 1, 3, [1 / 4, 1 / 2, 0]⟩ = .ok im' ∧
      get_pixel im' 0 0 0 = .ok (spec_rgb_to_hsv (1 / 4) (1 / 2) 0).1 := by
  obtain ⟨im', e, h⟩ := (rgb_to_hsv_algorithm ⟨1, 1, 3, [1 / 4, 1 / 2, 0]⟩ (by decide) rfl).1
  obtain ⟨R, G, B, r, g, b, h0, -⟩ := h 0 0 (by decide) (by decide) (by decide) (by decide)
  have hr : R = 1 / 4 := by
    have : get_pixel ⟨1, 1, 3, [1 / 4, 1 / 2, 0]⟩ 0 0 0 = .ok (1 / 4) := rfl
    rw [this] at r; cases r; rfl
  have hg : G = 1 / 2 := by
    have : get_pixel ⟨1, 1, 3, [1 / 4, 1 / 2, 0]⟩ 0 0 1 = .ok (1 / 2) := rfl
    rw [this] at g; cases g; rfl
  have hb : B = 0 := by
    have : get_pixel ⟨1, 1, 3, [1 / 4, 1 / 2, 0]⟩ 0 0 2 = .ok 0 := rfl
    rw [this] at b; cases b; rfl
  subst hr hg hb
  exact ⟨im', e, h0⟩

/-- Claim C16. `hsv_to_rgb` carries out the specified sector table: for a hue sample `H`
in `[0, 1)` the arithmetic of `fhsv_to_rgb` equals `spec_hsv_to_rgb`; `fhsv_to_rgb` writes
the result of that arithmetic; and on a well-formed 3-channel image `hsv_to_rgb` returns
with, at every in-bounds pixel whose hue sample is in `[0, 1)`, the samples that
`spec_hsv_to_rgb` computes from that pixel. -/
theorem hsv_to_rgb_sector_table (im : image) (hw : WellFormed im) (hc : im.c = 3) :
    (∀ H S V : ℚ, 0 ≤ H → H < 1 → fhsv_to_rgb_calc H S V = spec_hsv_to_rgb H S V) ∧
    (∀ H S V : ℚ, fhsv_to_rgb ⟨1, 1, 3, [H, S, V]⟩ none 0 0 () =
      .ok ([(fhsv_to_rgb_calc H S V).1, (fhsv_to_rgb_calc H S V).2.1,
        (fhsv_to_rgb_calc H S V).2.2], none, ())) ∧
    (∃ im', hsv_to_rgb im = .ok im' ∧
      ∀ x y, 0 ≤ x → x < im.w → 0 ≤ y → y < im.h →
        ∃ H S V, get_pixel im x y 0 = .ok H ∧ get_pixel im x y 1 = .ok S ∧
          get_pixel im x y 2 = .ok V ∧
          (0 ≤ H → H < 1 →
            get_pixel im' x y 0 = .ok (spec_hsv_to_rgb H S V).1 ∧
            get_pixel im' x y 1 = .ok (spec_hsv_to_rgb H S V).2.1 ∧
            get_pixel im' x y 2 = .ok (spec_hsv_to_rgb H S V).2.2)) := by
  refine ⟨fun H S V h0 _ => fhsv_to_rgb_calc_eq_spec S V h0,
    fun H S V => fpixel3_single fhsv_to_rgb_calc H S V, ?_⟩
  obtain ⟨im', e, i1, i2, i3, i4, hs⟩ := hsv_to_rgb_ok im hw hc
  have hw' : WellFormed im' := wellFormed_of_header hw i1 i2 i3 i4
  refine ⟨im', e, ?_⟩
  intro x y hx0 hx1 hy0 hy1
  have b0 : InBounds im x y 0 := ⟨hx0, hx1, hy0, hy1, le_refl 0, by omega⟩
  have b1 : InBounds im x y 1 := ⟨hx0, hx1, hy0, hy1, by omega, by omega⟩
  have b2 : InBounds im x y 2 := ⟨hx0, hx1, hy0, hy1, by omega, by omega⟩
  have tr : ∀ {ch}, InBounds im x y ch → InBounds im' x y ch := by
    intro ch hb; unfold InBounds; rw [i1, i2, i3]; exact hb
  have t := hs x y hx0 hx1 hy0 hy1
  refine ⟨sample im x y 0, sample im x y 1, sample im x y 2, get_pixel_eq hw b0,
    get_pixel_eq hw b1, get_pixel_eq hw b2, ?_⟩
  intro h0 _
  rw [fhsv_to_rgb_calc_eq_spec _ _ h0] at t
  refine ⟨?_, ?_, ?_⟩
  · rw [get_pixel_eq hw' (tr b0), ← t.1]; rfl
  · rw [get_pixel_eq hw' (tr b1), ← t.2.1]; rfl
  · rw [get_pixel_eq hw' (tr b2), ← t.2.2]; rfl

theorem hsv_to_rgb_sector_table_witness :
    fhsv_to_rgb_calc (1 / 3) 1 1 = spec_hsv_to_rgb (1 / 3) 1 1 :=
  (hsv_to_rgb_sector_table ⟨1, 1, 3, [1 / 3, 1, 1]⟩ (by decide) rfl).1 (1 / 3) 1 1
    (by norm_num) (by norm_num)

/-- Counterexample to claim C17 as worded. The pixel `(1, 0, 2^-30)` has binary32 samples in
`[0, 1]`. In binary32 arithmetic `h = -2^-30`, and `h / 6 + 1` of line 190 rounds to 1, so
`frgb_to_hsv` writes `(H, S, V) = (1, 1, 1)`: the hue is not below 1. -/
theorem hue_normalisation_counterexample :
    fl32 1 = 1 ∧ fl32 0 = 0 ∧ fl32 (1 / 2 ^ 30) = 1 / 2 ^ 30 ∧
    (0 : ℚ) ≤ 1 / 2 ^ 30 ∧ (1 / 2 ^ 30 : ℚ) ≤ 1 ∧
    frgb_to_hsv_float 1 0 (1 / 2 ^ 30) = (1, 1, 1) ∧
    fpixel3 frgb_to_hsv_float ⟨1, 1, 3, [1, 0, 1 / 2 ^ 30]⟩ none 0 0 () =
      .ok ([1, 1, 1], none, ()) ∧
    ¬ (frgb_to_hsv_float 1 0 (1 / 2 ^ 30)).1 < 1 := by
  refine ⟨fl32_one, fl32_zero, fl32_tiny, by norm_num, by norm_num, frgb_to_hsv_float_at,
    ?_, ?_⟩
  · rw [fpixel3_single, frgb_to_hsv_float_at]
  · rw [frgb_to_hsv_float_at]
    norm_num

/-- Claim C17, amended. Hue normalisation. In the binary32 arithmetic of the code, for
binary32 samples `R, G, B` of magnitude at most `2^126` (no operation overflows; not
necessarily in `[0, 1]`), the hue written by `frgb_to_hsv` satisfies `0 <= H <= 1`, and
`H = 1` is reached, at `(1, 0, 2^-30)`; when `R, G, B` lie in `[0, 1]`, also `0 <= S <= 1`
and `0 <= V <= 1`. In exact arithmetic `0 <= H < 1` for arbitrary samples, and `S` and `V`
lie in `[0, 1]` when `R, G, B` do. Both are stated for the arithmetic and for the callback
on a one-pixel image. -/
theorem hue_normalisation (R G B : ℚ) :
    (fl32 R = R → fl32 G = G → fl32 B = B →
      |R| ≤ 2 ^ 126 → |G| ≤ 2 ^ 126 → |B| ≤ 2 ^ 126 →
      0 ≤ (frgb_to_hsv_float R G B).1 ∧ (frgb_to_hsv_float R G B).1 ≤ 1 ∧
      (0 ≤ R → R ≤ 1 → 0 ≤ G → G ≤ 1 → 0 ≤ B → B ≤ 1 →
        0 ≤ (frgb_to_hsv_float R G B).2.1 ∧ (frgb_to_hsv_float R G B).2.1 ≤ 1 ∧
        0 ≤ (frgb_to_hsv_float R G B).2.2 ∧ (frgb_to_hsv_float R G B).2.2 ≤ 1)) ∧
    (frgb_to_hsv_float 1 0 (1 / 2 ^ 30)).1 = 1 ∧
    fpixel3 frgb_to_hsv_float ⟨1, 1, 3, [R, G, B]⟩ none 0 0 () =
      .ok ([(frgb_to_hsv_float R G B).1, (frgb_to_hsv_float R G B).2.1,
        (frgb_to_hsv_float R G B).2.2], none, ()) ∧
    0 ≤ (frgb_to_hsv_calc R G B).1 ∧ (frgb_to_hsv_calc R G B).1 < 1 ∧
    (0 ≤ R → R ≤ 1 → 0 ≤ G → G ≤ 1 → 0 ≤ B → B ≤ 1 →
      0 ≤ (frgb_to_hsv_calc R G B).2.1 ∧ (frgb_to_hsv_calc R G B).2.1 ≤ 1 ∧
      0 ≤ (frgb_to_hsv_calc R G B).2.2 ∧ (frgb_to_hsv_calc R G B).2.2 ≤ 1) ∧
    frgb_to_hsv ⟨1, 1, 3, [R, G, B]⟩ none 0 0 () =
      .ok ([(frgb_to_hsv_calc R G B).1, (frgb_to_hsv_calc R G B).2.1,
        (frgb_to_hsv_calc R G B).2.2], none, ()) := by
  refine ⟨?_, ?_, fpixel3_single frgb_to_hsv_float R G B,
    (frgb_to_hsv_calc_hue_range R G B).1, (frgb_to_hsv_calc_hue_range R G B).2,
    frgb_to_hsv_calc_unit_range, fpixel3_single frgb_to_hsv_calc R G B⟩
  · intro fR fG fB _ _ _
    exact ⟨(frgb_to_hsv_float_hue_range R G B).1, (frgb_to_hsv_float_hue_range R G B).2,
      frgb_to_hsv_float_unit_range fR fG fB⟩
  · rw [frgb_to_hsv_float_at]

theorem hue_normalisation_witness :
    (0 ≤ (frgb_to_hsv_float 1 0 (1 / 2 ^ 30)).1 ∧ (frgb_to_hsv_float 1 0 (1 / 2 ^ 30)).1 ≤ 1) ∧
    (0 ≤ (frgb_to_hsv_float 1 0 (1 / 2 ^ 30)).2.1 ∧
      (frgb_to_hsv_float 1 0 (1 / 2 ^ 30)).2.1 ≤ 1) ∧
    (0 ≤ (frgb_to_hsv_calc 7 (-3) 2).1 ∧ (frgb_to_hsv_calc 7 (-3) 2).1 < 1) ∧
    (0 ≤ (frgb_to_hsv_calc 1 (1 / 4) 0).2.1 ∧ (frgb_to_hsv_calc 1 (1 / 4) 0).2.1 ≤ 1) := by
  have a := (hue_normalisation 1 0 (1 / 2 ^ 30)).1 fl32_one fl32_zero fl32_tiny
    (abs_le.mpr ⟨by norm_num, by norm_num⟩) (abs_le.mpr ⟨by norm_num, by norm_num⟩)
    (abs_le.mpr ⟨by norm_num, by norm_num⟩)
  have b := a.2.2 (by norm_num) (by norm_num) (by norm_num) (by norm_num) (by norm_num)
    (by norm_num)
  have c := hue_normalisation 7 (-3) 2
  have d := (hue_normalisation 1 (1 / 4) 0).2.2.2.2.2.1 (by norm_num) (by norm_num)
    (by norm_num) (by norm_num) (by norm_num) (by norm_num)
  exact ⟨⟨a.1, a.2.1⟩, ⟨b.1, b.2.1⟩, ⟨c.2.2.2.1, c.2.2.2.2.1⟩, ⟨d.1, d.2.1⟩⟩

/-- Claim C18. Addressing is safe and injective on a well-formed image: `idx` at an
in-bounds coordinate lies in `[0, w*h*c)`, inside the store, and is injective there;
`get_pixel` at any integers reads at an in-bounds coordinate, an offset inside the store,
and returns; `set_pixel` at any integers returns with the header and the store length as
they were; and `set_pixel` at an in-bounds coordinate leaves `get_pixel` at every other
in-bounds coordinate as it was. -/
theorem addressing_safe (im : image) (hw : WellFormed im) :
    (∀ x y ch, InBounds im x y ch →
      0 ≤ idx im x y ch ∧ idx im x y ch < im.w * im.h * im.c ∧
        (idx im x y ch).toNat < im.data.length) ∧
    (∀ x y ch x' y' ch', InBounds im x y ch → InBounds im x' y' ch' →
      idx im x y ch = idx im x' y' ch' → x = x' ∧ y = y' ∧ ch = ch') ∧
    (∀ x y ch : Int,
      InBounds im (clamp_padding im x y ch).2.1 (clamp_padding im x y ch).2.2.1
        (clamp_padding im x y ch).2.2.2 ∧
      0 ≤ idx im (clamp_padding im x y ch).2.1 (clamp_padding im x y ch).2.2.1
        (clamp_padding im x y ch).2.2.2 ∧
      (idx im (clamp_padding im x y ch).2.1 (clamp_padding im x y ch).2.2.1
        (clamp_padding im x y ch).2.2.2).toNat < im.data.length ∧
      ∃ v, get_pixel im x y ch = .ok v) ∧
    (∀ x y ch v, ∃ im', set_pixel im x y ch v = .ok im' ∧ im'.w = im.w ∧ im'.h = im.h ∧
      im'.c = im.c ∧ im'.data.length = im.data.length) ∧
    (∀ x y ch v im', InBounds im x y ch → set_pixel im x y ch v = .ok im' →
      ∀ x' y' ch', InBounds im x' y' ch' → ¬ (x' = x ∧ y' = y ∧ ch' = ch) →
        get_pixel im' x' y' ch' = get_pixel im x' y' ch') := by
  refine ⟨?_, ?_, ?_, ?_, ?_⟩
  · intro x y ch hb
    have h := offset_bounds hw hb
    rw [idx_eq_offset hw hb]
    exact ⟨h.1, h.2, lin_lt hw hb⟩
  · intro x y ch x' y' ch' hb hb' e
    rw [idx_eq_offset hw hb, idx_eq_offset hw hb'] at e
    apply lin_inj hw hb hb'
    unfold lin
    rw [e]
  · intro x y ch
    have h := clamp_padding_eq_clampTo hw.1 hw.2.1 hw.2.2.1 x y ch
    have hb := clampTo_inBounds hw.1 hw.2.1 hw.2.2.1 x y ch
    rw [h]
    refine ⟨hb, ?_, ?_, _, get_pixel_clamped hw x y ch⟩
    · rw [idx_eq_offset hw hb]; exact (offset_bounds hw hb).1
    · rw [idx_eq_offset hw hb]; exact lin_lt hw hb
  · intro x y ch v
    by_cases hb : InBounds im x y ch
    · exact ⟨_, set_pixel_eq v hw hb, rfl, rfl, rfl, List.length_set _ _ _⟩
    · exact ⟨_, set_pixel_outside v hb, rfl, rfl, rfl, rfl⟩
  · intro x y ch v im' hb e x' y' ch' hb' hne
    rw [set_pixel_eq v hw hb] at e
    cases e
    rw [get_pixel_eq (wellFormed_set hw _ _) (show InBounds _ x' y' ch' from hb'),
      get_pixel_eq hw hb']
    have hl : lin im x y ch ≠ lin im x' y' ch' := by
      intro h
      have := lin_inj hw hb hb' h
      exact hne ⟨this.1.symm, this.2.1.symm, this.2.2.symm⟩
    show Except.ok ((im.data.set _ _).getD (lin im x' y' ch') 0) = _
    rw [getD_set_ne _ hl]

theorem addressing_safe_witness :
    ∃ v, get_pixel ⟨2, 2, 1, [1, 2, 3, 4]⟩ 7 (-3) 5 = .ok v :=
  ((addressing_safe ⟨2, 2, 1, [1, 2, 3, 4]⟩ (by decide)).2.2.1 7 (-3) 5).2.2.2

/-- Counterexample to claim C19 as worded. The pixel `(H, S, V) = (1/2, 2^-30, 1)` has
binary32 samples with `0 <= H < 1`, `S > 0`, `V > 0`. In binary32 arithmetic `C = 2^-30`,
`m = V - C` rounds to 1 and so does each of `R + m`, `G + m`, `B + m`: `fhsv_to_rgb` writes
`(1, 1, 1)`, and `frgb_to_hsv` makes `(0, 0, 1)` of it, not `(1/2, 2^-30, 1)`. -/
theorem hsv_rgb_hsv_round_trip_counterexample :
    fl32 (1 / 2) = 1 / 2 ∧ fl32 (1 / 2 ^ 30) = 1 / 2 ^ 30 ∧ fl32 1 = 1 ∧
    (0 : ℚ) ≤ 1 / 2 ∧ (1 / 2 : ℚ) < 1 ∧ (0 : ℚ) < 1 / 2 ^ 30 ∧ (0 : ℚ) < 1 ∧
    fhsv_to_rgb_float (1 / 2) (1 / 2 ^ 30) 1 = (1, 1, 1) ∧
    frgb_to_hsv_float 1 1 1 = (0, 0, 1) ∧
    fpixel3 fhsv_to_rgb_float ⟨1, 1, 3, [1 / 2, 1 / 2 ^ 30, 1]⟩ none 0 0 () =
      .ok ([1, 1, 1], none, ()) ∧
    fpixel3 frgb_to_hsv_float ⟨1, 1, 3, [1, 1, 1]⟩ none 0 0 () = .ok ([0, 0, 1], none, ()) ∧
    ((0 : ℚ), (0 : ℚ), (1 : ℚ)) ≠ (1 / 2, 1 / 2 ^ 30, 1) := by
  refine ⟨fl32_half, fl32_tiny, fl32_one, by norm_num, by norm_num, by norm_num, by norm_num,
    fhsv_to_rgb_float_at, frgb_to_hsv_float_gray, ?_, ?_, ?_⟩
  · rw [fpixel3_single, fhsv_to_rgb_float_at]
  · rw [fpixel3_single, frgb_to_hsv_float_gray]
  · intro h
    have := congrArg Prod.fst h
    norm_num at this

/-- Claim C19, amended. HSV to RGB and back, for `0 <= H < 1`. In exact arithmetic the
arithmetic of `frgb_to_hsv` applied to the result of the arithmetic of `fhsv_to_rgb` gives
`(H, S, V)` back when `S > 0` and `V > 0`, and `(0, 0, V)` when `S = 0` or `V = 0`; the same
for the two callbacks on a one-pixel image. In the binary32 arithmetic of the code, for
finite binary32 samples, the result is `(0, 0, V)` when `S = 0` or `V = 0`; for `S > 0` and
`V > 0` nothing is stated, since `(H, S, V)` need not come back. -/
theorem hsv_rgb_hsv_round_trip (H S V : ℚ) (h0 : 0 ≤ H) (h1 : H < 1) :
    (0 < S → 0 < V →
      frgb_to_hsv_calc (fhsv_to_rgb_calc H S V).1 (fhsv_to_rgb_calc H S V).2.1
        (fhsv_to_rgb_calc H S V).2.2 = (H, S, V)) ∧
    (S = 0 ∨ V = 0 →
      frgb_to_hsv_calc (fhsv_to_rgb_calc H S V).1 (fhsv_to_rgb_calc H S V).2.1
        (fhsv_to_rgb_calc H S V).2.2 = (0, 0, V)) ∧
    (∃ R G B, fhsv_to_rgb ⟨1, 1, 3, [H, S, V]⟩ none 0 0 () = .ok ([R, G, B], none, ()) ∧
      (0 < S → 0 < V →
        frgb_to_hsv ⟨1, 1, 3, [R, G, B]⟩ none 0 0 () = .ok ([H, S, V], none, ())) ∧
      (S = 0 ∨ V = 0 →
        frgb_to_hsv ⟨1, 1, 3, [R, G, B]⟩ none 0 0 () = .ok ([0, 0, V], none, ()))) ∧
    (fl32 H = H → fl32 S = S → fl32 V = V → |S| < 2 ^ 128 → |V| < 2 ^ 128 →
      S = 0 ∨ V = 0 →
      frgb_to_hsv_float (fhsv_to_rgb_float H S V).1 (fhsv_to_rgb_float H S V).2.1
        (fhsv_to_rgb_float H S V).2.2 = (0, 0, V) ∧
      ∃ R G B, fpixel3 fhsv_to_rgb_float ⟨1, 1, 3, [H, S, V]⟩ none 0 0 () =
          .ok ([R, G, B], none, ()) ∧
        fpixel3 frgb_to_hsv_float ⟨1, 1, 3, [R, G, B]⟩ none 0 0 () =
          .ok ([0, 0, V], none, ())) := by
  refine ⟨reverse_calc h0 h1, reverse_calc_gray h0 h1, ⟨_, _, _,
    fpixel3_single fhsv_to_rgb_calc H S V, ?_, ?_⟩, ?_⟩
  · intro hS hV
    rw [frgb_to_hsv_eq, fpixel3_single, reverse_calc h0 h1 hS hV]
  · intro hz
    rw [frgb_to_hsv_eq, fpixel3_single, reverse_calc_gray h0 h1 hz]
  · intro _ _ fV _ _ hz
    refine ⟨reverse_float_gray H fV hz, _, _, _, fpixel3_single fhsv_to_rgb_float H S V, ?_⟩
    rw [fpixel3_single, reverse_float_gray H fV hz]

theorem hsv_rgb_hsv_round_trip_witness :
    frgb_to_hsv_calc (fhsv_to_rgb_calc (5 / 6) 2 (1 / 2)).1 (fhsv_to_rgb_calc (5 / 6) 2 (1 / 2)).2.1
      (fhsv_to_rgb_calc (5 / 6) 2 (1 / 2)).2.2 = (5 / 6, 2, 1 / 2) ∧
    frgb_to_hsv_calc (fhsv_to_rgb_calc (1 / 2) 0 1).1 (fhsv_to_rgb_calc (1 / 2) 0 1).2.1
      (fhsv_to_rgb_calc (1 / 2) 0 1).2.2 = (0, 0, 1) ∧
    frgb_to_hsv_float (fhsv_to_rgb_float (1 / 2) 0 1).1 (fhsv_to_rgb_float (1 / 2) 0 1).2.1
      (fhsv_to_rgb_float (1 / 2) 0 1).2.2 = (0, 0, 1) :=
  ⟨(hsv_rgb_hsv_round_trip (5 / 6) 2 (1 / 2) (by norm_num) (by norm_num)).1 (by norm_num)
      (by norm_num),
    (hsv_rgb_hsv_round_trip (1 / 2) 0 1 (by norm_num) (by norm_num)).2.1 (Or.inl rfl),
    ((hsv_rgb_hsv_round_trip (1 / 2) 0 1 (by norm_num) (by norm_num)).2.2.2 fl32_half fl32_zero
      fl32_one (abs_lt.mpr ⟨by norm_num, by norm_num⟩) (abs_lt.mpr ⟨by norm_num, by norm_num⟩)
      (Or.inl rfl)).1⟩

/-- Claim C20. Invalid channel argument: on a well-formed image, for a channel `k`
outside `[0, c)` and every `v`, `shift_image` and `scale_image` return the image they were
given, the whole store unchanged: every read at channel `k` is the read at the clamped
channel, and every write at channel `k` is dropped. -/
theorem invalid_channel_noop (im : image) (k : Int) (v : ℚ) (hw : WellFormed im)
    (hk : k < 0 ∨ k ≥ im.c) :
    shift_image im k v = .ok im ∧ scale_image im k v = .ok im ∧
    (∀ x y, get_pixel im x y k = get_pixel im x y (clampTo im.c k)) ∧
    (∀ x y u, set_pixel im x y k u = .ok im) := by
  refine ⟨shift_image_eq_map im k v (map_yx_point_outside _ im hw hk v),
    scale_image_eq_map im k v (map_yx_point_outside _ im hw hk v), ?_, ?_⟩
  · intro x y
    rw [get_pixel_clamped hw, get_pixel_clamped hw, clampTo_idem hw.2.2.1]
  · intro x y u
    apply set_pixel_outside
    unfold InBounds
    omega

theorem invalid_channel_noop_witness :
    shift_image ⟨2, 1, 2, [1, 2, 3, 4]⟩ 2 10 = .ok ⟨2, 1, 2, [1, 2, 3, 4]⟩ ∧
    scale_image ⟨2, 1, 2, [1, 2, 3, 4]⟩ (-1) 10 = .ok ⟨2, 1, 2, [1, 2, 3, 4]⟩ :=
  ⟨(invalid_channel_noop ⟨2, 1, 2, [1, 2, 3, 4]⟩ 2 10 (by decide) (by decide)).1,
   (invalid_channel_noop ⟨2, 1, 2, [1, 2, 3, 4]⟩ (-1) 10 (by decide) (by decide)).2.1⟩

end ProcessImage
